import Mathlib

/-!
Verification of the oxdraw diagram core (parser, auto-layout, edge router,
subgraph separation, PNG shell) against its natural-language specification.

The Rust sources under `src/src/diagram.rs` (with layout constants from
`src/src/main.rs`) are shallowly embedded below.  Machine floats (`f32`) are
modelled as exact rationals `ℚ`; the float literals `1e-3`, `1e-2`, `1e-6`
and `f32::EPSILON` are modelled by the exact rationals they denote
(`f32::EPSILON = 2⁻²³`).  Strings are modelled as `List Char`.

The crate root (`lib.rs`) of the repository is not present under `src/`; the
numeric routing/subgraph constants it defines are therefore modelled from the
spec (each such definition carries a `Modelled from the spec` comment).
-/

set_option maxHeartbeats 1000000

namespace Oxdraw

/-- Strings are modelled as lists of characters. -/
abbrev Str := List Char

/-- `char::is_whitespace` (for the ASCII inputs considered here). -/
def isWs (c : Char) : Bool := c.isWhitespace

/-- Rust `str::trim_start`. -/
def trimL (s : Str) : Str := s.dropWhile isWs

/-- Rust `str::trim_end`. -/
def trimR (s : Str) : Str := (s.reverse.dropWhile isWs).reverse

/-- Rust `str::trim`. -/
def trim (s : Str) : Str := trimR (trimL s)

/-- Rust `str::to_ascii_lowercase`. -/
def lowerA (s : Str) : Str := s.map Char.toLower

/-- Rust `str::to_ascii_uppercase`. -/
def upperA (s : Str) : Str := s.map Char.toUpper

/-- `a.eq_ignore_ascii_case(b)`. -/
def eqIgnoreCase (a b : Str) : Bool := lowerA a == lowerA b

/-- Does `s` start with the pattern `pat` (Rust `str::starts_with`)? -/
def hasLead : Str → Str → Bool
  | [], _ => true
  | _ :: _, [] => false
  | p :: ps, c :: cs => p == c && hasLead ps cs

/-- Does `s` end with the pattern `pat` (Rust `str::ends_with`)? -/
def hasTail (pat s : Str) : Bool := hasLead pat.reverse s.reverse

/-- Rust `str::contains` for a literal substring pattern. -/
def containsSub (pat : Str) : Str → Bool
  | [] => hasLead pat []
  | c :: cs => hasLead pat (c :: cs) || containsSub pat cs

/-- Rust `str::split_once` for a literal (nonempty) substring pattern:
splits at the first occurrence. -/
def splitOnceSub (pat : Str) : Str → Option (Str × Str)
  | [] => if hasLead pat [] then some ([], []) else none
  | c :: cs =>
    if hasLead pat (c :: cs) then some ([], (c :: cs).drop pat.length)
    else (splitOnceSub pat cs).map (fun lr => (c :: lr.1, lr.2))

/-- Split on every occurrence of a single character (used for `str::lines`
and label `'\n'` handling); always returns a nonempty list. -/
def splitCh (x : Char) : Str → List Str
  | [] => [[]]
  | c :: cs =>
    let rest := splitCh x cs
    if c == x then [] :: rest
    else (c :: rest.headI) :: rest.tail

/-- The per-line `'\r'` stripping of Rust `str::lines`. -/
def crStrip (l : Str) : Str := if hasTail ['\r'] l then l.dropLast else l

/-- Rust `str::lines`: split on `'\n'`, drop a final empty piece, strip a
trailing `'\r'` from each line. -/
def rustLines (s : Str) : List Str :=
  let parts := splitCh '\n' s
  let parts := if parts.getLast? = some [] then parts.dropLast else parts
  parts.map crStrip

/-- Rust `str::split_whitespace` (accumulator-based single pass). -/
def splitWsAux : Str → Str → List Str
  | [], acc => if acc.isEmpty then [] else [acc.reverse]
  | c :: cs, acc =>
    if isWs c then
      if acc.isEmpty then splitWsAux cs [] else acc.reverse :: splitWsAux cs []
    else splitWsAux cs (c :: acc)

/-- Rust `str::split_whitespace`. -/
def splitWs (s : Str) : List Str := splitWsAux s []

/-- `"\n".join`-style concatenation (Rust `Vec::join("\n")`). -/
def joinLines : List Str → Str
  | [] => []
  | [l] => l
  | l :: ls => l ++ '\n' :: joinLines ls

/-- `"    ".repeat(depth)`. -/
def indentOf (depth : ℕ) : Str := (List.replicate depth (' ' :: ' ' :: ' ' :: [' '])).flatten

/-! ## Exact rationals with kernel-computable arithmetic

`f32` values are modelled as exact rationals.  Mathlib's `ℚ` arithmetic
does not reduce inside the kernel (its normalization uses well-founded
recursion), so the embedding computes with `Frac` — a fraction type with
a positive denominator and structurally recursive (fuel-bounded Euclid)
normalization — and `Frac.val : Frac → ℚ` transports facts to `ℚ` for
proofs. -/

/-- Fuel-bounded Euclid: returns a positive common divisor of `a` and
`b` (the gcd when the fuel suffices, which it does for all numbers
arising here; `1` otherwise). -/
def gcdF : ℕ → ℕ → ℕ → ℕ
  | 0, _, _ => 1
  | _ + 1, a, 0 => if a = 0 then 1 else a
  | fuel + 1, a, b + 1 => gcdF fuel (b + 1) (a % (b + 1))

theorem gcdF_pos (fuel a b : ℕ) : 0 < gcdF fuel a b := by
  induction fuel generalizing a b with
  | zero => simp [gcdF]
  | succ n ih =>
    match b with
    | 0 =>
      by_cases h : a = 0 <;> simp [gcdF, h]
      omega
    | b + 1 => exact ih (b + 1) (a % (b + 1))

theorem gcdF_dvd (fuel a b : ℕ) : gcdF fuel a b ∣ a ∧ gcdF fuel a b ∣ b := by
  induction fuel generalizing a b with
  | zero => simp [gcdF]
  | succ n ih =>
    match b with
    | 0 =>
      by_cases h : a = 0 <;> simp [gcdF, h]
    | b + 1 =>
      have h := ih (b + 1) (a % (b + 1))
      refine ⟨?_, h.1⟩
      have := Nat.mod_add_div a (b + 1)
      calc gcdF n (b + 1) (a % (b + 1)) ∣ (a % (b + 1)) + (b + 1) * (a / (b + 1)) :=
        Nat.dvd_add h.2 (Dvd.dvd.mul_right h.1 _)
      _ = a := this

/-- An exact rational: numerator, positive denominator. -/
structure Frac where
  n : ℤ
  d : ℤ
  dpos : 0 < d

instance : DecidableEq Frac := fun a b =>
  decidable_of_iff (a.n = b.n ∧ a.d = b.d) (by
    cases a; cases b; simp_all)

instance : Repr Frac := ⟨fun a _ => repr a.n ++ "/" ++ repr a.d⟩

/-- The rational value of a `Frac`. -/
def Frac.val (a : Frac) : ℚ := (a.n : ℚ) / (a.d : ℚ)

/-- The common divisor used by the normalizing constructor. -/
def fracG (n d : ℤ) : ℤ := (gcdF 200 n.natAbs d.toNat : ℕ)

theorem fracG_pos (n d : ℤ) : 0 < fracG n d :=
  Int.natCast_pos.mpr (gcdF_pos _ _ _)

theorem fracG_dvd_left (n d : ℤ) : fracG n d ∣ n :=
  (Int.natCast_dvd_natCast.mpr (gcdF_dvd _ _ _).1).trans (Int.natAbs_dvd.mpr dvd_rfl)

theorem fracG_dvd_right (n d : ℤ) (h : 0 < d) : fracG n d ∣ d := by
  have h2 : fracG n d ∣ (d.toNat : ℤ) := Int.natCast_dvd_natCast.mpr (gcdF_dvd _ _ _).2
  rwa [Int.toNat_of_nonneg h.le] at h2

theorem frac_div_pos (n d : ℤ) (h : 0 < d) : 0 < d / fracG n d := by
  have hc : d / fracG n d * fracG n d = d := Int.ediv_mul_cancel (fracG_dvd_right n d h)
  nlinarith [fracG_pos n d]

/-- Normalizing constructor. -/
def Frac.mk' (n d : ℤ) (h : 0 < d) : Frac :=
  ⟨n / fracG n d, d / fracG n d, frac_div_pos n d h⟩

theorem int_cast_ediv_of_dvd (g n : ℤ) (hg : g ≠ 0) (h : g ∣ n) :
    ((n / g : ℤ) : ℚ) = (n : ℚ) / (g : ℚ) := by
  rcases h with ⟨k, rfl⟩
  rw [Int.mul_ediv_cancel_left _ hg]
  have : (g : ℚ) ≠ 0 := by exact_mod_cast hg
  push_cast
  field_simp

theorem Frac.mk'_val (n d : ℤ) (h : 0 < d) : (Frac.mk' n d h).val = (n : ℚ) / d := by
  have hg := (fracG_pos n d).ne'
  have hgQ : ((fracG n d : ℤ) : ℚ) ≠ 0 := by exact_mod_cast hg
  have hd : ((d : ℤ) : ℚ) ≠ 0 := by
    intro hc
    have : d = 0 := by exact_mod_cast hc
    omega
  show ((n / fracG n d : ℤ) : ℚ) / ((d / fracG n d : ℤ) : ℚ) = (n : ℚ) / d
  rw [int_cast_ediv_of_dvd _ _ hg (fracG_dvd_left n d),
    int_cast_ediv_of_dvd _ _ hg (fracG_dvd_right n d h), div_div_div_cancel_right₀]
  exact hgQ

/-- Addition. -/
def Frac.add (a b : Frac) : Frac :=
  Frac.mk' (a.n * b.d + b.n * a.d) (a.d * b.d) (mul_pos a.dpos b.dpos)

/-- Negation. -/
def Frac.neg (a : Frac) : Frac := ⟨-a.n, a.d, a.dpos⟩

/-- Subtraction. -/
def Frac.sub (a b : Frac) : Frac :=
  Frac.mk' (a.n * b.d - b.n * a.d) (a.d * b.d) (mul_pos a.dpos b.dpos)

/-- Multiplication. -/
def Frac.mul (a b : Frac) : Frac :=
  Frac.mk' (a.n * b.n) (a.d * b.d) (mul_pos a.dpos b.dpos)

/-- Division (`x / 0 = 0`, as for `ℚ`). -/
def Frac.div (a b : Frac) : Frac :=
  if h : 0 < b.n then
    Frac.mk' (a.n * b.d) (a.d * b.n) (mul_pos a.dpos h)
  else if h' : b.n < 0 then
    Frac.mk' (-(a.n * b.d)) (a.d * -b.n) (mul_pos a.dpos (by omega))
  else ⟨0, 1, one_pos⟩

instance : Add Frac := ⟨Frac.add⟩
instance : Neg Frac := ⟨Frac.neg⟩
instance : Sub Frac := ⟨Frac.sub⟩
instance : Mul Frac := ⟨Frac.mul⟩
instance : Div Frac := ⟨Frac.div⟩
instance : OfNat Frac k := ⟨⟨(k : ℤ), 1, one_pos⟩⟩
instance : NatCast Frac := ⟨fun k => ⟨(k : ℤ), 1, one_pos⟩⟩
instance : IntCast Frac := ⟨fun k => ⟨k, 1, one_pos⟩⟩

/-- Strict order. -/
def Frac.lt (a b : Frac) : Prop := a.n * b.d < b.n * a.d

/-- Order. -/
def Frac.le (a b : Frac) : Prop := a.n * b.d ≤ b.n * a.d

instance : LT Frac := ⟨Frac.lt⟩
instance : LE Frac := ⟨Frac.le⟩

instance (a b : Frac) : Decidable (a < b) :=
  inferInstanceAs (Decidable (a.n * b.d < b.n * a.d))

instance (a b : Frac) : Decidable (a ≤ b) :=
  inferInstanceAs (Decidable (a.n * b.d ≤ b.n * a.d))

/-- Minimum. -/
def Frac.min (a b : Frac) : Frac := if a ≤ b then a else b

/-- Maximum. -/
def Frac.max (a b : Frac) : Frac := if a ≤ b then b else a

instance : Min Frac := ⟨Frac.min⟩
instance : Max Frac := ⟨Frac.max⟩

/-- Absolute value. -/
def Frac.abs (a : Frac) : Frac := ⟨|a.n|, a.d, a.dpos⟩

/-- Value equality (`f32 ==`): cross multiplication. -/
def Frac.veq (a b : Frac) : Prop := a.n * b.d = b.n * a.d

instance (a b : Frac) : Decidable (a.veq b) :=
  inferInstanceAs (Decidable (a.n * b.d = b.n * a.d))

theorem Frac.val_def (a : Frac) : a.val = (a.n : ℚ) / (a.d : ℚ) := rfl

theorem Frac.dQ_pos (a : Frac) : (0 : ℚ) < (a.d : ℚ) := by exact_mod_cast a.dpos

theorem Frac.dQ_ne (a : Frac) : ((a.d : ℚ)) ≠ 0 := (Frac.dQ_pos a).ne'

theorem Frac.val_add (a b : Frac) : (a + b).val = a.val + b.val := by
  show (Frac.add a b).val = _
  rw [Frac.add, Frac.mk'_val, Frac.val_def, Frac.val_def]
  push_cast
  rw [div_add_div _ _ (Frac.dQ_ne a) (Frac.dQ_ne b)]
  ring_nf

theorem Frac.val_neg (a : Frac) : (-a).val = -a.val := by
  show (Frac.neg a).val = _
  rw [Frac.neg, Frac.val_def, Frac.val_def]
  push_cast
  ring_nf

theorem Frac.val_sub (a b : Frac) : (a - b).val = a.val - b.val := by
  show (Frac.sub a b).val = _
  rw [Frac.sub, Frac.mk'_val, Frac.val_def, Frac.val_def]
  push_cast
  rw [div_sub_div _ _ (Frac.dQ_ne a) (Frac.dQ_ne b)]
  ring_nf

theorem Frac.val_mul (a b : Frac) : (a * b).val = a.val * b.val := by
  show (Frac.mul a b).val = _
  rw [Frac.mul, Frac.mk'_val, Frac.val_def, Frac.val_def]
  push_cast
  rw [div_mul_div_comm]

theorem Frac.val_div (a b : Frac) : (a / b).val = a.val / b.val := by
  show (Frac.div a b).val = _
  have ha := Frac.dQ_ne a
  have hb := Frac.dQ_ne b
  unfold Frac.div
  rcases lt_trichotomy b.n 0 with h | h | h
  · rw [dif_neg (by omega), dif_pos h, Frac.mk'_val, Frac.val_def, Frac.val_def]
    have hbn : (b.n : ℚ) ≠ 0 := by exact_mod_cast h.ne
    push_cast
    field_simp
  · rw [dif_neg (by omega), dif_neg (by omega), Frac.val_def, Frac.val_def,
      Frac.val_def, h]
    norm_num
  · rw [dif_pos h, Frac.mk'_val, Frac.val_def, Frac.val_def]
    have hbn : (b.n : ℚ) ≠ 0 := by exact_mod_cast h.ne'
    push_cast
    field_simp

theorem Frac.val_lt_iff (a b : Frac) : a < b ↔ a.val < b.val := by
  show Frac.lt a b ↔ _
  rw [Frac.lt, Frac.val_def, Frac.val_def,
    div_lt_div_iff (Frac.dQ_pos a) (Frac.dQ_pos b)]
  exact_mod_cast Iff.rfl

theorem Frac.val_le_iff (a b : Frac) : a ≤ b ↔ a.val ≤ b.val := by
  show Frac.le a b ↔ _
  rw [Frac.le, Frac.val_def, Frac.val_def,
    div_le_div_iff (Frac.dQ_pos a) (Frac.dQ_pos b)]
  exact_mod_cast Iff.rfl

theorem Frac.veq_iff (a b : Frac) : a.veq b ↔ a.val = b.val := by
  rw [Frac.veq, Frac.val_def, Frac.val_def,
    div_eq_div_iff (Frac.dQ_ne a) (Frac.dQ_ne b)]
  exact_mod_cast Iff.rfl

theorem Frac.val_min (a b : Frac) : (Min.min a b).val = Min.min a.val b.val := by
  show (Frac.min a b).val = _
  rw [Frac.min]
  by_cases h : a ≤ b
  · rw [if_pos h, min_eq_left ((Frac.val_le_iff a b).mp h)]
  · rw [if_neg h]
    rw [min_eq_right]
    have := (Frac.val_le_iff b a).mp
    by_contra hc
    push_neg at hc
    exact h ((Frac.val_le_iff a b).mpr hc.le)

theorem Frac.val_max (a b : Frac) : (Max.max a b).val = Max.max a.val b.val := by
  show (Frac.max a b).val = _
  rw [Frac.max]
  by_cases h : a ≤ b
  · rw [if_pos h, max_eq_right ((Frac.val_le_iff a b).mp h)]
  · rw [if_neg h]
    rw [max_eq_left]
    by_contra hc
    push_neg at hc
    exact h ((Frac.val_le_iff a b).mpr hc.le)

theorem Frac.val_abs (a : Frac) : a.abs.val = |a.val| := by
  rw [Frac.abs, Frac.val_def, Frac.val_def, abs_div, abs_of_pos (Frac.dQ_pos a)]
  push_cast
  rfl

theorem Frac.val_ofNat (k : ℕ) [k.AtLeastTwo] :
    (OfNat.ofNat k : Frac).val = (OfNat.ofNat k : ℚ) := by
  show ((k : ℤ) : ℚ) / ((1 : ℤ) : ℚ) = _
  norm_num
  rfl

theorem Frac.val_zero : (0 : Frac).val = 0 := by
  show ((0 : ℤ) : ℚ) / ((1 : ℤ) : ℚ) = 0
  norm_num

theorem Frac.val_one : (1 : Frac).val = 1 := by
  show ((1 : ℤ) : ℚ) / ((1 : ℤ) : ℚ) = 1
  norm_num

theorem Frac.val_natCast (k : ℕ) : ((k : Frac)).val = (k : ℚ) := by
  show ((k : ℤ) : ℚ) / ((1 : ℤ) : ℚ) = _
  norm_num

/-- Integer square root by fuel-bounded Newton iteration (exact floor for
the fuel used here on all inputs that arise; correctness is never
assumed — callers test the result). -/
def isqrtIter (n : ℕ) : ℕ → ℕ → ℕ
  | 0, x => x
  | fuel + 1, x =>
    if x * x ≤ n then x
    else isqrtIter n fuel ((x + n / x) / 2)

/-- Integer square root (see `isqrtIter`). -/
def isqrt (n : ℕ) : ℕ := if n ≤ 1 then n else isqrtIter n 200 n

/-- Ceiling of a `Frac` as an integer. -/
def Frac.ceilz (a : Frac) : ℤ := -((-a.n).ediv a.d)

/-- Rounding of a `Frac` to the nearest integer (half up). -/
def Frac.roundz (a : Frac) : ℤ := (2 * a.n + a.d).ediv (2 * a.d)

/-- Stable insertion of `x` into a `le`-sorted list (after all equal
elements). -/
def insertSorted {α : Type} (le : α → α → Bool) (x : α) : List α → List α
  | [] => [x]
  | y :: ys => if le y x then y :: insertSorted le x ys else x :: y :: ys

/-- Stable insertion sort (models Rust's stable `sort_by` and the ordered
iteration of a `BTreeMap`). -/
def sortByF {α : Type} (le : α → α → Bool) (l : List α) : List α :=
  l.foldl (fun acc x => insertSorted le x acc) []

/-! ## Data model (`main.rs` / `diagram.rs` types) -/

/-- `enum Direction`. -/
inductive Direction where
  | TopDown | BottomTop | LeftRight | RightLeft
  deriving DecidableEq, Repr

/-- `enum NodeShape`. -/
inductive NodeShape where
  | Rectangle | Stadium | Circle | Diamond
  deriving DecidableEq, Repr

/-- `enum EdgeKind`. -/
inductive EdgeKind where
  | Solid | Dashed
  deriving DecidableEq, Repr

/-- `struct Node` (the fields constructed by `Diagram::parse`). -/
structure Node where
  label : Str
  shape : NodeShape
  deriving DecidableEq, Repr

/-- `struct Edge`. -/
structure Edge where
  «from» : Str
  «to» : Str
  label : Option Str
  kind : EdgeKind
  deriving DecidableEq, Repr

/-- `struct Subgraph` (also used for `SubgraphBuilder`, whose
`into_subgraph` conversion is the identity under this representation). -/
inductive Subgraph where
  | mk (id : Str) (label : Str) (nodes : List Str) (children : List Subgraph)
      (order : ℕ)

/-- Subgraph id. -/
def Subgraph.id : Subgraph → Str
  | .mk i _ _ _ _ => i

/-- Subgraph label. -/
def Subgraph.label : Subgraph → Str
  | .mk _ l _ _ _ => l

/-- Directly owned node ids. -/
def Subgraph.nodes : Subgraph → List Str
  | .mk _ _ n _ _ => n

/-- Nested children. -/
def Subgraph.children : Subgraph → List Subgraph
  | .mk _ _ _ c _ => c

/-- Declaration order index. -/
def Subgraph.order : Subgraph → ℕ
  | .mk _ _ _ _ o => o

/-- `struct Diagram`.  The Rust `HashMap` fields (`nodes`,
`node_membership`) are modelled as association lists in insertion order;
`Diagram::parse` only ever inserts fresh keys into them, so lookup
behaviour coincides with the hash map's. -/
structure Diagram where
  direction : Direction
  nodes : List (Str × Node)
  order : List Str
  edges : List Edge
  subgraphs : List Subgraph
  nodeMembership : List (Str × List Str)

/-- Association-list lookup (models `HashMap::get` for unique keys). -/
def alGet {κ α : Type} [DecidableEq κ] (m : List (κ × α)) (k : κ) : Option α :=
  match m with
  | [] => none
  | (k', v) :: rest => if k' = k then some v else alGet rest k

/-- Association-list insert-or-replace (models `HashMap::insert`). -/
def alPut {κ α : Type} [DecidableEq κ] (m : List (κ × α)) (k : κ) (v : α) :
    List (κ × α) :=
  match m with
  | [] => [(k, v)]
  | (k', v') :: rest => if k' = k then (k, v) :: rest else (k', v') :: alPut rest k v

/-- Key membership in an association list (`HashMap::contains_key`). -/
def alHas {κ α : Type} [DecidableEq κ] (m : List (κ × α)) (k : κ) : Bool :=
  (alGet m k).isSome

/-- `str::strip_prefix` for a literal pattern. -/
def stripLead (pat s : Str) : Option Str :=
  if hasLead pat s then some (s.drop pat.length) else none

/-! ## Grammar parser (`Diagram::parse` and helpers) -/

/-- `EdgeKind::arrow_token`. -/
def EdgeKind.arrowToken : EdgeKind → Str
  | .Solid => ("-->").data
  | .Dashed => ("-.->").data

/-- `Direction::as_token`. -/
def Direction.asToken : Direction → Str
  | .TopDown => ("TD").data
  | .LeftRight => ("LR").data
  | .BottomTop => ("BT").data
  | .RightLeft => ("RL").data

/-- `edge_identifier`: `"{from} {arrow} {to}"`. -/
def edgeIdentifier (e : Edge) : Str :=
  e.«from» ++ ' ' :: e.kind.arrowToken ++ ' ' :: e.«to»

/-- `parse_graph_header`. -/
def parseGraphHeader (line : Str) : Except String Direction := do
  match splitWs line with
  | [] => .error "empty header line"
  | kw :: rest =>
    if lowerA kw ≠ ("graph").data then
      .error "diagram must start with 'graph'"
    else
      let directionToken := upperA (trim (rest.headD ("TD").data))
      if directionToken = ("TD").data ∨ directionToken = ("TB").data then
        pure .TopDown
      else if directionToken = ("BT").data then pure .BottomTop
      else if directionToken = ("LR").data then pure .LeftRight
      else if directionToken = ("RL").data then pure .RightLeft
      else .error "unsupported direction in header"

/-- `normalize_subgraph_id`. -/
def normalizeSubgraphId (raw : Str) : Str :=
  let id := trim raw
  let id := if id.isEmpty then ("subgraph").data else id
  id.map (fun ch => if isWs ch then '_' else ch)

/-- `parse_subgraph_header`: returns `(id, label)`. -/
def parseSubgraphHeader (raw : Str) : Except String (Str × Str) :=
  let trimmed := trim raw
  if trimmed.isEmpty then .error "subgraph declaration missing identifier"
  else
    match trimmed.findIdx? (· = '[') with
    | some start =>
      if hasTail (['\x5d']) trimmed ∧ start < trimmed.length - 1 then
        let idPart := trim (trimmed.take start)
        if idPart.isEmpty then .error "subgraph identifier cannot be empty"
        else
          let labelPart := trim ((trimmed.drop (start + 1)).take (trimmed.length - 1 - (start + 1)))
          let label := if labelPart.isEmpty then idPart else labelPart
          .ok (normalizeSubgraphId idPart, label)
      else parseSubgraphHeaderQuoted trimmed
    | none => parseSubgraphHeaderQuoted trimmed
where
  /-- The quoted-label and fallback branches of `parse_subgraph_header`. -/
  parseSubgraphHeaderQuoted (trimmed : Str) : Except String (Str × Str) :=
    if hasLead ['"'] trimmed ∧ hasTail ['"'] trimmed ∧ 2 ≤ trimmed.length then
      let label := trim ((trimmed.drop 1).take (trimmed.length - 2))
      if label.isEmpty then .error "subgraph label cannot be empty"
      else .ok (normalizeSubgraphId label, label)
    else .ok (normalizeSubgraphId trimmed, trimmed)

/-- `struct NodeSpec`. -/
structure NodeSpec where
  id : Str
  label : Str
  shape : NodeShape

/-- Is `c` one of the shape-opening brackets `[`, `(`, `{`? -/
def isShapeOpen (c : Char) : Bool := c = '[' ∨ c = '(' ∨ c = '\x7b'

/-- `NodeSpec::parse`. -/
def NodeSpec.parse (raw : Str) : Except String NodeSpec :=
  let trimmed := trim raw
  if trimmed.isEmpty then .error "encountered empty node reference"
  else
    let id := trim (trimmed.takeWhile (fun c => ¬ isShapeOpen c))
    if id.isEmpty then .error "node identifier missing"
    else
      let remainder := trim (trimmed.dropWhile (fun c => ¬ isShapeOpen c))
      let inner (k : ℕ) : Str :=
        trim ((remainder.drop k).take (remainder.length - 2 * k))
      let (label, shape) :=
        if remainder.isEmpty then (id, NodeShape.Rectangle)
        else if hasLead (['(', '(']) remainder ∧ hasTail ([')', ')']) remainder ∧
            4 ≤ remainder.length then
          (inner 2, NodeShape.Circle)
        else if hasLead (['(']) remainder ∧ hasTail ([')']) remainder ∧
            2 ≤ remainder.length then
          (inner 1, NodeShape.Stadium)
        else if hasLead (['[']) remainder ∧ hasTail (['\x5d']) remainder ∧
            2 ≤ remainder.length then
          (inner 1, NodeShape.Rectangle)
        else if hasLead (['\x7b']) remainder ∧ hasTail (['\x7d']) remainder ∧
            2 ≤ remainder.length then
          (inner 1, NodeShape.Diamond)
        else (trimmed, NodeShape.Rectangle)
      .ok ⟨id, if label.isEmpty then id else label, shape⟩

/-- The mutable state threaded through `Diagram::parse`'s line loop.  The
subgraph stack keeps its top (Rust `Vec` tail) at the list head. -/
structure PSt where
  nodes : List (Str × Node)
  order : List Str
  edges : List Edge
  membership : List (Str × List Str)
  stack : List Subgraph
  tops : List Subgraph
  seen : List Str
  counter : ℕ

/-- The initial parse state. -/
def PSt.init : PSt := ⟨[], [], [], [], [], [], [], 0⟩

/-- `record_node_membership`. -/
def recordNodeMembership (nodeId : Str) (st : PSt) : PSt :=
  let path := (st.stack.map Subgraph.id).reverse
  let st := { st with membership := alPut st.membership nodeId path }
  match st.stack with
  | [] => st
  | top :: rest =>
    if nodeId ∈ top.nodes then st
    else
      let top' := Subgraph.mk top.id top.label (top.nodes ++ [nodeId]) top.children top.order
      { st with stack := top' :: rest }

/-- `insert_node_spec`: returns the id and whether a fresh node was added. -/
def insertNodeSpec (spec : NodeSpec) (st : PSt) : Str × Bool × PSt :=
  if alHas st.nodes spec.id then (spec.id, false, st)
  else (spec.id, true,
    { st with nodes := st.nodes ++ [(spec.id, ⟨spec.label, spec.shape⟩)],
              order := st.order ++ [spec.id] })

/-- `intern_node`. -/
def internNode (raw : Str) (st : PSt) : Except String (Str × Bool × PSt) := do
  let spec ← NodeSpec.parse raw
  pure (insertNodeSpec spec st)

/-- `parse_node_line`: returns whether the line was consumed as a node
declaration.  A `NodeSpec::parse` failure is swallowed (`return Ok(false)`). -/
def parseNodeLine (line : Str) (st : PSt) : Except String (Bool × PSt) :=
  if containsSub (("-->").data) line ∨ containsSub (("-.->").data) line then
    .ok (false, st)
  else
    match NodeSpec.parse line with
    | .error _ => .ok (false, st)
    | .ok spec =>
      let (id, inserted, st) := insertNodeSpec spec st
      if inserted then .ok (true, recordNodeMembership id st)
      else if ¬ alHas st.membership id then
        if st.stack.isEmpty then
          .ok (true, { st with membership := alPut st.membership id [] })
        else .ok (true, recordNodeMembership id st)
      else .ok (true, st)

/-- `parse_edge_line`: recognizes `-.->` then `-->`, parses an optional
`|label|`, and interns both operands. -/
def parseEdgeLine (line : Str) (st : PSt) : Except String (Option Edge × PSt) := do
  let parts :=
    match splitOnceSub (("-.->").data) line with
    | some (lhs, rhs) => some (trim lhs, trim rhs, EdgeKind.Dashed)
    | none =>
      match splitOnceSub (("-->").data) line with
      | some (lhs, rhs) => some (trim lhs, trim rhs, EdgeKind.Solid)
      | none => none
  match parts with
  | none => pure (none, st)
  | some (lhs, rhs, kind) =>
    let labelTarget ←
      match stripLead ['|'] rhs with
      | some rest =>
        match splitOnceSub ['|'] rest with
        | none => Except.error "edge label missing closing bar"
        | some (lab, target) => pure (some (trim lab), trim target)
      | none => pure (none, rhs)
    let (label, rhsClean) := labelTarget
    let (fromId, fromNew, st) ← internNode lhs st
    let st :=
      if fromNew then recordNodeMembership fromId st
      else if ¬ alHas st.membership fromId ∧ st.stack.isEmpty then
        { st with membership := alPut st.membership fromId [] }
      else st
    let (toId, toNew, st) ← internNode rhsClean st
    let st :=
      if toNew then recordNodeMembership toId st
      else if ¬ alHas st.membership toId ∧ st.stack.isEmpty then
        { st with membership := alPut st.membership toId [] }
      else st
    pure (some ⟨fromId, toId, label, kind⟩, st)

/-- One iteration of `Diagram::parse`'s loop over significant lines. -/
def parseLineStep (st : PSt) (line : Str) : Except String PSt := do
  match stripLead (("subgraph").data) line with
  | some rest =>
    let (id, label) ← parseSubgraphHeader rest
    if id ∈ st.seen then .error "duplicate subgraph identifier"
    else
      pure { st with seen := st.seen ++ [id],
                     stack := Subgraph.mk id label [] [] st.counter :: st.stack,
                     counter := st.counter + 1 }
  | none =>
    if eqIgnoreCase line (("end").data) then
      match st.stack with
      | [] => .error "encountered end without matching subgraph"
      | builder :: rest =>
        match rest with
        | parent :: rest' =>
          let parent' := Subgraph.mk parent.id parent.label parent.nodes
            (parent.children ++ [builder]) parent.order
          pure { st with stack := parent' :: rest' }
        | [] => pure { st with stack := [], tops := st.tops ++ [builder] }
    else do
      let (edge?, st) ← parseEdgeLine line st
      match edge? with
      | some e => pure { st with edges := st.edges ++ [e] }
      | none =>
        let (_, st) ← parseNodeLine line st
        pure st

/-- The significant lines of a definition: trimmed, non-blank,
non-comment (`%%`). -/
def significantLines (definition : Str) : List Str :=
  ((rustLines definition).map trim).filter
    (fun l => ¬ l.isEmpty ∧ ¬ hasLead (['%', '%']) l)

/-- `Diagram::parse`. -/
def Diagram.parse (definition : Str) : Except String Diagram := do
  match significantLines definition with
  | [] => .error "diagram definition must start with a graph declaration"
  | header :: rest =>
    let direction ← parseGraphHeader header
    let st ← rest.foldlM parseLineStep PSt.init
    if ¬ st.stack.isEmpty then .error "subgraph missing closing end"
    else if st.nodes.isEmpty then .error "diagram does not declare any nodes"
    else pure ⟨direction, st.nodes, st.order, st.edges, st.tops, st.membership⟩

/-! ## Serialization (`Diagram::to_definition`) -/

/-- `NodeShape::format_spec`. -/
def NodeShape.formatSpec (shape : NodeShape) (id label : Str) : Str :=
  match shape with
  | .Rectangle => if label = id then id else id ++ '[' :: label ++ ['\x5d']
  | .Stadium => id ++ '(' :: label ++ [')']
  | .Circle => id ++ '(' :: '(' :: label ++ [')', ')']
  | .Diamond => id ++ '\x7b' :: label ++ ['\x7d']

/-- `Diagram::format_node_line`. -/
def formatNodeLine (id : Str) (node : Node) : Str :=
  node.shape.formatSpec id node.label

/-- `Diagram::format_edge_line`. -/
def formatEdgeLine (e : Edge) : Str :=
  match e.label with
  | some label =>
    e.«from» ++ ' ' :: e.kind.arrowToken ++ '|' :: label ++ '|' :: ' ' :: e.«to»
  | none => e.«from» ++ ' ' :: e.kind.arrowToken ++ ' ' :: e.«to»

mutual

/-- `Diagram::emit_subgraph_definition` (threads the emitted-ids set). -/
def emitSubgraphDefinition (order : List Str) (nodes : List (Str × Node))
    (sg : Subgraph) (depth : ℕ) (lines : List Str) (emitted : List Str) :
    List Str × List Str :=
  match sg with
  | .mk sgId sgLabel sgNodes sgChildren _ =>
    let header := if sgLabel = sgId then sgId else sgId ++ '[' :: sgLabel ++ ['\x5d']
    let lines := lines ++ [indentOf depth ++ ("subgraph ").data ++ header]
    let innerIndent := indentOf (depth + 1)
    let step := fun (acc : List Str × List Str) (id : Str) =>
      if id ∈ sgNodes then
        if id ∈ acc.2 then acc
        else
          match alGet nodes id with
          | some node => (acc.1 ++ [innerIndent ++ formatNodeLine id node], acc.2 ++ [id])
          | none => (acc.1, acc.2 ++ [id])
      else acc
    let le := order.foldl step (lines, emitted)
    let le := emitSubgraphChildren order nodes sgChildren (depth + 1) le.1 le.2
    (le.1 ++ [indentOf depth ++ ("end").data], le.2)

/-- The recursion of `emit_subgraph_definition` over a child list. -/
def emitSubgraphChildren (order : List Str) (nodes : List (Str × Node))
    (children : List Subgraph) (depth : ℕ) (lines : List Str)
    (emitted : List Str) : List Str × List Str :=
  match children with
  | [] => (lines, emitted)
  | child :: rest =>
    let le := emitSubgraphDefinition order nodes child depth lines emitted
    emitSubgraphChildren order nodes rest depth le.1 le.2

end

/-- The loop over top-level subgraphs in `to_definition`, inserting a blank
line between consecutive blocks. -/
def emitTopSubgraphs (order : List Str) (nodes : List (Str × Node))
    (sgs : List Subgraph) (lines : List Str) (emitted : List Str) :
    List Str × List Str :=
  match sgs with
  | [] => (lines, emitted)
  | [sg] => emitSubgraphDefinition order nodes sg 1 lines emitted
  | sg :: rest =>
    let le := emitSubgraphDefinition order nodes sg 1 lines emitted
    emitTopSubgraphs order nodes rest (le.1 ++ [[]]) le.2

/-- `Diagram::to_definition`, up to the final join: the emitted lines. -/
def Diagram.toDefinitionLines (d : Diagram) : List Str :=
  let lines : List Str := [("graph ").data ++ d.direction.asToken]
  let le := emitTopSubgraphs d.order d.nodes d.subgraphs lines []
  let (lines, emitted) := le
  let lines :=
    if ¬ d.subgraphs.isEmpty ∧ d.order.any (fun id => ¬ id ∈ emitted) then
      lines ++ [[]]
    else lines
  let lines := d.order.foldl (fun acc id =>
    if id ∈ emitted then acc
    else match alGet d.nodes id with
      | some node => acc ++ [formatNodeLine id node]
      | none => acc) lines
  let lines :=
    if ¬ d.edges.isEmpty ∧ ¬ lines.isEmpty then lines ++ [[]] else lines
  let lines := lines ++ d.edges.map formatEdgeLine
  (lines.reverse.dropWhile List.isEmpty).reverse

/-- `Diagram::to_definition`. -/
def Diagram.toDefinition (d : Diagram) : Str :=
  joinLines d.toDefinitionLines ++ ['\n']

/-! ## Layout constants

The first five are the values from `main.rs`.  The remaining numeric
constants are defined in the crate root (`lib.rs`), which is not present
under `src/`; each is `Modelled from the spec` with a representative
positive value. -/

/-- `const NODE_WIDTH: f32 = 140.0`. -/
def NODE_WIDTH : Frac := 140
/-- `const NODE_HEIGHT: f32 = 60.0`. -/
def NODE_HEIGHT : Frac := 60
/-- `const NODE_SPACING: f32 = 160.0`. -/
def NODE_SPACING : Frac := 160
/-- `const START_OFFSET: f32 = 120.0`. -/
def START_OFFSET : Frac := 120
/-- `const LAYOUT_MARGIN: f32 = 80.0`. -/
def LAYOUT_MARGIN : Frac := 80

/-- Modelled from the spec: the collision margin used to inflate node
rectangles ("inflated bounds"); numeric value missing from `src/`. -/
def EDGE_COLLISION_MARGIN : Frac := 12
/-- Modelled from the spec: base perpendicular offset for bidirectional
pairs; numeric value missing from `src/`. -/
def EDGE_BIDIRECTIONAL_OFFSET : Frac := 40
/-- Modelled from the spec: base stub length for bidirectional pairs;
numeric value missing from `src/`. -/
def EDGE_BIDIRECTIONAL_STUB : Frac := 30
/-- Modelled from the spec: per-attempt offset increment for bidirectional
pairs; numeric value missing from `src/`. -/
def EDGE_BIDIRECTIONAL_OFFSET_STEP : Frac := 10
/-- Modelled from the spec: per-attempt stub increment for bidirectional
pairs; numeric value missing from `src/`. -/
def EDGE_BIDIRECTIONAL_STUB_STEP : Frac := 10
/-- Modelled from the spec: the bounded number of collision-search
attempts; numeric value missing from `src/`. -/
def EDGE_COLLISION_MAX_ITER : ℕ := 2
/-- Modelled from the spec: base offset for the single-edge conflict
search; numeric value missing from `src/`. -/
def EDGE_SINGLE_OFFSET : Frac := 40
/-- Modelled from the spec: base stub for the single-edge conflict search;
numeric value missing from `src/`. -/
def EDGE_SINGLE_STUB : Frac := 30
/-- Modelled from the spec: offset step for the single-edge conflict
search; numeric value missing from `src/`. -/
def EDGE_SINGLE_OFFSET_STEP : Frac := 10
/-- Modelled from the spec: stub step for the single-edge conflict search;
numeric value missing from `src/`. -/
def EDGE_SINGLE_STUB_STEP : Frac := 10
/-- Modelled from the spec: the slight outward extension of a clipped
endpoint "to leave room for an arrowhead marker"; value missing from
`src/`. -/
def EDGE_ARROW_EXTENSION : Frac := 6
/-- Modelled from the spec: the separation margin between top-level
subgraphs; numeric value missing from `src/`. -/
def SUBGRAPH_SEPARATION : Frac := 48
/-- Modelled from the spec: padding added around a subgraph's content;
numeric value missing from `src/`. -/
def SUBGRAPH_PADDING : Frac := 24
/-- Modelled from the spec: the label-header strip above a subgraph's
content; numeric value missing from `src/`. -/
def SUBGRAPH_LABEL_AREA : Frac := 28
/-- Modelled from the spec: x inset of the subgraph label anchor; numeric
value missing from `src/`. -/
def SUBGRAPH_LABEL_INSET_X : Frac := 14
/-- Modelled from the spec: baseline offset of the subgraph label; numeric
value missing from `src/`. -/
def SUBGRAPH_LABEL_TEXT_BASELINE : Frac := 10
/-- Modelled from the spec: monospaced character width of the edge-label
measurement heuristic; numeric value missing from `src/`. -/
def EDGE_LABEL_CHAR_WIDTH : Frac := 8
/-- Modelled from the spec: horizontal padding of an edge-label box;
numeric value missing from `src/`. -/
def EDGE_LABEL_HORIZONTAL_PADDING : Frac := 16
/-- Modelled from the spec: minimum edge-label box width; numeric value
missing from `src/`. -/
def EDGE_LABEL_MIN_WIDTH : Frac := 40
/-- Modelled from the spec: line height of edge-label text; numeric value
missing from `src/`. -/
def EDGE_LABEL_LINE_HEIGHT : Frac := 16
/-- Modelled from the spec: vertical padding of an edge-label box; numeric
value missing from `src/`. -/
def EDGE_LABEL_VERTICAL_PADDING : Frac := 10
/-- Modelled from the spec: minimum edge-label box height; numeric value
missing from `src/`. -/
def EDGE_LABEL_MIN_HEIGHT : Frac := 24
/-- Modelled from the spec: upward offset of a 2-point route's label;
numeric value missing from `src/`. -/
def EDGE_LABEL_VERTICAL_OFFSET : Frac := 14

/-- `f32::EPSILON` = 2⁻²³, exactly. -/
def epsF32 : Frac := 1 / 8388608

/-- The `f32` literal `1e-3` (modelled by the exact rational). -/
def eps3 : Frac := 1 / 1000

/-! ## Geometry primitives -/

/-- `struct Point` (`f32` coordinates modelled as exact rationals). -/
structure Point where
  x : Frac
  y : Frac
  deriving DecidableEq, Repr

/-- One Newton step for the square root, staying above `√a` (AM–GM). -/
def newtonStep (a t : Frac) : Frac := (t + a / t) / 2

/-- `f32::sqrt`, modelled exactly on perfect squares of rationals and by a
from-above Newton approximation otherwise (`ratSqrt q ≥ √q > 0` for
`q > 0`). -/
def ratSqrt (q : Frac) : Frac :=
  if q ≤ 0 then 0
  else
    let nn := q.n.toNat
    let dd := q.d.toNat
    let sn := isqrt nn
    let sd := isqrt dd
    if h : sn * sn = nn ∧ sd * sd = dd ∧ 0 < sd then
      ⟨(sn : ℤ), (sd : ℤ), by exact_mod_cast h.2.2⟩
    else
      newtonStep q (newtonStep q (newtonStep q (newtonStep q
        (newtonStep q (newtonStep q (max 1 q))))))

/-- `struct Rect`. -/
structure Rect where
  min_x : Frac
  max_x : Frac
  min_y : Frac
  max_y : Frac
  deriving DecidableEq, Repr

/-- `Rect::inflate`. -/
def Rect.inflate (r : Rect) (amount : Frac) : Rect :=
  ⟨r.min_x - amount, r.max_x + amount, r.min_y - amount, r.max_y + amount⟩

/-- `Rect::intersects`. -/
def Rect.intersects (r other : Rect) : Bool :=
  r.min_x ≤ other.max_x ∧ r.max_x ≥ other.min_x ∧
  r.min_y ≤ other.max_y ∧ r.max_y ≥ other.min_y

/-- `Rect::contains` (with the `1e-3` slop). -/
def Rect.contains (r : Rect) (p : Point) : Bool :=
  r.min_x - eps3 ≤ p.x ∧ p.x ≤ r.max_x + eps3 ∧
  r.min_y - eps3 ≤ p.y ∧ p.y ≤ r.max_y + eps3

/-- `orientation`. -/
def orientation (a b c : Point) : Frac :=
  (b.x - a.x) * (c.y - a.y) - (b.y - a.y) * (c.x - a.x)

/-- `on_segment` (bounding-box membership with the `1e-3` slop). -/
def on_segment (a b c : Point) : Bool :=
  min a.x b.x - eps3 ≤ c.x ∧ c.x ≤ max a.x b.x + eps3 ∧
  min a.y b.y - eps3 ≤ c.y ∧ c.y ≤ max a.y b.y + eps3

/-- `points_close`: the source compares `sqrt(dx²+dy²) < 1e-2`; in exact
arithmetic this is equivalent to the square-free test used here. -/
def points_close (a b : Point) : Bool :=
  (a.x - b.x) * (a.x - b.x) + (a.y - b.y) * (a.y - b.y) < 1 / 10000

/-- `segments_intersect`. -/
def segments_intersect (a1 a2 b1 b2 : Point) : Bool :=
  let o1 := orientation a1 a2 b1
  let o2 := orientation a1 a2 b2
  let o3 := orientation b1 b2 a1
  let o4 := orientation b1 b2 a2
  (o1 * o2 < 0 ∧ o3 * o4 < 0) ∨
  ((o1).abs < eps3 ∧ on_segment a1 a2 b1) ∨
  ((o2).abs < eps3 ∧ on_segment a1 a2 b2) ∨
  ((o3).abs < eps3 ∧ on_segment b1 b2 a1) ∨
  ((o4).abs < eps3 ∧ on_segment b1 b2 a2)

/-- `Rect::intersects_segment`. -/
def Rect.intersects_segment (r : Rect) (a b : Point) : Bool :=
  r.contains a ∨ r.contains b ∨
    (let tl : Point := ⟨r.min_x, r.min_y⟩
     let tr : Point := ⟨r.max_x, r.min_y⟩
     let br : Point := ⟨r.max_x, r.max_y⟩
     let bl : Point := ⟨r.min_x, r.max_y⟩
     segments_intersect a b tl tr ∨ segments_intersect a b tr br ∨
     segments_intersect a b br bl ∨ segments_intersect a b bl tl)

/-- `shares_endpoint`. -/
def shares_endpoint (a1 a2 b1 b2 : Point) : Bool :=
  points_close a1 b1 ∨ points_close a1 b2 ∨ points_close a2 b1 ∨ points_close a2 b2

/-- Consecutive-pair windows of a route (`slice::windows(2)`). -/
def segsOf : List Point → List (Point × Point)
  | a :: b :: rest => (a, b) :: segsOf (b :: rest)
  | _ => []

/-- `routes_intersect`. -/
def routes_intersect (a b : List Point) : Bool :=
  (segsOf a).any fun sa =>
    (segsOf b).any fun sb =>
      ¬ shares_endpoint sa.1 sa.2 sb.1 sb.2 ∧
        segments_intersect sa.1 sa.2 sb.1 sb.2

/-- `count_route_intersections` (existing routes as an association list;
the count does not depend on its order). -/
def count_route_intersections (route : List Point)
    (existingRoutes : List (Str × List Point)) : ℕ :=
  (existingRoutes.filter fun kv => routes_intersect route kv.2).length

/-- `node_rect`. -/
def node_rect (center : Point) : Rect :=
  ⟨center.x - NODE_WIDTH / 2, center.x + NODE_WIDTH / 2,
   center.y - NODE_HEIGHT / 2, center.y + NODE_HEIGHT / 2⟩

/-- `struct NodeBoundary`. -/
structure NodeBoundary where
  center : Point
  shape : NodeShape
  rect : Rect
  deriving DecidableEq, Repr

/-- `NodeBoundary::new`. -/
def NodeBoundary.new (center : Point) (shape : NodeShape) : NodeBoundary :=
  ⟨center, shape, node_rect center⟩

/-- `NodeBoundary::contains_point`. -/
def NodeBoundary.contains_point (b : NodeBoundary) (p : Point) : Bool :=
  match b.shape with
  | .Rectangle | .Stadium => b.rect.contains p
  | .Circle =>
    let rx := NODE_WIDTH / 2
    let ry := NODE_HEIGHT / 2
    if rx ≤ 0 ∨ ry ≤ 0 then false
    else
      let nx := (p.x - b.center.x) / rx
      let ny := (p.y - b.center.y) / ry
      nx * nx + ny * ny ≤ 1 + eps3
  | .Diamond =>
    let hw := NODE_WIDTH / 2
    let hh := NODE_HEIGHT / 2
    if hw ≤ 0 ∨ hh ≤ 0 then false
    else (p.x - b.center.x).abs / hw + (p.y - b.center.y).abs / hh ≤ 1 + eps3

/-- `centroid`. -/
def centroid (points : List Point) : Point :=
  if points.isEmpty then ⟨0, 0⟩
  else
    let s := points.foldl (fun acc p => (acc.1 + p.x, acc.2 + p.y)) ((0 : Frac), (0 : Frac))
    ⟨s.1 / points.length, s.2 / points.length⟩

/-! ## Edge labels and route construction -/

/-- `normalize_label_lines`. -/
def normalize_label_lines (label : Str) : List Str :=
  (splitCh '\n' label).map fun line => if line.isEmpty then [' '] else line

/-- `measure_label_box`. -/
def measure_label_box (lines : List Str) : Frac × Frac :=
  let maxChars := lines.foldl (fun acc l => max acc l.length) 0
  let width := max (EDGE_LABEL_CHAR_WIDTH * maxChars + EDGE_LABEL_HORIZONTAL_PADDING)
    EDGE_LABEL_MIN_WIDTH
  let height := max (EDGE_LABEL_LINE_HEIGHT * lines.length + EDGE_LABEL_VERTICAL_PADDING)
    EDGE_LABEL_MIN_HEIGHT
  (width, height)

/-- The nearest-handle loop of `label_center_for_route` (`f32::INFINITY`
as the initial best distance is modelled by `none`). -/
def nearestHandle (fallback : Point) : List Point → Option Frac → Point → Point
  | [], _, best => best
  | p :: rest, bestDist, best =>
    let dx := p.x - fallback.x
    let dy := p.y - fallback.y
    let distance := ratSqrt (dx * dx + dy * dy)
    match bestDist with
    | none => nearestHandle fallback rest (some distance) p
    | some bd =>
      if distance < bd then nearestHandle fallback rest (some distance) p
      else nearestHandle fallback rest (some bd) best

/-- `label_center_for_route`. -/
def label_center_for_route (route : List Point) : Point :=
  if route.isEmpty then ⟨0, -EDGE_LABEL_VERTICAL_OFFSET⟩
  else
    let fallback := centroid route
    if route.length ≤ 2 then ⟨fallback.x, fallback.y - EDGE_LABEL_VERTICAL_OFFSET⟩
    else
      let handlePoints := (route.drop 1).take (route.length - 2)
      match handlePoints with
      | [] => ⟨fallback.x, fallback.y - EDGE_LABEL_VERTICAL_OFFSET⟩
      | [single] => single
      | first :: rest => nearestHandle fallback (first :: rest) none first

/-- `label_rect_for_route`. -/
def label_rect_for_route (e : Edge) (route : List Point) : Option Rect :=
  match e.label with
  | none => none
  | some label =>
    let lines := normalize_label_lines label
    if lines.isEmpty then none
    else
      let wh := measure_label_box lines
      let center := label_center_for_route route
      some ⟨center.x - wh.1 / 2, center.x + wh.1 / 2,
            center.y - wh.2 / 2, center.y + wh.2 / 2⟩

/-- `build_route`. -/
def build_route (start : Point) (middle : List Point) (stop : Point) : List Point :=
  start :: middle ++ [stop]

/-- `Vec::dedup_by(points_close)`: removes elements close to the last kept
one. -/
def dedupClose : List Point → List Point
  | [] => []
  | p :: ps => p :: dedupCloseGo p ps
where
  /-- The comparison chain against the last kept element. -/
  dedupCloseGo (kept : Point) : List Point → List Point
    | [] => []
    | q :: qs => if points_close q kept then dedupCloseGo kept qs else q :: dedupCloseGo q qs

/-- The removal loop of `simplify_route` (index-based with in-place
removal of collinear interior points).  Each iteration strictly decreases
`route.length - idx`, so a fuel of the initial route length suffices. -/
def simplifyLoop : ℕ → List Point → ℕ → List Point
  | 0, route, _ => route
  | fuel + 1, route, idx =>
    if idx + 1 < route.length then
      let prev := route.getD (idx - 1) ⟨0, 0⟩
      let current := route.getD idx ⟨0, 0⟩
      let next := route.getD (idx + 1) ⟨0, 0⟩
      let collinear := (orientation prev current next).abs < eps3
      let within_x := min prev.x next.x - eps3 ≤ current.x ∧
        current.x ≤ max prev.x next.x + eps3
      let within_y := min prev.y next.y - eps3 ≤ current.y ∧
        current.y ≤ max prev.y next.y + eps3
      if collinear ∧ within_x ∧ within_y then
        simplifyLoop fuel (route.eraseIdx idx) idx
      else simplifyLoop fuel route (idx + 1)
    else route

/-- `simplify_route`. -/
def simplify_route (route : List Point) : List Point :=
  if route.isEmpty then route
  else
    let route := dedupClose route
    if route.length < 3 then route else simplifyLoop route.length route 1

/-! ## Conflict search (`compute_routes` helpers) -/

/-- `Diagram::generate_bidir_points`. -/
def generate_bidir_points (fromP toP : Point) (offset stub normalSign : Frac) :
    List Point :=
  let dx := toP.x - fromP.x
  let dy := toP.y - fromP.y
  let distSq := dx * dx + dy * dy
  if distSq ≤ epsF32 * epsF32 then []
  else
    let distance := ratSqrt distSq
    let tangentX := dx / distance
    let tangentY := dy / distance
    let normalX := -tangentY
    let normalY := tangentX
    let offsetVecX := normalX * offset * normalSign
    let offsetVecY := normalY * offset * normalSign
    let stubClamped := max (min stub (distance / 2 - 1)) 0
    if stubClamped ≤ 0 then
      [⟨(fromP.x + toP.x) / 2 + offsetVecX, (fromP.y + toP.y) / 2 + offsetVecY⟩]
    else
      let stubVecX := tangentX * stubClamped
      let stubVecY := tangentY * stubClamped
      [⟨fromP.x + stubVecX + offsetVecX, fromP.y + stubVecY + offsetVecY⟩,
       ⟨(fromP.x + toP.x) / 2 + offsetVecX, (fromP.y + toP.y) / 2 + offsetVecY⟩,
       ⟨toP.x - stubVecX + offsetVecX, toP.y - stubVecY + offsetVecY⟩]

/-- `Diagram::label_collides_with_nodes`. -/
def label_collides_with_nodes (e : Edge) (route : List Point)
    (nodeBounds : List (Str × NodeBoundary)) : Bool :=
  match label_rect_for_route e route with
  | none => false
  | some rect =>
    let rect := rect.inflate EDGE_COLLISION_MARGIN
    nodeBounds.any fun kv => rect.intersects kv.2.rect

/-- `Diagram::route_collides_with_nodes`. -/
def route_collides_with_nodes (e : Edge) (route : List Point)
    (nodeBounds : List (Str × NodeBoundary)) : Bool :=
  if route.length < 2 then false
  else
    (segsOf route).any fun seg =>
      nodeBounds.any fun kv =>
        ¬ kv.1 = e.«from» ∧ ¬ kv.1 = e.«to» ∧
          (kv.2.rect.inflate EDGE_COLLISION_MARGIN).intersects_segment seg.1 seg.2

/-- `generate_axis_detours`. -/
def generate_axis_detours (fromP toP : Point) : List (List Point) :=
  let horizontalSpan := (fromP.x - toP.x).abs
  let verticalSpan := (fromP.y - toP.y).abs
  let verticalClearance := NODE_HEIGHT + EDGE_COLLISION_MARGIN * 4
  let horizontalClearance := NODE_WIDTH + EDGE_COLLISION_MARGIN * 4
  let c1 :=
    if horizontalSpan > NODE_WIDTH * (1/2) then
      let above := min fromP.y toP.y - verticalClearance
      let below := max fromP.y toP.y + verticalClearance
      [[Point.mk fromP.x above, Point.mk toP.x above],
       [Point.mk fromP.x below, Point.mk toP.x below]]
    else []
  let c2 :=
    if verticalSpan > NODE_HEIGHT * (1/2) then
      let left := min fromP.x toP.x - horizontalClearance
      let right := max fromP.x toP.x + horizontalClearance
      [[Point.mk left fromP.y, Point.mk left toP.y],
       [Point.mk right fromP.y, Point.mk right toP.y]]
    else []
  c1 ++ c2

/-- The `(node-collision, label-collision, crossing-count)` metric. -/
abbrev Metric := Bool × Bool × ℕ

/-- Lexicographic comparison of metrics (Rust tuple `<` on
`(u8, u8, usize)` with booleans as 0/1). -/
def metricLt (a b : Metric) : Bool :=
  let av := (cond a.1 1 0, cond a.2.1 1 0, a.2.2)
  let bv := (cond b.1 1 0, cond b.2.1 1 0, b.2.2)
  av.1 < bv.1 ∨ (av.1 = bv.1 ∧ (av.2.1 < bv.2.1 ∨ (av.2.1 = bv.2.1 ∧ av.2.2 < bv.2.2)))

/-- `evaluate_candidate_route`: folds one candidate into the running best;
returns the updated best and whether a perfect score was reached. -/
def evaluate_candidate_route (e : Edge) (fromP toP : Point)
    (nodeBounds : List (Str × NodeBoundary))
    (existingRoutes : List (Str × List Point)) (points : List Point)
    (best : Metric × Option (List Point)) :
    (Metric × Option (List Point)) × Bool :=
  let route := build_route fromP points toP
  let nodeCollision := route_collides_with_nodes e route nodeBounds
  let labelCollision := label_collides_with_nodes e route nodeBounds
  let intersections := count_route_intersections route existingRoutes
  let candidateMetric : Metric := (nodeCollision, labelCollision, intersections)
  let best :=
    if metricLt candidateMetric best.1 then (candidateMetric, some points) else best
  (best, best.1 = (false, false, 0))

/-- The attempt loop of `resolve_bidirectional_pair`. -/
def bidirAttempts (fromP toP : Point) (forwardEdge backwardEdge : Edge)
    (fromRect toRect : Rect) (baseOffset baseStub maxOffset maxStub : Frac) :
    List ℕ → Option (List Point × List Point) → Option (List Point × List Point)
  | [], fallback => fallback
  | attempt :: rest, fallback =>
    let offset := max (min (baseOffset + attempt * EDGE_BIDIRECTIONAL_OFFSET_STEP) maxOffset)
      baseOffset
    let stub := max (min (baseStub + attempt * EDGE_BIDIRECTIONAL_STUB_STEP) maxStub) baseStub
    let forwardPoints := generate_bidir_points fromP toP offset stub 1
    let backwardPoints := (generate_bidir_points fromP toP offset stub (-1)).reverse
    let forwardRoute := build_route fromP forwardPoints toP
    let backwardRoute := build_route toP backwardPoints fromP
    let forwardLabel := (label_rect_for_route forwardEdge forwardRoute).map
      (fun r => r.inflate EDGE_COLLISION_MARGIN)
    let backwardLabel := (label_rect_for_route backwardEdge backwardRoute).map
      (fun r => r.inflate EDGE_COLLISION_MARGIN)
    let collision : Bool :=
      (match forwardLabel with
       | some r => r.intersects fromRect || r.intersects toRect
       | none => false) ||
      (match backwardLabel with
       | some r => r.intersects fromRect || r.intersects toRect
       | none => false) ||
      (match forwardLabel, backwardLabel with
       | some a, some b => a.intersects b
       | _, _ => false)
    if ¬ collision then some (forwardPoints, backwardPoints)
    else
      let fallback := some (forwardPoints, backwardPoints)
      if (offset - maxOffset).abs < epsF32 ∧ (stub - maxStub).abs < epsF32 then fallback
      else bidirAttempts fromP toP forwardEdge backwardEdge fromRect toRect
        baseOffset baseStub maxOffset maxStub rest fallback

/-- `Diagram::resolve_bidirectional_pair`. -/
def resolve_bidirectional_pair (fromP toP : Point)
    (forwardEdge backwardEdge : Edge) : Option (List Point × List Point) :=
  let dx := toP.x - fromP.x
  let dy := toP.y - fromP.y
  let distSq := dx * dx + dy * dy
  if distSq ≤ epsF32 * epsF32 then none
  else
    let distance := ratSqrt distSq
    let maxOffset := distance / 2 - EDGE_COLLISION_MARGIN
    if maxOffset ≤ 0 then none
    else
      let maxStub := distance / 2 - EDGE_COLLISION_MARGIN
      if maxStub ≤ 0 then none
      else
        let baseOffset := min (min (distance / 4) EDGE_BIDIRECTIONAL_OFFSET) maxOffset
        let baseStub := min (min (distance / 4) EDGE_BIDIRECTIONAL_STUB) maxStub
        if baseOffset ≤ 0 ∨ baseStub ≤ 0 then none
        else
          let fromRect := (node_rect fromP).inflate EDGE_COLLISION_MARGIN
          let toRect := (node_rect toP).inflate EDGE_COLLISION_MARGIN
          bidirAttempts fromP toP forwardEdge backwardEdge fromRect toRect
            baseOffset baseStub maxOffset maxStub
            (List.range (EDGE_COLLISION_MAX_ITER + 1)) none

/-- The offset/stub attempt loop of `adjust_edge_for_conflicts` for one
normal direction; returns the updated best and whether a perfect score
ended the search. -/
def adjustAttempts (e : Edge) (fromP toP : Point)
    (nodeBounds : List (Str × NodeBoundary))
    (existingRoutes : List (Str × List Point))
    (baseOffset baseStub maxOffset maxStub normalSign : Frac) :
    List ℕ → (Metric × Option (List Point)) → (Metric × Option (List Point)) × Bool
  | [], best => (best, false)
  | attempt :: rest, best =>
    let offset := max (min (baseOffset + attempt * EDGE_SINGLE_OFFSET_STEP) maxOffset)
      baseOffset
    let stub := max (min (baseStub + attempt * EDGE_SINGLE_STUB_STEP) maxStub) baseStub
    let points := generate_bidir_points fromP toP offset stub normalSign
    let res := evaluate_candidate_route e fromP toP nodeBounds existingRoutes points best
    if res.2 then (res.1, true)
    else if (offset - maxOffset).abs < epsF32 ∧ (stub - maxStub).abs < epsF32 then (res.1, false)
    else adjustAttempts e fromP toP nodeBounds existingRoutes
      baseOffset baseStub maxOffset maxStub normalSign rest res.1

/-- The axis-detour loop of `adjust_edge_for_conflicts`. -/
def axisDetourLoop (e : Edge) (fromP toP : Point)
    (nodeBounds : List (Str × NodeBoundary))
    (existingRoutes : List (Str × List Point)) :
    List (List Point) → (Metric × Option (List Point)) →
    (Metric × Option (List Point)) × Bool
  | [], best => (best, false)
  | candidate :: rest, best =>
    let res := evaluate_candidate_route e fromP toP nodeBounds existingRoutes candidate best
    if res.2 then (res.1, true)
    else axisDetourLoop e fromP toP nodeBounds existingRoutes rest res.1

/-- `Diagram::adjust_edge_for_conflicts`. -/
def adjust_edge_for_conflicts (e : Edge) (fromP toP : Point)
    (nodeBounds : List (Str × NodeBoundary))
    (existingRoutes : List (Str × List Point))
    (baseLabelCollision baseNodeCollision : Bool) (baseIntersections : ℕ) :
    Option (List Point) :=
  let baseMetric : Metric := (baseNodeCollision, baseLabelCollision, baseIntersections)
  if baseMetric = (false, false, 0) then none
  else
    let dx := toP.x - fromP.x
    let dy := toP.y - fromP.y
    let distSq := dx * dx + dy * dy
    if distSq ≤ epsF32 * epsF32 then none
    else
      let distance := ratSqrt distSq
      let maxOffset := distance / 2 - EDGE_COLLISION_MARGIN
      let maxStub := distance / 2 - EDGE_COLLISION_MARGIN
      if maxOffset ≤ 0 ∨ maxStub ≤ 0 then none
      else
        let baseOffset := min (distance / 4) maxOffset
        let baseStub := min (distance / 4) maxStub
        let baseOffset :=
          if ¬ baseNodeCollision then min baseOffset EDGE_SINGLE_OFFSET else baseOffset
        let baseStub :=
          if ¬ baseNodeCollision then min baseStub EDGE_SINGLE_STUB else baseStub
        if baseOffset ≤ 0 ∨ baseStub ≤ 0 then none
        else
          let attempts := List.range (EDGE_COLLISION_MAX_ITER + 1)
          let best0 : Metric × Option (List Point) := (baseMetric, none)
          let r1 := adjustAttempts e fromP toP nodeBounds existingRoutes
            baseOffset baseStub maxOffset maxStub 1 attempts best0
          let r2 :=
            if r1.2 then r1
            else adjustAttempts e fromP toP nodeBounds existingRoutes
              baseOffset baseStub maxOffset maxStub (-1) attempts r1.1
          if r2.2 then r2.1.2
          else
            let r3 := axisDetourLoop e fromP toP nodeBounds existingRoutes
              (generate_axis_detours fromP toP) r2.1
            if r3.2 then r3.1.2
            else if metricLt r3.1.1 baseMetric then r3.1.2 else none

/-- The metric of a candidate route in `detour_route_for_collisions`. -/
def detourMetric (e : Edge) (route : List Point)
    (nodeBounds : List (Str × NodeBoundary))
    (existingRoutes : List (Str × List Point)) : Metric :=
  (route_collides_with_nodes e route nodeBounds,
   label_collides_with_nodes e route nodeBounds,
   count_route_intersections route existingRoutes)

/-- The four axis-aligned detour candidates around one blocking node's
inflated rectangle, for the segment `(a, b)`. -/
def detourCandidatesFor (a b : Point) (inflated : Rect) (clearance : Frac) :
    List (List Point) :=
  [[Point.mk a.x (inflated.min_y - clearance), Point.mk b.x (inflated.min_y - clearance)],
   [Point.mk a.x (inflated.max_y + clearance), Point.mk b.x (inflated.max_y + clearance)],
   [Point.mk (inflated.min_x - clearance) a.y, Point.mk (inflated.min_x - clearance) b.y],
   [Point.mk (inflated.max_x + clearance) a.y, Point.mk (inflated.max_x + clearance) b.y]]

/-- The candidate loop of `detour_route_for_collisions` for one blocking
node; the `Bool` result signals the early perfect-score return. -/
def detourTryCandidates (e : Edge) (route : List Point) (segIdx : ℕ)
    (nodeBounds : List (Str × NodeBoundary))
    (existingRoutes : List (Str × List Point)) :
    List (List Point) → (Metric × Option (List Point)) →
    (Metric × Option (List Point)) × Bool
  | [], best => (best, false)
  | detour :: rest, best =>
    let candidate := route.take (segIdx + 1) ++ detour ++ route.drop (segIdx + 1)
    let candidate := simplify_route candidate
    let candidateMetric := detourMetric e candidate nodeBounds existingRoutes
    if metricLt candidateMetric best.1 then
      if candidateMetric = (false, false, 0) then
        ((candidateMetric, some candidate), true)
      else detourTryCandidates e route segIdx nodeBounds existingRoutes rest
        (candidateMetric, some candidate)
    else detourTryCandidates e route segIdx nodeBounds existingRoutes rest best

/-- The node loop of `detour_route_for_collisions` for one segment; the
node list is consumed in hash-map iteration order. -/
def detourNodeLoop (e : Edge) (route : List Point) (segIdx : ℕ) (a b : Point)
    (nodeBounds : List (Str × NodeBoundary))
    (existingRoutes : List (Str × List Point)) (clearance : Frac) :
    List (Str × NodeBoundary) → (Metric × Option (List Point)) →
    (Metric × Option (List Point)) × Bool
  | [], best => (best, false)
  | (nodeId, bounds) :: rest, best =>
    if nodeId = e.«from» ∨ nodeId = e.«to» then
      detourNodeLoop e route segIdx a b nodeBounds existingRoutes clearance rest best
    else
      let inflated := bounds.rect.inflate EDGE_COLLISION_MARGIN
      if ¬ inflated.intersects_segment a b then
        detourNodeLoop e route segIdx a b nodeBounds existingRoutes clearance rest best
      else
        let res := detourTryCandidates e route segIdx nodeBounds existingRoutes
          (detourCandidatesFor a b inflated clearance) best
        if res.2 then res
        else detourNodeLoop e route segIdx a b nodeBounds existingRoutes clearance rest res.1

/-- The segment loop of `detour_route_for_collisions`. -/
def detourSegLoop (e : Edge) (route : List Point)
    (nodeBounds : List (Str × NodeBoundary))
    (existingRoutes : List (Str × List Point)) (clearance : Frac) :
    List ℕ → (Metric × Option (List Point)) →
    (Metric × Option (List Point)) × Bool
  | [], best => (best, false)
  | segIdx :: rest, best =>
    let a := route.getD segIdx ⟨0, 0⟩
    let b := route.getD (segIdx + 1) ⟨0, 0⟩
    let res := detourNodeLoop e route segIdx a b nodeBounds existingRoutes clearance
      nodeBounds best
    if res.2 then res
    else detourSegLoop e route nodeBounds existingRoutes clearance rest res.1

/-- `Diagram::detour_route_for_collisions`; the order of `nodeBounds`
models the iteration order of the Rust `HashMap<String, NodeBoundary>`. -/
def detour_route_for_collisions (e : Edge) (route : List Point)
    (nodeBounds : List (Str × NodeBoundary))
    (existingRoutes : List (Str × List Point)) : Option (List Point) :=
  if route.length < 2 then none
  else
    let bestMetric := detourMetric e route nodeBounds existingRoutes
    if bestMetric.1 = false then none
    else
      let clearance := EDGE_COLLISION_MARGIN * 2 + 8
      let res := detourSegLoop e route nodeBounds existingRoutes clearance
        (List.range (route.length - 1)) (bestMetric, none)
      res.1.2

/-! ## Endpoint clipping (`trim_route_endpoints` and shape exits) -/

/-- The exit-parameter candidates of `clip_segment_exit_rect` (its two
axis-crossing `if let` blocks). -/
def rectExitCandidates (start next : Point) (rect : Rect) : List Frac :=
  let dx := next.x - start.x
  let dy := next.y - start.y
  let candX : List Frac :=
    if dx.abs > epsF32 then
      let targetX := if dx > 0 then rect.max_x else rect.min_x
      let t := (targetX - start.x) / dx
      if 0 ≤ t ∧ t ≤ 1 then
        let y := start.y + t * dy
        if rect.min_y - eps3 ≤ y ∧ y ≤ rect.max_y + eps3 then [t] else []
      else []
    else []
  let candY : List Frac :=
    if dy.abs > epsF32 then
      let targetY := if dy > 0 then rect.max_y else rect.min_y
      let t := (targetY - start.y) / dy
      if 0 ≤ t ∧ t ≤ 1 then
        let x := start.x + t * dx
        if rect.min_x - eps3 ≤ x ∧ x ≤ rect.max_x + eps3 then [t] else []
      else []
    else []
  candX ++ candY

/-- `clip_segment_exit_rect`. -/
def clip_segment_exit_rect (start next : Point) (rect : Rect)
    (extendOutward : Bool) : Option Point :=
  let dx := next.x - start.x
  let dy := next.y - start.y
  let distSq := dx * dx + dy * dy
  if distSq ≤ epsF32 * epsF32 then none
  else
    let candidates := rectExitCandidates start next rect
    if candidates.isEmpty then none
    else
      let tExit := candidates.foldl (fun acc t => min acc (max t epsF32)) 1
      let tExit := min (max tExit 0) 1
      let point : Point := ⟨start.x + tExit * dx, start.y + tExit * dy⟩
      if extendOutward then
        let distance := ratSqrt distSq
        some ⟨point.x + dx / distance * EDGE_ARROW_EXTENSION,
              point.y + dy / distance * EDGE_ARROW_EXTENSION⟩
      else some point

/-- `clip_segment_exit_circle` (the `f32` square root of the quadratic
discriminant is modelled by `ratSqrt`). -/
def clip_segment_exit_circle (start next : Point) (bounds : NodeBoundary)
    (extendOutward : Bool) : Option Point :=
  let dx := next.x - start.x
  let dy := next.y - start.y
  let distSq := dx * dx + dy * dy
  if distSq ≤ epsF32 * epsF32 then none
  else
    let rx := NODE_WIDTH / 2
    let ry := NODE_HEIGHT / 2
    let sx := start.x - bounds.center.x
    let sy := start.y - bounds.center.y
    let a := dx * dx / (rx * rx) + dy * dy / (ry * ry)
    if a.abs ≤ epsF32 then none
    else
      let b := 2 * (sx * dx / (rx * rx) + sy * dy / (ry * ry))
      let c := sx * sx / (rx * rx) + sy * sy / (ry * ry) - 1
      let discriminant := b * b - 4 * a * c
      if discriminant < 0 then none
      else
        let sqrtDisc := ratSqrt discriminant
        let t0 := (-b + sqrtDisc) / (2 * a)
        let t1 := (-b - sqrtDisc) / (2 * a)
        let candidates := (if 0 ≤ t0 ∧ t0 ≤ 1 then [t0] else []) ++
          (if 0 ≤ t1 ∧ t1 ≤ 1 then [t1] else [])
        if candidates.isEmpty then none
        else
          let tExit := candidates.foldl (fun acc t => min acc (max t epsF32)) 1
          let tExit := min (max tExit 0) 1
          let point : Point := ⟨start.x + tExit * dx, start.y + tExit * dy⟩
          if extendOutward then
            let distance := ratSqrt distSq
            some ⟨point.x + dx / distance * EDGE_ARROW_EXTENSION,
                  point.y + dy / distance * EDGE_ARROW_EXTENSION⟩
          else some point

/-- `segment_intersection_param`. -/
def segment_intersection_param (start next edgeStart edgeEnd : Point) :
    Option Frac :=
  let rx := next.x - start.x
  let ry := next.y - start.y
  let sx := edgeEnd.x - edgeStart.x
  let sy := edgeEnd.y - edgeStart.y
  let denom := rx * sy - ry * sx
  if denom.abs < 1 / 1000000 then none
  else
    let qpx := edgeStart.x - start.x
    let qpy := edgeStart.y - start.y
    let t := (qpx * sy - qpy * sx) / denom
    let u := (qpx * ry - qpy * rx) / denom
    if 0 ≤ t ∧ t ≤ 1 ∧ 0 ≤ u ∧ u ≤ 1 then some t else none

/-- The four boundary segments of a diamond node (top→right, right→bottom,
bottom→left, left→top), as built inside `clip_segment_exit_diamond`. -/
def diamondEdges (bounds : NodeBoundary) : List (Point × Point) :=
  let hw := NODE_WIDTH / 2
  let hh := NODE_HEIGHT / 2
  let top : Point := ⟨bounds.center.x, bounds.center.y - hh⟩
  let right : Point := ⟨bounds.center.x + hw, bounds.center.y⟩
  let bottom : Point := ⟨bounds.center.x, bounds.center.y + hh⟩
  let left : Point := ⟨bounds.center.x - hw, bounds.center.y⟩
  [(top, right), (right, bottom), (bottom, left), (left, top)]

/-- One step of the best-crossing fold in `clip_segment_exit_diamond`
(the closure passed to `fold` in the source). -/
def diamondFoldStep (start next : Point) (acc : Option Frac)
    (ed : Point × Point) : Option Frac :=
  match segment_intersection_param start next ed.1 ed.2 with
  | some t =>
    if 0 ≤ t ∧ t ≤ 1 then
      let t := max t epsF32
      match acc with
      | none => some t
      | some cur => some (min cur t)
    else acc
  | none => acc

/-- `clip_segment_exit_diamond`. -/
def clip_segment_exit_diamond (start next : Point) (bounds : NodeBoundary)
    (extendOutward : Bool) : Option Point :=
  let dx := next.x - start.x
  let dy := next.y - start.y
  let distSq := dx * dx + dy * dy
  if distSq ≤ epsF32 * epsF32 then none
  else
    let edges := diamondEdges bounds
    let bestT := edges.foldl (diamondFoldStep start next) none
    match bestT with
    | none => none
    | some t =>
      let tExit := min (max t 0) 1
      let point : Point := ⟨start.x + tExit * dx, start.y + tExit * dy⟩
      if extendOutward then
        let distance := ratSqrt distSq
        some ⟨point.x + dx / distance * EDGE_ARROW_EXTENSION,
              point.y + dy / distance * EDGE_ARROW_EXTENSION⟩
      else some point

/-- `clip_segment_exit_with_shape`. -/
def clip_segment_exit_with_shape (start next : Point) (bounds : NodeBoundary)
    (extendOutward : Bool) : Option Point :=
  match bounds.shape with
  | .Rectangle | .Stadium => clip_segment_exit_rect start next bounds.rect extendOutward
  | .Circle => clip_segment_exit_circle start next bounds extendOutward
  | .Diamond => clip_segment_exit_diamond start next bounds extendOutward

/-- `trim_route_endpoints`. -/
def trim_route_endpoints (path : List Point) (fromBounds toBounds : NodeBoundary) :
    List Point :=
  if path.length < 2 then path
  else
    let path :=
      match path with
      | p0 :: p1 :: rest =>
        if fromBounds.contains_point p0 then
          match clip_segment_exit_with_shape p0 p1 fromBounds false with
          | some trimmed => trimmed :: p1 :: rest
          | none => p0 :: p1 :: rest
        else p0 :: p1 :: rest
      | _ => path
    if path.length < 2 then path
    else
      let last := path.getD (path.length - 1) ⟨0, 0⟩
      let beforeLast := path.getD (path.length - 2) ⟨0, 0⟩
      if toBounds.contains_point last then
        match clip_segment_exit_with_shape last beforeLast toBounds true with
        | some trimmed => path.take (path.length - 1) ++ [trimmed]
        | none => path
      else path

/-! ## Route computation (`Diagram::compute_routes`) -/

/-- `struct EdgeOverride`. -/
structure EdgeOverride where
  points : List Point
  deriving DecidableEq, Repr

/-- `struct LayoutOverrides` (the two style maps are not consulted by any
of the embedded layout functions and are omitted). -/
structure LayoutOverrides where
  nodes : List (Str × Point)
  edges : List (Str × EdgeOverride)
  deriving DecidableEq, Repr

/-- Lexicographic (byte/code-point) order on strings, as used by Rust's
`String: Ord` for the `a > b` swap in `compute_routes`. -/
def strLt : Str → Str → Bool
  | [], [] => false
  | [], _ :: _ => true
  | _ :: _, [] => false
  | c :: cs, d :: ds => c < d || (c = d && strLt cs ds)

/-- The pairings map of `compute_routes`: undirected node pair →
`(edge index, is_forward)` entries.  It is an unordered `HashMap` in the
source; it is materialized here in first-insertion order.  Each entry list
updates `auto_points` only at its own (disjoint) edge indices, so the
routes produced do not depend on this iteration order. -/
def pairingsOf (edges : List Edge) : List ((Str × Str) × List (ℕ × Bool)) :=
  (edges.enum.foldl (fun acc ie =>
    let e := ie.2
    let idx := ie.1
    let key := if strLt e.«to» e.«from» then (e.«to», e.«from») else (e.«from», e.«to»)
    let isForward : Bool := ¬ strLt e.«to» e.«from»
    match alGet acc key with
    | some entries => alPut acc key (entries ++ [(idx, isForward)])
    | none => acc ++ [(key, [(idx, isForward)])]) [])

/-- The per-pair `auto_points` assignment loop (forward or backward set);
`sign` is the normal sign, and backward points are reversed. -/
def assignPairPoints (fromP toP : Point) (baseOffset maxOffset stubBase maxStub sign : Frac)
    (reversePoints : Bool) (hasOv : ℕ → Bool) (skipFirst : Bool)
    (idxs : List (ℕ × ℕ)) (autoPoints : List (ℕ × List Point)) :
    List (ℕ × List Point) :=
  idxs.foldl (fun acc ii =>
    let edgeIdx := ii.2
    let i := ii.1
    if skipFirst ∧ i = 0 then acc
    else if hasOv edgeIdx then acc
    else
      let factor : Frac := 1 + i
      let offset := max (min (baseOffset * factor) maxOffset) baseOffset
      let stub := min stubBase maxStub
      let points := generate_bidir_points fromP toP offset stub sign
      let points := if reversePoints then points.reverse else points
      alPut acc edgeIdx points) autoPoints

/-- The loop over `pairings` in `compute_routes`. -/
def pairLoop (edges : List Edge) (positions : List (Str × Point))
    (hasOv : ℕ → Bool) :
    List ((Str × Str) × List (ℕ × Bool)) → List (ℕ × List Point) →
    Except String (List (ℕ × List Point))
  | [], autoPoints => .ok autoPoints
  | (key, entries) :: rest, autoPoints => do
    let a := key.1
    let b := key.2
    if a = b ∨ entries.length < 2 then pairLoop edges positions hasOv rest autoPoints
    else
      let forward := (entries.filter (·.2)).map (·.1)
      let backward := (entries.filter (fun x => ¬ x.2)).map (·.1)
      if forward.isEmpty ∨ backward.isEmpty then
        pairLoop edges positions hasOv rest autoPoints
      else
        match alGet positions a, alGet positions b with
        | none, _ => .error "edge references unknown node"
        | _, none => .error "edge references unknown node"
        | some fromP, some toP =>
          let dx := toP.x - fromP.x
          let dy := toP.y - fromP.y
          let distSq := dx * dx + dy * dy
          if distSq ≤ epsF32 * epsF32 then pairLoop edges positions hasOv rest autoPoints
          else
            let distance := ratSqrt distSq
            let maxOffset := distance / 2 - EDGE_COLLISION_MARGIN
            if maxOffset ≤ 0 then pairLoop edges positions hasOv rest autoPoints
            else
              let baseOffset := min (min (distance / 4) EDGE_BIDIRECTIONAL_OFFSET) maxOffset
              if baseOffset ≤ 0 then pairLoop edges positions hasOv rest autoPoints
              else
                let maxStub := distance / 2 - EDGE_COLLISION_MARGIN
                if maxStub ≤ 0 then pairLoop edges positions hasOv rest autoPoints
                else
                  let stubBase := min (min (distance / 4) EDGE_BIDIRECTIONAL_STUB) maxStub
                  if stubBase ≤ 0 then pairLoop edges positions hasOv rest autoPoints
                  else
                    let firstPair :=
                      match forward.head?, backward.head? with
                      | some f0, some b0 =>
                        if ¬ hasOv f0 ∧ ¬ hasOv b0 then
                          match edges.get? f0, edges.get? b0 with
                          | some fe, some be =>
                            match resolve_bidirectional_pair fromP toP fe be with
                            | some (fp, bp) => some (f0, b0, fp, bp)
                            | none => none
                          | _, _ => none
                        else none
                      | _, _ => none
                    let (autoPoints, firstResolved) :=
                      match firstPair with
                      | some (f0, b0, fp, bp) =>
                        (alPut (alPut autoPoints f0 fp) b0 bp, true)
                      | none => (autoPoints, false)
                    let autoPoints := assignPairPoints fromP toP baseOffset maxOffset
                      stubBase maxStub 1 false hasOv firstResolved forward.enum autoPoints
                    let autoPoints := assignPairPoints fromP toP baseOffset maxOffset
                      stubBase maxStub (-1) true hasOv firstResolved backward.enum autoPoints
                    pairLoop edges positions hasOv rest autoPoints

/-- The `while`-loop around `detour_route_for_collisions` in the main edge
loop (at most 3 detour passes, rechecking the collision before each). -/
def detourWhile (e : Edge) (nodeBounds : List (Str × NodeBoundary))
    (existingRoutes : List (Str × List Point)) : ℕ → List Point → List Point
  | 0, path => path
  | rem + 1, path =>
    if ¬ route_collides_with_nodes e path nodeBounds then path
    else
      match detour_route_for_collisions e path nodeBounds existingRoutes with
      | some candidate =>
        if rem = 0 then candidate
        else detourWhile e nodeBounds existingRoutes rem candidate
      | none => path

/-- The main per-edge loop of `compute_routes`. -/
def routeEdges (overrides : Option LayoutOverrides)
    (positions : List (Str × Point)) (nodeBounds : List (Str × NodeBoundary))
    (edgeIds : List Str) (autoPoints : List (ℕ × List Point))
    (hasOv : ℕ → Bool) :
    List (ℕ × Edge) → List (Str × List Point) →
    Except String (List (Str × List Point))
  | [], routes => .ok routes
  | (edgeIdx, e) :: rest, routes => do
    let edgeId := edgeIds.getD edgeIdx []
    match alGet positions e.«from», alGet positions e.«to» with
    | none, _ => .error "edge references unknown node"
    | _, none => .error "edge references unknown node"
    | some fromP, some toP =>
      let custom := overrides.bind fun ov => alGet ov.edges edgeId
      let (middlePoints, hasCustomOverride) :=
        match custom with
        | some c => (c.points, true)
        | none => ((alGet autoPoints edgeIdx).getD [], false)
      let path := build_route fromP middlePoints toP
      let baseLabelCollision := label_collides_with_nodes e path nodeBounds
      let baseNodeCollision := route_collides_with_nodes e path nodeBounds
      let baseIntersections := count_route_intersections path routes
      let path :=
        if middlePoints.isEmpty ∧ ¬ hasOv edgeIdx ∧
            (baseLabelCollision ∨ baseNodeCollision ∨ 0 < baseIntersections) then
          match adjust_edge_for_conflicts e fromP toP nodeBounds routes
            baseLabelCollision baseNodeCollision baseIntersections with
          | some adjusted => build_route fromP adjusted toP
          | none => path
        else path
      let path :=
        if ¬ hasCustomOverride then detourWhile e nodeBounds routes 3 path
        else path
      let path :=
        match custom with
        | some c => build_route fromP c.points toP
        | none => path
      let path :=
        match alGet nodeBounds e.«from», alGet nodeBounds e.«to» with
        | some fromBounds, some toBounds => trim_route_endpoints path fromBounds toBounds
        | _, _ => path
      routeEdges overrides positions nodeBounds edgeIds autoPoints hasOv rest
        (alPut routes edgeId path)

/-- `Diagram::compute_routes`.  The source iterates the `positions`
`HashMap` to build a `HashMap<String, NodeBoundary>` whose unordered
iteration order feeds `detour_route_for_collisions`; `boundsOrder`
makes that unspecified order explicit (it is meaningful for any
permutation of the position keys; lookups are order-insensitive). -/
def Diagram.compute_routes (d : Diagram) (positions : List (Str × Point))
    (overrides : Option LayoutOverrides) (boundsOrder : List Str) :
    Except String (List (Str × List Point)) := do
  let nodeBounds ← boundsOrder.foldlM (fun acc id => do
    match alGet positions id with
    | none => pure acc
    | some point =>
      match alGet d.nodes id with
      | none => .error "node missing definition"
      | some node => pure (acc ++ [(id, NodeBoundary.new point node.shape)]))
    ([] : List (Str × NodeBoundary))
  let edgeIds := d.edges.map edgeIdentifier
  let hasOv : ℕ → Bool := fun edgeIdx =>
    match overrides with
    | some ov => alHas ov.edges (edgeIds.getD edgeIdx [])
    | none => false
  let autoPoints ← pairLoop d.edges positions hasOv (pairingsOf d.edges) []
  routeEdges overrides positions nodeBounds edgeIds autoPoints hasOv
    (d.edges.enum) []

/-! ## Auto layout (`Diagram::compute_auto_layout`) -/

/-- `struct CanvasSize`. -/
structure CanvasSize where
  width : Frac
  height : Frac
  deriving DecidableEq, Repr

/-- `struct AutoLayout`. -/
structure AutoLayout where
  positions : List (Str × Point)
  size : CanvasSize
  deriving DecidableEq, Repr

/-- The state of the Kahn-style leveling loop: the `levels` and `indegree`
maps (total functions; the source initializes every node key to 0 and
reads absent keys with `unwrap_or(0)`), the FIFO queue, and the visited
set. -/
structure KahnSt where
  levels : Str → ℕ
  indegree : Str → ℕ
  queue : List Str
  visited : List Str

/-- Processing the out-edges of one popped node (the body of the `while`
loop of `compute_auto_layout`).  The source's `indegree.get_mut(&target)`
always succeeds: every edge target was given an entry by
`indegree.entry(edge.to).or_insert(0) += 1` during initialization. -/
def kahnProcess (edges : List Edge) (nodeId : Str) (st : KahnSt) : KahnSt :=
  let nodeLevel := st.levels nodeId
  (edges.filter (fun e => e.«from» = nodeId)).foldl (fun st e =>
    let targetId := e.«to»
    let st :=
      if st.levels targetId < nodeLevel + 1 then
        { st with levels := fun k => if k = targetId then nodeLevel + 1 else st.levels k }
      else st
    if 0 < st.indegree targetId then
      let newDeg := st.indegree targetId - 1
      let st := { st with indegree := fun k =>
        if k = targetId then newDeg else st.indegree k }
      if newDeg = 0 then { st with queue := st.queue ++ [targetId] } else st
    else st) st

/-- The fueled `while let Some(node_id) = queue.pop_front()` loop.  A fuel
of `|order| + |edges| + 1` always suffices: every node is enqueued at most
once (seeded nodes have initial indegree 0 and are never re-enqueued; a
decrement-enqueue happens only at the unique transition of an indegree to
0), and only order members or edge targets are ever enqueued. -/
def kahnLoop (edges : List Edge) : ℕ → KahnSt → KahnSt
  | 0, st => st
  | fuel + 1, st =>
    match st.queue with
    | [] => st
    | nodeId :: queueRest =>
      let st := { st with queue := queueRest, visited := st.visited ++ [nodeId] }
      kahnLoop edges fuel (kahnProcess edges nodeId st)

/-- The initial indegree map: count incoming edges per node. -/
def indegreeInit (edges : List Edge) : Str → ℕ := fun k =>
  (edges.filter (fun e => e.«to» = k)).length

/-- The final levels map of `compute_auto_layout`: the Kahn loop plus the
fallback pass for unvisited (cyclic) nodes; also returns the visited
set. -/
def Diagram.computeLevels (d : Diagram) : (Str → ℕ) × List Str :=
  let st0 : KahnSt :=
    { levels := fun _ => 0
      indegree := indegreeInit d.edges
      queue := d.order.filter (fun id => indegreeInit d.edges id = 0)
      visited := [] }
  let st := kahnLoop d.edges (d.order.length + d.edges.length + 1) st0
  if st.visited.length ≠ d.nodes.length then
    let levels := d.order.foldl (fun levels id =>
      if id ∈ st.visited then levels
      else
        let parents := d.edges.filter (fun e => e.«to» = id)
        let hasParent := ¬ parents.isEmpty
        let maxParent := parents.foldl (fun acc e => max acc (levels e.«from» + 1)) 0
        fun k => if k = id then (if hasParent then maxParent else 0) else levels k)
      st.levels
    (levels, st.visited)
  else (st.levels, st.visited)

/-- The level-grouped layers of `compute_auto_layout` (the `BTreeMap`
grouping: ascending level keys, declaration order within a level). -/
def Diagram.layersOf (d : Diagram) (levels : Str → ℕ) : List (List Str) :=
  let keys := sortByF (fun a b => a ≤ b) (d.order.map levels).dedup
  let layers := keys.map (fun k => d.order.filter (fun id => levels id = k))
  if layers.isEmpty then [d.order] else layers

/-- The row/column placement of `compute_auto_layout`. -/
def placeLayers (direction : Direction) (layers : List (List Str)) :
    List (Str × Point) × Frac × Frac :=
  let levelCount := max layers.length 1
  let maxPerLevel := max (layers.foldl (fun acc l => max acc l.length) 0) 1
  match direction with
  | .TopDown | .BottomTop =>
    let innerWidth := NODE_WIDTH + NODE_SPACING * (maxPerLevel - 1 : ℕ)
    let innerHeight := NODE_HEIGHT + NODE_SPACING * (levelCount - 1 : ℕ)
    let width := innerWidth + START_OFFSET * 2
    let height := innerHeight + START_OFFSET * 2
    let verticalSpan := NODE_SPACING * (levelCount - 1 : ℕ)
    let startY := START_OFFSET + (innerHeight - verticalSpan) / 2
    let positions := layers.enum.foldl (fun acc il =>
      let idx := il.1
      let nodes := il.2
      let rowIndex : Frac :=
        if direction = .BottomTop then (levelCount - 1 - idx : ℕ) else (idx : ℕ)
      let y := startY + rowIndex * NODE_SPACING
      let span := NODE_SPACING * (nodes.length - 1 : ℕ)
      let startX := START_OFFSET + (innerWidth - span) / 2
      nodes.enum.foldl (fun acc ci =>
        alPut acc ci.2 ⟨startX + (ci.1 : Frac) * NODE_SPACING, y⟩) acc) []
    (positions, width, height)
  | .LeftRight | .RightLeft =>
    let innerWidth := NODE_WIDTH + NODE_SPACING * (levelCount - 1 : ℕ)
    let innerHeight := NODE_HEIGHT + NODE_SPACING * (maxPerLevel - 1 : ℕ)
    let width := innerWidth + START_OFFSET * 2
    let height := innerHeight + START_OFFSET * 2
    let horizontalSpan := NODE_SPACING * (levelCount - 1 : ℕ)
    let startX := START_OFFSET + (innerWidth - horizontalSpan) / 2
    let positions := layers.enum.foldl (fun acc il =>
      let idx := il.1
      let nodes := il.2
      let columnIndex : Frac :=
        if direction = .RightLeft then (levelCount - 1 - idx : ℕ) else (idx : ℕ)
      let x := startX + columnIndex * NODE_SPACING
      let span := NODE_SPACING * (nodes.length - 1 : ℕ)
      let startY := START_OFFSET + (innerHeight - span) / 2
      nodes.enum.foldl (fun acc ri =>
        alPut acc ri.2 ⟨x, startY + (ri.1 : Frac) * NODE_SPACING⟩) acc) []
    (positions, width, height)

/-- `Diagram::compute_auto_layout`. -/
def Diagram.compute_auto_layout (d : Diagram) : AutoLayout :=
  if d.order.isEmpty then
    { positions := []
      size := ⟨START_OFFSET * 2 + NODE_WIDTH, START_OFFSET * 2 + NODE_HEIGHT⟩ }
  else
    let levels := (d.computeLevels).1
    let layers := d.layersOf levels
    let (positions, width, height) := placeLayers d.direction layers
    { positions := positions, size := ⟨width, height⟩ }

/-! ## Subgraph separation (`Diagram::separate_top_level_subgraphs`) -/

mutual

/-- The recursion of `collect_nodes_recursive` (with duplicates; the
`HashSet` semantics is recovered by `dedup` in `gather_subgraph_nodes`). -/
def collectNodes (sg : Subgraph) : List Str :=
  match sg with
  | .mk _ _ ns children _ => ns ++ collectNodesList children

/-- `collect_nodes_recursive` over a child list. -/
def collectNodesList (children : List Subgraph) : List Str :=
  match children with
  | [] => []
  | c :: rest => collectNodes c ++ collectNodesList rest

end

/-- `gather_subgraph_nodes`: the member-node set (membership and the
min/max and offset passes below are insensitive to order and
multiplicity, so a first-occurrence deduped list models the `HashSet`). -/
def gather_subgraph_nodes (sg : Subgraph) : List Str :=
  (collectNodes sg).dedup

/-- `expand_bounds`. -/
def expand_bounds (target : Option Rect) (rect : Rect) : Option Rect :=
  match target with
  | some e => some ⟨min e.min_x rect.min_x, max e.max_x rect.max_x,
      min e.min_y rect.min_y, max e.max_y rect.max_y⟩
  | none => some rect

/-- `compute_group_bounds`. -/
def compute_group_bounds (nodes : List Str) (positions : List (Str × Point)) :
    Option Rect :=
  nodes.foldl (fun b id =>
    match alGet positions id with
    | some p => expand_bounds b (node_rect p)
    | none => b) none

/-- `offset_nodes`. -/
def offset_nodes (positions : List (Str × Point)) (nodes : List Str)
    (dx dy : Frac) : List (Str × Point) :=
  positions.map fun kv =>
    if kv.1 ∈ nodes then (kv.1, ⟨kv.2.x + dx, kv.2.y + dy⟩) else kv

/-- `rects_intersect_with_margin`. -/
def rects_intersect_with_margin (a b : Rect) (margin : Frac) : Bool :=
  a.min_x - margin < b.max_x + margin ∧ a.max_x + margin > b.min_x - margin ∧
  a.min_y - margin < b.max_y + margin ∧ a.max_y + margin > b.min_y - margin

/-- The fueled rightward-shift loop of `separate_top_level_subgraphs`.
For `sep > 0` a fuel of `2·|placed| + 2` always suffices (each continuing
iteration strictly decreases a potential bounded by `2·|placed|`; see the
C7 development). -/
def sepLoop (bounds : Rect) (placed : List Rect) (sep : Frac) :
    ℕ → Frac → Option Frac
  | 0, _ => none
  | fuel + 1, requiredShift =>
    let shifted : Rect := ⟨bounds.min_x + requiredShift, bounds.max_x + requiredShift,
      bounds.min_y, bounds.max_y⟩
    match placed.find? (fun p => rects_intersect_with_margin shifted p sep) with
    | some p =>
      let newShift := max (p.max_x + sep - bounds.min_x) requiredShift
      if (newShift - requiredShift).abs < epsF32 then
        sepLoop bounds placed sep fuel (newShift + sep)
      else sepLoop bounds placed sep fuel newShift
    | none => some requiredShift

/-- `Diagram::separate_top_level_subgraphs` (parametrized by the
separation margin; the pipeline instantiates `SUBGRAPH_SEPARATION`). -/
def Diagram.separate_top_level_subgraphs (d : Diagram) (sep : Frac)
    (positions : List (Str × Point)) : List (Str × Point) :=
  if d.subgraphs.isEmpty then positions
  else
    (d.subgraphs.foldl (fun (acc : List (Str × Point) × List Rect) sg =>
      let (positions, placedBounds) := acc
      let nodes := gather_subgraph_nodes sg
      if nodes.isEmpty then acc
      else
        match compute_group_bounds nodes positions with
        | none => acc
        | some bounds =>
          match sepLoop bounds placedBounds sep (2 * placedBounds.length + 2) 0 with
          | none => acc
          | some requiredShift =>
            if requiredShift.abs > epsF32 then
              let positions := offset_nodes positions nodes requiredShift 0
              let bounds : Rect := ⟨bounds.min_x + requiredShift,
                bounds.max_x + requiredShift, bounds.min_y, bounds.max_y⟩
              (positions, placedBounds ++ [bounds])
            else (positions, placedBounds ++ [bounds]))
      (positions, [])).1

/-- Minimum of a list of rationals (the source folds `f32::MIN`/`MAX`
starting values over a nonempty collection; for nonempty lists the two
agree, and the source guards emptiness before folding). -/
def foldMin (l : List Frac) : Frac :=
  match l with
  | [] => 0
  | x :: xs => xs.foldl min x

/-- Maximum of a list of rationals (see `foldMin`). -/
def foldMax (l : List Frac) : Frac :=
  match l with
  | [] => 0
  | x :: xs => xs.foldl max x

/-- `compute_canvas_size_for_positions`. -/
def compute_canvas_size_for_positions (positions : List (Str × Point)) :
    CanvasSize :=
  if positions.isEmpty then
    ⟨START_OFFSET * 2 + NODE_WIDTH, START_OFFSET * 2 + NODE_HEIGHT⟩
  else
    let minX := foldMin (positions.map (fun kv => kv.2.x - NODE_WIDTH / 2))
    let maxX := foldMax (positions.map (fun kv => kv.2.x + NODE_WIDTH / 2))
    let minY := foldMin (positions.map (fun kv => kv.2.y - NODE_HEIGHT / 2))
    let maxY := foldMax (positions.map (fun kv => kv.2.y + NODE_HEIGHT / 2))
    ⟨max (maxX - minX) NODE_WIDTH + LAYOUT_MARGIN * 2,
     max (maxY - minY) NODE_HEIGHT + LAYOUT_MARGIN * 2⟩

/-! ## `Diagram::layout` -/

/-- `struct LayoutComputation`. -/
structure LayoutComputation where
  auto_positions : List (Str × Point)
  auto_routes : List (Str × List Point)
  auto_size : CanvasSize
  final_positions : List (Str × Point)
  final_routes : List (Str × List Point)
  deriving DecidableEq, Repr

/-- `Diagram::layout`, parametrized by the hash-map iteration orders fed
to the two `compute_routes` calls (see `Diagram.compute_routes`).  The
iteration order of `overrides.nodes` (also an unordered map in the
source) is the order of its association list; each key is merged
independently, so the merged positions do not depend on it. -/
def Diagram.layoutWith (d : Diagram) (overrides : Option LayoutOverrides)
    (autoOrd finalOrd : List Str) : Except String LayoutComputation := do
  let auto := d.compute_auto_layout
  let positions := d.separate_top_level_subgraphs SUBGRAPH_SEPARATION auto.positions
  let size := compute_canvas_size_for_positions positions
  let finalPositions :=
    match overrides with
    | some ov => ov.nodes.foldl (fun fp kv =>
        if alHas fp kv.1 then alPut fp kv.1 kv.2 else fp) positions
    | none => positions
  let autoRoutes ← d.compute_routes positions none autoOrd
  let finalRoutes ← d.compute_routes finalPositions overrides finalOrd
  pure ⟨positions, autoRoutes, size, finalPositions, finalRoutes⟩

/-- `Diagram::layout` with both hash orders instantiated to the position
keys in placement order (one of the possible hash-map orders). -/
def Diagram.layout (d : Diagram) (overrides : Option LayoutOverrides) :
    Except String LayoutComputation :=
  let keys := (d.separate_top_level_subgraphs SUBGRAPH_SEPARATION
    d.compute_auto_layout.positions).map (·.1)
  d.layoutWith overrides keys keys

/-- `Diagram::remove_edge_by_identifier`: retains non-matching edges and
reports whether anything was removed. -/
def Diagram.remove_edge_by_identifier (d : Diagram) (edgeId : Str) :
    Diagram × Bool :=
  let edges' := d.edges.filter (fun e => ¬ edgeIdentifier e = edgeId)
  ({ d with edges := edges' }, d.edges.length ≠ edges'.length)

/-! ## Canvas alignment and the PNG shell -/

/-- `struct SubgraphVisual`. -/
structure SubgraphVisual where
  id : Str
  label : Str
  x : Frac
  y : Frac
  width : Frac
  height : Frac
  label_x : Frac
  label_y : Frac
  depth : ℕ
  order : ℕ
  deriving DecidableEq, Repr

mutual

/-- `collect_subgraph_visual`: post-order bounding boxes with padding,
label strip and minimum-size expansion. -/
def collect_subgraph_visual (positions : List (Str × Point)) (sg : Subgraph)
    (depth : ℕ) (visuals : List SubgraphVisual) :
    List SubgraphVisual × Option Rect :=
  match sg with
  | .mk sgId sgLabel sgNodes sgChildren sgOrder =>
    let (visuals, bounds) :=
      collect_subgraph_visual_children positions sgChildren (depth + 1) visuals none
    let bounds := sgNodes.foldl (fun b nodeId =>
      match alGet positions nodeId with
      | some p => expand_bounds b (node_rect p)
      | none => b) bounds
    match bounds with
    | none => (visuals, none)
    | some bounds =>
      let bounds : Rect := ⟨bounds.min_x - SUBGRAPH_PADDING, bounds.max_x + SUBGRAPH_PADDING,
        bounds.min_y - SUBGRAPH_PADDING, bounds.max_y + SUBGRAPH_PADDING⟩
      let outer : Rect := { bounds with min_y := bounds.min_y - SUBGRAPH_LABEL_AREA }
      let width := outer.max_x - outer.min_x
      let height := outer.max_y - outer.min_y
      let minWidth := NODE_WIDTH + SUBGRAPH_PADDING * 2
      let outer :=
        if width < minWidth then
          let delta := (minWidth - width) / 2
          { outer with min_x := outer.min_x - delta, max_x := outer.max_x + delta }
        else outer
      let minHeight := NODE_HEIGHT + SUBGRAPH_PADDING * 2 + SUBGRAPH_LABEL_AREA
      let outer :=
        if height < minHeight then
          let delta := (minHeight - height) / 2
          { outer with min_y := outer.min_y - delta, max_y := outer.max_y + delta }
        else outer
      let width := outer.max_x - outer.min_x
      let height := outer.max_y - outer.min_y
      let visual : SubgraphVisual :=
        { id := sgId, label := sgLabel, x := outer.min_x, y := outer.min_y,
          width := width, height := height,
          label_x := outer.min_x + SUBGRAPH_LABEL_INSET_X,
          label_y := outer.min_y + SUBGRAPH_LABEL_TEXT_BASELINE,
          depth := depth, order := sgOrder }
      (visuals ++ [visual], some outer)

/-- The child recursion of `collect_subgraph_visual`. -/
def collect_subgraph_visual_children (positions : List (Str × Point))
    (children : List Subgraph) (depth : ℕ) (visuals : List SubgraphVisual)
    (bounds : Option Rect) : List SubgraphVisual × Option Rect :=
  match children with
  | [] => (visuals, bounds)
  | child :: rest =>
    let (visuals, childBounds) := collect_subgraph_visual positions child depth visuals
    let bounds :=
      match childBounds with
      | some cb => expand_bounds bounds cb
      | none => bounds
    collect_subgraph_visual_children positions rest depth visuals bounds

end

/-- Weak order on strings (`String: Ord` `≤`), for the stable visual
sort. -/
def strLe (a b : Str) : Bool := strLt a b || a = b

/-- `compute_subgraph_visuals` (stable sort by depth, order, id). -/
def compute_subgraph_visuals (subgraphs : List Subgraph)
    (positions : List (Str × Point)) : List SubgraphVisual :=
  let visuals := subgraphs.foldl (fun acc sg =>
    (collect_subgraph_visual positions sg 0 acc).1) []
  sortByF (fun a b =>
    a.depth < b.depth || (a.depth = b.depth &&
      (a.order < b.order || (a.order = b.order && strLe a.id b.id)))) visuals

/-- `struct Geometry`. -/
structure Geometry where
  positions : List (Str × Point)
  edges : List (Str × List Point)
  subgraphs : List SubgraphVisual
  width : Frac
  height : Frac
  deriving DecidableEq, Repr

/-- `align_geometry`. -/
def align_geometry (positions : List (Str × Point))
    (routes : List (Str × List Point)) (edges : List Edge)
    (subgraphs : List Subgraph) : Except String Geometry := do
  if positions.isEmpty then .error "diagram does not declare any nodes"
  else
    let nodeMinX := foldMin (positions.map (fun kv => kv.2.x - NODE_WIDTH / 2))
    let nodeMaxX := foldMax (positions.map (fun kv => kv.2.x + NODE_WIDTH / 2))
    let nodeMinY := foldMin (positions.map (fun kv => kv.2.y - NODE_HEIGHT / 2))
    let nodeMaxY := foldMax (positions.map (fun kv => kv.2.y + NODE_HEIGHT / 2))
    let routePoints := (routes.map (·.2)).flatten
    let minX := routePoints.foldl (fun acc p => min acc p.x) nodeMinX
    let maxX := routePoints.foldl (fun acc p => max acc p.x) nodeMaxX
    let minY := routePoints.foldl (fun acc p => min acc p.y) nodeMinY
    let maxY := routePoints.foldl (fun acc p => max acc p.y) nodeMaxY
    let labelBoxes ← edges.foldlM (fun (acc : List Rect) e => do
      match e.label with
      | none => pure acc
      | some label =>
        let identifier := edgeIdentifier e
        match alGet routes identifier with
        | none => .error "missing geometry for edge"
        | some route =>
          let lines := normalize_label_lines label
          if lines.isEmpty then pure acc
          else
            let wh := measure_label_box lines
            let center := label_center_for_route route
            pure (acc ++ [⟨center.x - wh.1 / 2, center.x + wh.1 / 2,
              center.y - wh.2 / 2, center.y + wh.2 / 2⟩])) []
    let minX := labelBoxes.foldl (fun acc r => min acc r.min_x) minX
    let maxX := labelBoxes.foldl (fun acc r => max acc r.max_x) maxX
    let minY := labelBoxes.foldl (fun acc r => min acc r.min_y) minY
    let maxY := labelBoxes.foldl (fun acc r => max acc r.max_y) maxY
    let unshiftedSubgraphs := compute_subgraph_visuals subgraphs positions
    let minX := unshiftedSubgraphs.foldl (fun acc sg => min acc sg.x) minX
    let maxX := unshiftedSubgraphs.foldl (fun acc sg => max acc (sg.x + sg.width)) maxX
    let minY := unshiftedSubgraphs.foldl (fun acc sg => min acc sg.y) minY
    let maxY := unshiftedSubgraphs.foldl (fun acc sg => max acc (sg.y + sg.height)) maxY
    if minX > maxX ∨ minY > maxY then .error "unable to compute diagram bounds"
    else
      let width := max (maxX - minX) NODE_WIDTH + LAYOUT_MARGIN * 2
      let height := max (maxY - minY) NODE_HEIGHT + LAYOUT_MARGIN * 2
      let shiftX := LAYOUT_MARGIN - minX
      let shiftY := LAYOUT_MARGIN - minY
      pure
        { positions := positions.map (fun kv =>
            (kv.1, ⟨kv.2.x + shiftX, kv.2.y + shiftY⟩))
          edges := routes.map (fun kv =>
            (kv.1, kv.2.map (fun p => ⟨p.x + shiftX, p.y + shiftY⟩)))
          subgraphs := unshiftedSubgraphs.map (fun sg =>
            { sg with
                x := sg.x + shiftX, y := sg.y + shiftY,
                label_x := sg.label_x + shiftX, label_y := sg.label_y + shiftY })
          width := width
          height := height }

/-- The standard 8-byte PNG signature. -/
def pngSignature : List ℕ := [137, 80, 78, 71, 13, 10, 26, 10]

/-- Modelled from the spec: the external rasterizer (`resvg`/`usvg`,
absent from `src/`) parses the serialized SVG — whose `width`/`height`
attributes are written with `{:.0}` formatting — and reports that
rounded document size, at least one pixel per axis
(`tree.size().to_int_size()`). -/
def svgTreeSize (g : Geometry) : ℕ × ℕ :=
  (max 1 g.width.roundz.toNat, max 1 g.height.roundz.toNat)

/-- Modelled from the spec: the external PNG encoder
(`tiny_skia::Pixmap::encode_png`, absent from `src/`) emits "raw PNG
bytes beginning with the standard PNG signature". -/
def encodePng (w h : ℕ) : List ℕ := pngSignature ++ [w, h]

/-- `Diagram::render_png`: the scale-validation shell around the opaque
rasterizer.  The `is_finite` check cannot fail in the exact-rational
model of `f32` (no value of type `Frac` denotes an infinity), so it is
modelled by a vacuous guard. -/
def Diagram.render_png (d : Diagram) (overrides : Option LayoutOverrides)
    (scale : Frac) : Except String (List ℕ) := do
  if scale ≤ 0 then
    .error "scale must be greater than zero when rendering PNG output"
  else
    let layout ← d.layout overrides
    let geometry ← align_geometry layout.final_positions layout.final_routes
      d.edges d.subgraphs
    let (width, height) := svgTreeSize geometry
    let scaledWidth : ℤ := ((width : Frac) * scale).ceilz
    let scaledHeight : ℤ := ((height : Frac) * scale).ceilz
    let finite := true
    if ¬ finite then .error "scaled dimensions are not finite"
    else if scaledWidth < 1 ∨ scaledHeight < 1 then
      .error "scaled dimensions collapsed below 1px"
    else if scaledWidth > 4294967295 ∨ scaledHeight > 4294967295 then
      .error "scaled dimensions exceed supported limits"
    else pure (encodePng scaledWidth.toNat scaledHeight.toNat)

/-! ## Claims -/

/-- C10: `remove_edge_by_identifier` removes exactly the edges whose
identifier equals the argument (all structural duplicates at once, in one
`retain` pass), returns `true` iff at least one edge was removed, and
leaves the non-matching edges (in order) and every other field of the
diagram unchanged. -/
theorem claim_C10_remove_edge (d : Diagram) (s : Str) :
    (d.remove_edge_by_identifier s).1.edges
        = d.edges.filter (fun e => ¬ edgeIdentifier e = s) ∧
    (∀ e ∈ (d.remove_edge_by_identifier s).1.edges, ¬ edgeIdentifier e = s) ∧
    ((d.remove_edge_by_identifier s).2 = true ↔ ∃ e ∈ d.edges, edgeIdentifier e = s) ∧
    (d.remove_edge_by_identifier s).1.direction = d.direction ∧
    (d.remove_edge_by_identifier s).1.nodes = d.nodes ∧
    (d.remove_edge_by_identifier s).1.order = d.order ∧
    (d.remove_edge_by_identifier s).1.subgraphs = d.subgraphs ∧
    (d.remove_edge_by_identifier s).1.nodeMembership = d.nodeMembership := by
  refine ⟨rfl, ?_, ?_, rfl, rfl, rfl, rfl, rfl⟩
  · intro e he
    have h := List.of_mem_filter he
    exact of_decide_eq_true h
  · show (decide ¬ d.edges.length = (d.edges.filter _).length) = true ↔ _
    rw [decide_eq_true_eq]
    constructor
    · intro h
      by_contra hc
      push_neg at hc
      apply h
      have hall : ∀ e ∈ d.edges, (fun e => ¬ edgeIdentifier e = s) e := fun e he => hc e he
      rw [List.filter_eq_self.mpr (fun e he => decide_eq_true (hall e he))]
    · intro ⟨e, he, hid⟩ hlen
      have hss := List.filter_sublist (l := d.edges) (p := fun e => ¬ edgeIdentifier e = s)
      have heq := hss.eq_of_length hlen.symm
      have hmem : e ∈ d.edges.filter (fun e => ¬ edgeIdentifier e = s) := by
        rw [heq]; exact he
      exact of_decide_eq_true (List.mem_filter.mp hmem).2 hid

/-- C5 counterexample: the claim says a first significant line consisting
of `graph` with a missing direction token yields a `ParseError`, but the
source defaults the missing token to `TD`: parsing `"graph\nA"` succeeds
with direction `TopDown`. -/
theorem claim_C5_counterexample :
    (Diagram.parse (("graph\nA").data)).toOption.map Diagram.direction
      = some Direction.TopDown := by decide

/-- C6 counterexample: the claim says a node declaration line with an
empty identifier (here `[Label]`) yields a `ParseError`, but the source
silently ignores the line: the parse succeeds and declares only `A`. -/
theorem claim_C6_counterexample :
    (Diagram.parse (("graph TD\nA\n[Label]").data)).toOption.map Diagram.order
      = some [("A").data] := by decide

/-- C2 counterexample: round-trip fails when a node id contains an arrow
token.  `"graph TD\nA --> B --> C"` parses into the two nodes `A` and
`B --> C` (no node `B`), but re-parsing its `to_definition` output also
splits the emitted `B --> C` node line as an edge line, introducing a
node `B`: the re-parsed node set differs from the original. -/
theorem claim_C2_counterexample :
    ((Diagram.parse (("graph TD\nA --> B --> C").data)).toOption.bind
      (fun d => (Diagram.parse d.toDefinition).toOption.map
        (fun d2 => (alHas d.nodes (("B").data), alHas d2.nodes (("B").data)))))
      = some (false, true) := by decide

/-- C8 counterexample: for the self-loop `"graph TD\nA --> A"` the routed
edge is the degenerate two-point polyline at `A`'s center `(190, 150)`;
both endpoints lie at `L∞`-distance `30` (resp. `70`) from the
rectangle's horizontal (resp. vertical) sides — strictly inside the shape
interior, far beyond any small epsilon. -/
theorem claim_C8_counterexample :
    ((Diagram.parse (("graph TD\nA --> A").data)).toOption.bind (fun d =>
      (d.layout none).toOption.bind (fun lc =>
        alGet lc.final_routes (("A --> A").data))))
      = some [Point.mk 190 150, Point.mk 190 150] ∧
    ((Diagram.parse (("graph TD\nA --> A").data)).toOption.bind (fun d =>
      (d.layout none).toOption.bind (fun lc =>
        alGet lc.final_positions (("A").data)))) = some (Point.mk 190 150) ∧
    (node_rect (Point.mk 190 150)).min_y + 29 ≤ (150 : Frac) ∧
    (150 : Frac) + 29 ≤ (node_rect (Point.mk 190 150)).max_y ∧
    (node_rect (Point.mk 190 150)).min_x + 69 ≤ (190 : Frac) ∧
    (190 : Frac) + 69 ≤ (node_rect (Point.mk 190 150)).max_x := by decide

/-- The C1 failing input: five declared nodes plus the edge `A --> B`. -/
def detourOrderDiagText : Str := ("graph TD\nC\nD\nA\nW3\nW4\nA --> B").data

/-- The C1 failing input's overrides: every node is given an explicit
position, so the final positions are exactly these points. -/
def detourOrderOverrides : LayoutOverrides :=
  ⟨[(("A").data, ⟨0, 0⟩), (("B").data, ⟨1000, 0⟩), (("C").data, ⟨300, 0⟩),
    (("D").data, ⟨700, 8⟩), (("W3").data, ⟨70, -140⟩), (("W4").data, ⟨70, 140⟩)],
   []⟩

/-- One possible iteration order of the node-bounds hash map. -/
def detourOrderA : List Str :=
  [("A").data, ("B").data, ("C").data, ("D").data, ("W3").data, ("W4").data]

/-- Another possible iteration order (`D` before `C`). -/
def detourOrderB : List Str :=
  [("D").data, ("C").data, ("A").data, ("B").data, ("W3").data, ("W4").data]

/-- The second point of the final route of `A --> B` under a given
node-bounds iteration order. -/
def detourOrderProbe (ord : List Str) : Option Point :=
  ((Diagram.parse detourOrderDiagText).toOption.bind (fun d =>
    (d.layoutWith (some detourOrderOverrides) detourOrderA ord).toOption.bind
      (fun lc => alGet lc.final_routes (("A --> B").data)))).bind
    (fun r => r.get? 1)

/-- C1: `layout` is *not* bit-identical across calls.  The straight route
`A --> B` collides with the third-party nodes `C` and `D`;
`detour_route_for_collisions` iterates the node-bounds `HashMap` and
returns the first perfect detour candidate it finds, so the jog is routed
around whichever blocking node the unordered iteration happens to visit
first: around `C` (at `y = -74`) or around `D` (at `y = -66`).  Two valid
iteration orders of the same map (they are permutations of each other)
produce different final routes. -/
theorem claim_C1_layout_order_dependent :
    detourOrderProbe detourOrderA = some (Point.mk 0 (-74)) ∧
    detourOrderProbe detourOrderB = some (Point.mk 0 (-66)) ∧
    detourOrderA.Perm detourOrderB := by decide

/-! ### Association-list and position-coverage lemmas (C4) -/

theorem alGet_alPut_self {κ α : Type} [DecidableEq κ] (m : List (κ × α)) (k : κ)
    (v : α) : alGet (alPut m k v) k = some v := by
  induction m with
  | nil => simp [alPut, alGet]
  | cons kv rest ih =>
    by_cases h : kv.1 = k
    · simp [alPut, h, alGet]
    · simp [alPut, alGet, h, ih]

theorem alGet_alPut_other {κ α : Type} [DecidableEq κ] (m : List (κ × α))
    (k k' : κ) (v : α) (h : k ≠ k') : alGet (alPut m k v) k' = alGet m k' := by
  induction m with
  | nil => simp [alPut, alGet, h]
  | cons kv rest ih =>
    by_cases hk : kv.1 = k
    · simp [alPut, hk, alGet, h]
    · simp only [alPut, if_neg hk]
      by_cases hk' : kv.1 = k'
      · simp [alGet, hk']
      · simp [alGet, hk', ih]

theorem alHas_alPut {κ α : Type} [DecidableEq κ] (m : List (κ × α)) (k k' : κ)
    (v : α) (h : alHas m k' = true) : alHas (alPut m k v) k' = true := by
  by_cases hk : k = k'
  · subst hk
    simp [alHas, alGet_alPut_self]
  · rwa [alHas, alGet_alPut_other m k k' v hk]

theorem alHas_alPut_self {κ α : Type} [DecidableEq κ] (m : List (κ × α)) (k : κ)
    (v : α) : alHas (alPut m k v) k = true := by
  simp [alHas, alGet_alPut_self]

theorem alGet_eq_none_iff {κ α : Type} [DecidableEq κ] (m : List (κ × α))
    (k : κ) : alGet m k = none ↔ ∀ kv ∈ m, kv.1 ≠ k := by
  induction m with
  | nil => simp [alGet]
  | cons kv rest ih =>
    by_cases h : kv.1 = k
    · simp [alGet, h]
    · simp [alGet, h, ih]

/-- A predicate preserved by every fold step holds after the fold. -/
theorem foldl_pred_preserved {α β : Type} (p : β → Prop) (f : β → α → β)
    (hf : ∀ b a, p b → p (f b a)) :
    ∀ (l : List α) (b : β), p b → p (l.foldl f b) := by
  intro l
  induction l with
  | nil => intro b hb; exact hb
  | cons x rest ih =>
    intro b hb
    exact ih (f b x) (hf b x hb)

/-- A predicate preserved by every step and established by some member
step holds after the fold. -/
theorem foldl_pred_established {α β : Type} (p : β → Prop) (f : β → α → β)
    (hf : ∀ b a, p b → p (f b a)) (l : List α) (x : α) (hx : x ∈ l)
    (hset : ∀ b, p (f b x)) : ∀ b, p (l.foldl f b) := by
  induction l with
  | nil => cases hx
  | cons y rest ih =>
    intro b
    rcases List.mem_cons.mp hx with rfl | hx'
    · exact foldl_pred_preserved p f hf rest (f b x) (hset b)
    · exact ih hx' (f b y)

/-- Every list member appears (as second component) in `enumFrom`. -/
theorem exists_mem_enumFrom {α : Type} (l : List α) (x : α) :
    ∀ n, x ∈ l → ∃ ci ∈ l.enumFrom n, ci.2 = x := by
  induction l with
  | nil => intro n hx; cases hx
  | cons h t ih =>
    intro n hx
    rcases List.mem_cons.mp hx with rfl | hx'
    · exact ⟨(n, x), List.mem_cons_self _ _, rfl⟩
    · obtain ⟨ci, hci, hcieq⟩ := ih (n + 1) hx'
      exact ⟨ci, List.mem_cons_of_mem _ hci, hcieq⟩

/-- Every node of every layer receives a position in `placeLayers`. -/
theorem alHas_placeLayers (direction : Direction) (layers : List (List Str))
    (id : Str) (layer : List Str) (hlayer : layer ∈ layers) (hid : id ∈ layer) :
    alHas (placeLayers direction layers).1 id = true := by
  have hinner : ∀ (pt : ℕ × Str → Point) (acc : List (Str × Point)),
      alHas (layer.enum.foldl (fun acc ci => alPut acc ci.2 (pt ci)) acc) id
        = true := by
    intro pt acc
    obtain ⟨ci, hci, hcieq⟩ := exists_mem_enumFrom layer id 0 hid
    refine foldl_pred_established (fun m => alHas m id = true)
      (fun acc ci => alPut acc ci.2 (pt ci)) ?_ layer.enum ci hci ?_ acc
    · intro b a hb
      exact alHas_alPut _ _ _ _ hb
    · intro b
      show alHas (alPut b ci.2 (pt ci)) id = true
      rw [hcieq]
      exact alHas_alPut_self _ _ _
  obtain ⟨il, hil, hileq⟩ := exists_mem_enumFrom layers layer 0 hlayer
  cases direction with
  | TopDown | BottomTop | LeftRight | RightLeft =>
    simp only [placeLayers]
    refine foldl_pred_established (fun m => alHas m id = true) _ ?_
      layers.enum il hil ?_ []
    · intro b a hb
      exact foldl_pred_preserved (fun m => alHas m id = true) _
        (fun b a hb => alHas_alPut _ _ _ _ hb) _ b hb
    · intro b
      dsimp only
      rw [hileq]
      exact hinner _ b

theorem mem_insertSorted {α : Type} (le : α → α → Bool) (x y : α)
    (l : List α) : y ∈ insertSorted le x l ↔ y = x ∨ y ∈ l := by
  induction l with
  | nil => simp [insertSorted]
  | cons h t ih =>
    simp only [insertSorted]
    by_cases hle : le h x = true
    · rw [if_pos hle]
      simp only [List.mem_cons, ih]
      tauto
    · rw [if_neg hle]
      simp only [List.mem_cons]

theorem mem_sortByF {α : Type} (le : α → α → Bool) (x : α) (l : List α) :
    x ∈ sortByF le l ↔ x ∈ l := by
  have main : ∀ (l : List α) (acc : List α),
      x ∈ l.foldl (fun acc y => insertSorted le y acc) acc ↔
        x ∈ l ∨ x ∈ acc := by
    intro l
    induction l with
    | nil => simp
    | cons h t ih =>
      intro acc
      rw [List.foldl_cons, ih, mem_insertSorted]
      simp only [List.mem_cons]
      tauto
  rw [sortByF, main]
  simp

/-- Every node of `order` appears in some layer of `layersOf`. -/
theorem mem_layersOf (d : Diagram) (levels : Str → ℕ) (id : Str)
    (hid : id ∈ d.order) :
    ∃ layer ∈ d.layersOf levels, id ∈ layer := by
  simp only [Diagram.layersOf]
  by_cases hempty :
      ((sortByF (fun a b => a ≤ b) (d.order.map levels).dedup).map
        (fun k => d.order.filter (fun n => levels n = k))).isEmpty = true
  · rw [if_pos hempty]
    exact ⟨d.order, List.mem_singleton_self _, hid⟩
  · rw [if_neg hempty]
    have hkey : levels id ∈ sortByF (fun a b => a ≤ b)
        (d.order.map levels).dedup := by
      rw [mem_sortByF, List.mem_dedup]
      exact List.mem_map_of_mem levels hid
    exact ⟨d.order.filter (fun n => levels n = levels id),
      List.mem_map_of_mem _ hkey, by simp [List.mem_filter, hid]⟩

/-- Every node of a nonempty `order` receives an auto-layout position. -/
theorem alHas_auto_positions (d : Diagram) (N : Str) (hN : N ∈ d.order) :
    alHas d.compute_auto_layout.positions N = true := by
  have hne : ¬ d.order.isEmpty = true := by
    cases horder : d.order with
    | nil => rw [horder] at hN; cases hN
    | cons h t => simp [List.isEmpty]
  obtain ⟨layer, hlayer, hmem⟩ := mem_layersOf d (d.computeLevels).1 N hN
  simp only [Diagram.compute_auto_layout, if_neg hne]
  exact alHas_placeLayers d.direction _ N layer hlayer hmem

theorem alHas_offset_nodes (positions : List (Str × Point)) (nodes : List Str)
    (dx dy : Frac) (id : Str) :
    alHas (offset_nodes positions nodes dx dy) id = alHas positions id := by
  induction positions with
  | nil => rfl
  | cons kv rest ih =>
    simp only [offset_nodes, List.map_cons] at ih ⊢
    by_cases hmem : kv.1 ∈ nodes
    · rw [if_pos hmem]
      by_cases hk : kv.1 = id
      · simp [alHas, alGet, hk]
      · simp only [alHas, alGet, if_neg hk] at ih ⊢
        exact ih
    · rw [if_neg hmem]
      by_cases hk : kv.1 = id
      · simp [alHas, alGet, hk]
      · simp only [alHas, alGet, if_neg hk] at ih ⊢
        exact ih

/-- Subgraph separation never adds or removes position keys. -/
theorem alHas_separate (d : Diagram) (sep : Frac)
    (positions : List (Str × Point)) (id : Str) :
    alHas (d.separate_top_level_subgraphs sep positions) id
      = alHas positions id := by
  by_cases hempty : d.subgraphs.isEmpty = true
  · simp [Diagram.separate_top_level_subgraphs, hempty]
  · simp only [Diagram.separate_top_level_subgraphs, if_neg hempty]
    refine foldl_pred_preserved
      (fun acc : List (Str × Point) × List Rect =>
        alHas acc.1 id = alHas positions id) _ ?_ d.subgraphs
      (positions, []) rfl
    intro acc sg hacc
    dsimp only
    split
    · exact hacc
    · split
      · exact hacc
      · split
        · exact hacc
        · split
          · dsimp only
            rw [alHas_offset_nodes]
            exact hacc
          · exact hacc

/-- The override merge at a key absent from the override map. -/
theorem merge_get_absent (l : List (Str × Point)) (base : List (Str × Point))
    (N : Str) (habs : ∀ kv ∈ l, kv.1 ≠ N) :
    alGet (l.foldl (fun fp kv =>
      if alHas fp kv.1 then alPut fp kv.1 kv.2 else fp) base) N
      = alGet base N := by
  induction l generalizing base with
  | nil => rfl
  | cons kv rest ih =>
    rw [List.foldl_cons]
    rw [ih _ (fun kv' h => habs kv' (List.mem_cons_of_mem kv h))]
    by_cases hhas : alHas base kv.1 = true
    · rw [if_pos hhas]
      exact alGet_alPut_other base kv.1 N kv.2 (habs kv (List.mem_cons_self kv rest))
    · rw [if_neg hhas]

/-- The override merge at a key present in the override map, assuming the
map's keys are distinct (the `HashMap` invariant) and the key already has
a base position. -/
theorem merge_get_present (l : List (Str × Point)) (N : Str) (p : Point) :
    (l.map (fun kv => kv.1)).Nodup → ∀ base : List (Str × Point),
      alGet l N = some p → alHas base N = true →
      alGet (l.foldl (fun fp kv =>
        if alHas fp kv.1 then alPut fp kv.1 kv.2 else fp) base) N = some p := by
  induction l with
  | nil => intro _ base hget; cases hget
  | cons kv rest ih =>
    intro hnodup base hget hhas
    rw [List.map_cons, List.nodup_cons] at hnodup
    by_cases hk : kv.1 = N
    · have hp : kv.2 = p := by
        rw [alGet, if_pos hk] at hget
        exact Option.some.inj hget
      have habs : ∀ kv' ∈ rest, kv'.1 ≠ N := by
        intro kv' hmem heq
        apply hnodup.1
        have hm : kv'.1 ∈ rest.map (fun kv => kv.1) :=
          List.mem_map_of_mem (fun kv => kv.1) hmem
        rw [heq, ← hk] at hm
        exact hm
      have hhas' : alHas base kv.1 = true := by rw [hk]; exact hhas
      rw [List.foldl_cons, if_pos hhas', merge_get_absent rest _ N habs,
        hk, alGet_alPut_self, hp]
    · have hget' : alGet rest N = some p := by
        rwa [alGet, if_neg hk] at hget
      rw [List.foldl_cons]
      by_cases hh : alHas base kv.1 = true
      · rw [if_pos hh]
        exact ih hnodup.2 _ hget' (alHas_alPut base kv.1 N kv.2 hhas)
      · rw [if_neg hh]
        exact ih hnodup.2 _ hget' hhas

/-- C4 (**Override precedence**): for any node id `N` present in the
diagram and any hash orders fed to the routing passes, a successful
layout gives `N` exactly the override position when one exists, and
exactly the auto-layout (post-separation) position otherwise. -/
theorem claim_C4_override_precedence (d : Diagram) (ov : LayoutOverrides)
    (autoOrd finalOrd : List Str) (N : Str) (lc : LayoutComputation)
    (hN : N ∈ d.order)
    (hnodup : (ov.nodes.map (fun kv => kv.1)).Nodup)
    (hok : d.layoutWith (some ov) autoOrd finalOrd = .ok lc) :
    (∀ p, alGet ov.nodes N = some p → alGet lc.final_positions N = some p) ∧
    (alGet ov.nodes N = none →
      alGet lc.final_positions N = alGet lc.auto_positions N) := by
  have hsep : alHas (d.separate_top_level_subgraphs SUBGRAPH_SEPARATION
      d.compute_auto_layout.positions) N = true := by
    rw [alHas_separate]
    exact alHas_auto_positions d N hN
  simp only [Diagram.layoutWith, bind, Except.bind] at hok
  cases h1 : d.compute_routes (d.separate_top_level_subgraphs
      SUBGRAPH_SEPARATION d.compute_auto_layout.positions) none autoOrd with
  | error e =>
    rw [h1] at hok
    cases hok
  | ok ar =>
    rw [h1] at hok
    cases h2 : d.compute_routes (ov.nodes.foldl (fun fp kv =>
        if alHas fp kv.1 then alPut fp kv.1 kv.2 else fp)
        (d.separate_top_level_subgraphs SUBGRAPH_SEPARATION
          d.compute_auto_layout.positions)) (some ov) finalOrd with
    | error e =>
      rw [h2] at hok
      cases hok
    | ok fr =>
      rw [h2] at hok
      cases hok
      constructor
      · intro p hget
        exact merge_get_present ov.nodes N p hnodup _ hget hsep
      · intro hnone
        exact merge_get_absent ov.nodes _ N
          ((alGet_eq_none_iff ov.nodes N).mp hnone)

/-- A two-node diagram for exercising the override-precedence theorem. -/
def c4diag : Diagram :=
  ⟨Direction.TopDown,
   [(("A").data, ⟨("A").data, NodeShape.Rectangle⟩),
    (("B").data, ⟨("B").data, NodeShape.Rectangle⟩)],
   [("A").data, ("B").data],
   [⟨("A").data, ("B").data, none, EdgeKind.Solid⟩],
   [], []⟩

/-- An override placing node `A` at `(500, 600)` and saying nothing
about `B`. -/
def c4ov : LayoutOverrides := ⟨[(("A").data, Point.mk 500 600)], []⟩

/-- A hash order for the two routing passes of the witness layout. -/
def c4ord : List Str := [("A").data, ("B").data]

theorem claim_C4_override_precedence_witness :
    ∃ lc : LayoutComputation,
      c4diag.layoutWith (some c4ov) c4ord c4ord = Except.ok lc ∧
      alGet lc.final_positions (("A").data) = some (Point.mk 500 600) ∧
      alGet lc.final_positions (("B").data)
        = alGet lc.auto_positions (("B").data) := by
  have h : (c4diag.layoutWith (some c4ov) c4ord c4ord).toOption.isSome
      = true := by decide
  cases hok : c4diag.layoutWith (some c4ov) c4ord c4ord with
  | error e =>
    rw [hok] at h
    simp [Except.toOption] at h
  | ok lc =>
    refine ⟨lc, rfl, ?_, ?_⟩
    · exact (claim_C4_override_precedence c4diag c4ov c4ord c4ord
        (("A").data) lc (by decide) (by decide) hok).1
        (Point.mk 500 600) (by decide)
    · exact (claim_C4_override_precedence c4diag c4ov c4ord c4ord
        (("B").data) lc (by decide) (by decide) hok).2 (by decide)

/-- C9 (**scale validation**, spec-modelled rasterizer): `render_png`
fails on a non-positive scale before any rendering; any successful call
returns bytes starting with the PNG signature; and on a renderable
diagram success happens exactly when the scale is positive and the
ceiled scaled dimensions lie in `[1, u32::MAX]`. -/
theorem claim_C9_render_png (d : Diagram) (ov : Option LayoutOverrides)
    (scale : Frac) :
    (scale ≤ 0 → d.render_png ov scale
      = Except.error "scale must be greater than zero when rendering PNG output") ∧
    (∀ bytes, d.render_png ov scale = Except.ok bytes →
      ¬ scale ≤ 0 ∧ bytes.take 8 = pngSignature) ∧
    (∀ lc g, d.layout ov = Except.ok lc →
      align_geometry lc.final_positions lc.final_routes d.edges d.subgraphs
        = Except.ok g →
      ((∃ bytes, d.render_png ov scale = Except.ok bytes) ↔
        ¬ scale ≤ 0 ∧
        1 ≤ (((svgTreeSize g).1 : Frac) * scale).ceilz ∧
        1 ≤ (((svgTreeSize g).2 : Frac) * scale).ceilz ∧
        (((svgTreeSize g).1 : Frac) * scale).ceilz ≤ 4294967295 ∧
        (((svgTreeSize g).2 : Frac) * scale).ceilz ≤ 4294967295)) := by
  refine ⟨?_, ?_, ?_⟩
  · intro h
    simp only [Diagram.render_png]
    rw [if_pos h]
  · intro bytes hok
    by_cases h0 : scale ≤ 0
    · simp only [Diagram.render_png] at hok
      rw [if_pos h0] at hok
      cases hok
    · refine ⟨h0, ?_⟩
      simp only [Diagram.render_png] at hok
      rw [if_neg h0] at hok
      cases hlc : d.layout ov with
      | error e =>
        rw [hlc] at hok
        simp only [bind, Except.bind] at hok
        cases hok
      | ok lc =>
        rw [hlc] at hok
        simp only [bind, Except.bind] at hok
        cases hg : align_geometry lc.final_positions lc.final_routes d.edges
            d.subgraphs with
        | error e =>
          rw [hg] at hok
          simp only [bind, Except.bind] at hok
          cases hok
        | ok g =>
          rw [hg] at hok
          simp only [bind, Except.bind, not_true, if_false] at hok
          by_cases h1 : (((svgTreeSize g).1 : Frac) * scale).ceilz < 1 ∨
              (((svgTreeSize g).2 : Frac) * scale).ceilz < 1
          · rw [if_pos h1] at hok
            cases hok
          · rw [if_neg h1] at hok
            by_cases h2 : (((svgTreeSize g).1 : Frac) * scale).ceilz > 4294967295 ∨
                (((svgTreeSize g).2 : Frac) * scale).ceilz > 4294967295
            · rw [if_pos h2] at hok
              cases hok
            · rw [if_neg h2] at hok
              cases hok
              rfl
  · intro lc g hlc hg
    by_cases h0 : scale ≤ 0
    · constructor
      · rintro ⟨bytes, hok⟩
        simp only [Diagram.render_png] at hok
        rw [if_pos h0] at hok
        cases hok
      · rintro ⟨habs, _⟩
        exact absurd h0 habs
    · have hred : d.render_png ov scale =
          (if (((svgTreeSize g).1 : Frac) * scale).ceilz < 1 ∨
              (((svgTreeSize g).2 : Frac) * scale).ceilz < 1 then
            Except.error "scaled dimensions collapsed below 1px"
          else if (((svgTreeSize g).1 : Frac) * scale).ceilz > 4294967295 ∨
              (((svgTreeSize g).2 : Frac) * scale).ceilz > 4294967295 then
            Except.error "scaled dimensions exceed supported limits"
          else Except.ok (encodePng (((svgTreeSize g).1 : Frac) * scale).ceilz.toNat
            (((svgTreeSize g).2 : Frac) * scale).ceilz.toNat)) := by
        simp only [Diagram.render_png]
        rw [if_neg h0, hlc]
        simp only [bind, Except.bind]
        rw [hg]
        simp only [bind, Except.bind, not_true, if_false]
        rfl
      rw [hred]
      by_cases h1 : (((svgTreeSize g).1 : Frac) * scale).ceilz < 1 ∨
          (((svgTreeSize g).2 : Frac) * scale).ceilz < 1
      · rw [if_pos h1]
        constructor
        · rintro ⟨bytes, hok⟩
          cases hok
        · rintro ⟨_, hw, hh, _⟩
          rcases h1 with h1 | h1 <;> omega
      · rw [if_neg h1]
        by_cases h2 : (((svgTreeSize g).1 : Frac) * scale).ceilz > 4294967295 ∨
            (((svgTreeSize g).2 : Frac) * scale).ceilz > 4294967295 <;>
          push_neg at h1
        · rw [if_pos h2]
          constructor
          · rintro ⟨bytes, hok⟩
            cases hok
          · rintro ⟨_, _, _, hw, hh⟩
            rcases h2 with h2 | h2 <;> omega
        · rw [if_neg h2]
          push_neg at h2
          exact ⟨fun _ => ⟨h0, h1.1, h1.2, h2.1, h2.2⟩, fun _ => ⟨_, rfl⟩⟩

/-- A one-node diagram for exercising `render_png`. -/
def c9diag : Diagram :=
  ⟨Direction.TopDown, [(("A").data, ⟨("A").data, NodeShape.Rectangle⟩)],
   [("A").data], [], [], []⟩

theorem claim_C9_render_png_witness :
    c9diag.render_png none 0
      = Except.error "scale must be greater than zero when rendering PNG output" ∧
    ∃ bytes, c9diag.render_png none 2 = Except.ok bytes ∧
      bytes.take 8 = pngSignature := by
  constructor
  · exact (claim_C9_render_png c9diag none 0).1 (by decide)
  · have h : (c9diag.render_png none 2).toOption.isSome = true := by decide
    cases hok : c9diag.render_png none 2 with
    | error e =>
      rw [hok] at h
      simp [Except.toOption] at h
    | ok bytes =>
      exact ⟨bytes, rfl,
        ((claim_C9_render_png c9diag none 2).2.1 bytes hok).2⟩

/-- The amended header rule of C5, written from the spec's (corrected)
words: the first token must be `graph` (ASCII case-insensitive); the
next token — trimmed, uppercased, defaulting to `TD` when absent — picks
the direction from {TD, TB, BT, LR, RL}; anything else is rejected. -/
def headerDirectionSpec (line : Str) : Option Direction :=
  match splitWs line with
  | [] => none
  | kw :: rest =>
    if lowerA kw = ("graph").data then
      match rest with
      | [] => some Direction.TopDown
      | tok :: _ =>
        let t := upperA (trim tok)
        if t = ("TD").data ∨ t = ("TB").data then some Direction.TopDown
        else if t = ("BT").data then some Direction.BottomTop
        else if t = ("LR").data then some Direction.LeftRight
        else if t = ("RL").data then some Direction.RightLeft
        else none
    else none

theorem parseGraphHeader_spec (line : Str) (dir : Direction) :
    parseGraphHeader line = Except.ok dir ↔
      headerDirectionSpec line = some dir := by
  simp only [parseGraphHeader, headerDirectionSpec]
  cases hs : splitWs line with
  | nil => simp
  | cons kw rest =>
    dsimp only
    by_cases hkw : lowerA kw = ("graph").data
    · rw [if_neg (not_not_intro hkw), if_pos hkw]
      cases rest with
      | nil =>
        rw [show upperA (trim (List.headD [] (("TD").data))) = ("TD").data
          from by decide]
        rw [if_pos (Or.inl rfl)]
        constructor
        · intro h
          cases h
          rfl
        · intro h
          cases h
          rfl
      | cons tok more =>
        dsimp only [List.headD]
        by_cases h1 : upperA (trim tok) = ("TD").data ∨ upperA (trim tok) = ("TB").data
        · rw [if_pos h1, if_pos h1]
          constructor
          · intro h; cases h; rfl
          · intro h; cases h; rfl
        · rw [if_neg h1, if_neg h1]
          by_cases h2 : upperA (trim tok) = ("BT").data
          · rw [if_pos h2, if_pos h2]
            constructor
            · intro h; cases h; rfl
            · intro h; cases h; rfl
          · rw [if_neg h2, if_neg h2]
            by_cases h3 : upperA (trim tok) = ("LR").data
            · rw [if_pos h3, if_pos h3]
              constructor
              · intro h; cases h; rfl
              · intro h; cases h; rfl
            · rw [if_neg h3, if_neg h3]
              by_cases h4 : upperA (trim tok) = ("RL").data
              · rw [if_pos h4, if_pos h4]
                constructor
                · intro h; cases h; rfl
                · intro h; cases h; rfl
              · rw [if_neg h4, if_neg h4]
                simp
    · rw [if_pos hkw, if_neg hkw]
      simp

/-- C5 (amended, **graph header**): a successful parse's first
significant line satisfies the amended header rule (`graph` keyword
case-insensitive; direction token from {TD, TB, BT, LR, RL}; a missing
token defaults to TD rather than failing) and determines the parsed
direction; a first significant line violating the rule makes the whole
parse fail. -/
theorem claim_C5_graph_header (definition : Str) (header : Str)
    (rest : List Str) (hsig : significantLines definition = header :: rest) :
    (∀ d, Diagram.parse definition = Except.ok d →
      headerDirectionSpec header = some d.direction) ∧
    (headerDirectionSpec header = none →
      ∃ e, Diagram.parse definition = Except.error e) := by
  constructor
  · intro d hok
    simp only [Diagram.parse] at hok
    rw [hsig] at hok
    simp only [bind, Except.bind] at hok
    cases hh : parseGraphHeader header with
    | error e =>
      rw [hh] at hok
      dsimp only at hok
      cases hok
    | ok dir =>
      rw [hh] at hok
      dsimp only at hok
      cases hst : rest.foldlM parseLineStep PSt.init with
      | error e =>
        rw [hst] at hok
        dsimp only at hok
        cases hok
      | ok st =>
        rw [hst] at hok
        dsimp only at hok
        by_cases hstack : st.stack.isEmpty = true
        · rw [if_neg (not_not_intro hstack)] at hok
          by_cases hnodes : st.nodes.isEmpty = true
          · rw [if_pos hnodes] at hok
            cases hok
          · rw [if_neg hnodes] at hok
            cases hok
            exact (parseGraphHeader_spec header dir).mp hh
        · rw [if_pos hstack] at hok
          cases hok
  · intro hnone
    cases hh : parseGraphHeader header with
    | error e =>
      refine ⟨e, ?_⟩
      simp only [Diagram.parse]
      rw [hsig]
      simp only [bind, Except.bind]
      rw [hh]
    | ok dir =>
      rw [(parseGraphHeader_spec header dir).mp hh] at hnone
      cases hnone

/-- Error test on an `Except` (used to state that a node line is
malformed). -/
def isErr {ε α : Type} : Except ε α → Bool
  | .error _ => true
  | .ok _ => false

/-- The trimmed-and-filtered significant lines of a raw line list (the
composition `significantLines` applies after splitting on newlines). -/
def sigOfParts (parts : List Str) : List Str :=
  ((parts.map crStrip).map trim).filter
    (fun l => ¬ l.isEmpty ∧ ¬ hasLead (['%', '%']) l)

theorem splitCh_ne_nil (x : Char) (s : Str) : splitCh x s ≠ [] := by
  cases s with
  | nil => simp [splitCh]
  | cons c cs =>
    simp only [splitCh]
    by_cases h : (c == x) = true
    · rw [if_pos h]
      simp
    · rw [if_neg h]
      simp

theorem splitCh_append_cons (x : Char) (a b : Str) :
    splitCh x (a ++ x :: b) = splitCh x a ++ splitCh x b := by
  induction a with
  | nil =>
    simp only [List.nil_append, splitCh]
    rw [if_pos (beq_self_eq_true x)]
    rfl
  | cons d a' ih =>
    simp only [List.cons_append, splitCh, List.append_eq, ih]
    by_cases h : (d == x) = true
    · rw [if_pos h, if_pos h]
      rfl
    · rw [if_neg h, if_neg h]
      cases hsp : splitCh x a' with
      | nil => exact absurd hsp (splitCh_ne_nil x a')
      | cons hd tl => simp [hsp, List.headI]

theorem splitCh_of_not_mem (x : Char) (s : Str) (h : x ∉ s) :
    splitCh x s = [s] := by
  induction s with
  | nil => rfl
  | cons c cs ih =>
    simp only [splitCh]
    rw [if_neg (fun hb =>
      h (List.mem_cons.mpr (Or.inl (eq_of_beq hb).symm)))]
    rw [ih (fun hm => h (List.mem_cons_of_mem c hm))]
    rfl

theorem sigOfParts_append (a b : List Str) :
    sigOfParts (a ++ b) = sigOfParts a ++ sigOfParts b := by
  simp [sigOfParts, List.filter_append]

/-- Dropping the empty final piece does not change the significant
lines. -/
theorem significantLines_eq_sigOfParts (s : Str) :
    significantLines s = sigOfParts (splitCh '\n' s) := by
  simp only [significantLines, rustLines, sigOfParts]
  by_cases h : (splitCh '\n' s).getLast? = some []
  · rw [if_pos h]
    have hne : splitCh '\n' s ≠ [] := splitCh_ne_nil '\n' s
    have hlast : (splitCh '\n' s).getLast hne = [] := by
      rw [List.getLast?_eq_getLast _ hne] at h
      exact Option.some.inj h
    conv_rhs => rw [← List.dropLast_append_getLast hne, hlast]
    rw [List.map_append, List.map_append, List.filter_append]
    simp [crStrip, trim, trimL, trimR, hasLead]
  · rw [if_neg h]

/-- Inserting one newline-free line splits the significant lines at the
insertion point. -/
theorem significantLines_insert (pre l post : Str) (hnl : '\n' ∉ l) :
    significantLines (pre ++ '\n' :: l ++ '\n' :: post)
      = significantLines pre ++ sigOfParts [l] ++ significantLines post := by
  rw [significantLines_eq_sigOfParts, splitCh_append_cons,
    splitCh_append_cons, splitCh_of_not_mem '\n' l hnl,
    sigOfParts_append, sigOfParts_append,
    ← significantLines_eq_sigOfParts, ← significantLines_eq_sigOfParts]

theorem parseEdgeLine_noop (st : PSt) (x : Str)
    (hso1 : splitOnceSub (("-.->").data) x = none)
    (hso2 : splitOnceSub (("-->").data) x = none) :
    parseEdgeLine x st = Except.ok (none, st) := by
  simp only [parseEdgeLine]
  rw [hso1]
  dsimp only
  rw [hso2]
  rfl

theorem parseNodeLine_noop (st : PSt) (x : Str)
    (hspec : isErr (NodeSpec.parse x) = true) :
    parseNodeLine x st = Except.ok (false, st) := by
  simp only [parseNodeLine]
  by_cases hc : (containsSub (("-->").data) x = true ∨
      containsSub (("-.->").data) x = true)
  · rw [if_pos hc]
  · rw [if_neg hc]
    cases hns : NodeSpec.parse x with
    | error e => rfl
    | ok spec =>
      rw [hns] at hspec
      cases hspec

/-- A line that is not a subgraph header, not `end`, has no arrow, and
fails `NodeSpec::parse` leaves the parser state untouched. -/
theorem parseLineStep_noop (st : PSt) (x : Str)
    (hsub : stripLead (("subgraph").data) x = none)
    (hend : eqIgnoreCase x (("end").data) = false)
    (hso1 : splitOnceSub (("-.->").data) x = none)
    (hso2 : splitOnceSub (("-->").data) x = none)
    (hspec : isErr (NodeSpec.parse x) = true) :
    parseLineStep st x = Except.ok st := by
  simp only [parseLineStep]
  rw [hsub]
  dsimp only
  rw [if_neg (by simp [hend])]
  rw [show (do
      let (edge?, st) ← parseEdgeLine x st
      match edge? with
      | some e => pure { st with edges := st.edges ++ [e] }
      | none => do
        let (_, st) ← parseNodeLine x st
        pure st : Except String PSt) =
    (do
      let (_, st) ← parseNodeLine x st
      pure st : Except String PSt) from by
    rw [parseEdgeLine_noop st x hso1 hso2]
    rfl]
  rw [parseNodeLine_noop st x hspec]
  rfl

/-- C6 (amended, **empty node identifier**): a line whose node
declaration is malformed (for example an empty identifier such as
`[Label]`), and which is not a subgraph header, `end` marker, or edge,
is silently ignored: parsing the text with that line inserted gives
exactly the same result as parsing without it — no `ParseError` is
raised for it. -/
theorem claim_C6_empty_id_line_ignored (pre l post : Str)
    (hpre : significantLines pre ≠ [])
    (hnl : '\n' ∉ l)
    (hsub : stripLead (("subgraph").data) (trim (crStrip l)) = none)
    (hend : eqIgnoreCase (trim (crStrip l)) (("end").data) = false)
    (hso1 : splitOnceSub (("-.->").data) (trim (crStrip l)) = none)
    (hso2 : splitOnceSub (("-->").data) (trim (crStrip l)) = none)
    (hspec : isErr (NodeSpec.parse (trim (crStrip l))) = true) :
    Diagram.parse (pre ++ '\n' :: l ++ '\n' :: post)
      = Diagram.parse (pre ++ '\n' :: post) := by
  have hT : ∀ st : PSt,
      List.foldlM parseLineStep st (sigOfParts [l]) = pure st := by
    intro st
    simp only [sigOfParts, List.map_cons, List.map_nil, List.filter_cons,
      List.filter_nil]
    split
    · rw [List.foldlM_cons,
        parseLineStep_noop st _ hsub hend hso1 hso2 hspec]
      rfl
    · rfl
  have h2 : significantLines (pre ++ '\n' :: post)
      = significantLines pre ++ significantLines post := by
    rw [significantLines_eq_sigOfParts, splitCh_append_cons,
      sigOfParts_append, ← significantLines_eq_sigOfParts,
      ← significantLines_eq_sigOfParts]
  simp only [Diagram.parse]
  rw [significantLines_insert pre l post hnl, h2]
  cases hp : significantLines pre with
  | nil => exact absurd hp hpre
  | cons h t =>
    simp only [List.cons_append, List.append_assoc]
    have hfold : List.foldlM parseLineStep PSt.init
        (t ++ (sigOfParts [l] ++ significantLines post))
        = List.foldlM parseLineStep PSt.init (t ++ significantLines post) := by
      simp only [List.foldlM_append, hT, pure_bind]
    rw [hfold]

theorem claim_C6_empty_id_line_ignored_witness :
    Diagram.parse ((("graph TD\nA").data) ++ '\n' :: (("[Label]").data)
        ++ '\n' :: (("B").data))
      = Diagram.parse ((("graph TD\nA").data) ++ '\n' :: (("B").data)) :=
  claim_C6_empty_id_line_ignored (("graph TD\nA").data) (("[Label]").data)
    (("B").data) (by decide) (by decide) (by decide) (by decide)
    (by decide) (by decide) (by decide)

theorem claim_C5_graph_header_witness :
    significantLines (("graph LR\nA").data)
        = (("graph LR").data) :: [("A").data] ∧
    ∀ d, Diagram.parse (("graph LR\nA").data) = Except.ok d →
      headerDirectionSpec (("graph LR").data) = some d.direction :=
  ⟨by decide,
   (claim_C5_graph_header (("graph LR\nA").data) (("graph LR").data)
     [("A").data] (by decide)).1⟩

/-! ### Clipping geometry (C8) -/

theorem epsF32_val : epsF32.val = 1 / 8388608 := by
  have h : epsF32.n = 1 ∧ epsF32.d = 8388608 := by decide
  rw [Frac.val_def, h.1, h.2]
  norm_num

theorem foldl_min_eq_or_mem (qs : List ℚ) (a : ℚ) :
    qs.foldl Min.min a = a ∨ qs.foldl Min.min a ∈ qs := by
  induction qs generalizing a with
  | nil => exact Or.inl rfl
  | cons q rest ih =>
    rw [List.foldl_cons]
    rcases ih (Min.min a q) with h | h
    · rcases min_choice a q with hm | hm
      · exact Or.inl (by rw [h, hm])
      · exact Or.inr (by rw [h, hm]; exact List.mem_cons_self q rest)
    · exact Or.inr (List.mem_cons_of_mem q h)

theorem foldl_min_le_init (qs : List ℚ) (a : ℚ) :
    qs.foldl Min.min a ≤ a := by
  induction qs generalizing a with
  | nil => exact le_refl a
  | cons q rest ih =>
    rw [List.foldl_cons]
    exact le_trans (ih (Min.min a q)) (min_le_left a q)

theorem foldl_min_le_mem (qs : List ℚ) (q : ℚ) :
    ∀ a, q ∈ qs → qs.foldl Min.min a ≤ q := by
  induction qs with
  | nil => intro a h; cases h
  | cons x rest ih =>
    intro a hq
    rw [List.foldl_cons]
    rcases List.mem_cons.mp hq with rfl | hq'
    · exact le_trans (foldl_min_le_init rest (Min.min a q)) (min_le_right a q)
    · exact ih (Min.min a x) hq'

/-- Under the no-clamping hypothesis, the exit-parameter fold of
`clip_segment_exit_rect` is a plain minimum fold over the candidate
values. -/
theorem clip_fold_val (ts : List Frac) (a : Frac)
    (hc : ∀ t ∈ ts, epsF32 ≤ t) :
    (ts.foldl (fun acc t => Min.min acc (Max.max t epsF32)) a).val
      = (ts.map Frac.val).foldl Min.min a.val := by
  induction ts generalizing a with
  | nil => rfl
  | cons t rest ih =>
    rw [List.foldl_cons, List.map_cons, List.foldl_cons,
      ih _ (fun u hu => hc u (List.mem_cons_of_mem t hu))]
    congr 1
    rw [Frac.val_min, Frac.val_max,
      max_eq_left ((Frac.val_le_iff epsF32 t).mp (hc t (List.mem_cons_self t rest)))]

/-- Every rect-exit candidate parameter lands the segment point exactly
on a vertical or horizontal side line of the rectangle, within the
`1e-3` slack along the other axis. -/
theorem mem_rectExitCandidates (start next : Point) (rect : Rect) (t : Frac)
    (ht : t ∈ rectExitCandidates start next rect) :
    (0 : ℚ) ≤ t.val ∧ t.val ≤ 1 ∧
    (((start.x.val + t.val * (next.x.val - start.x.val) = rect.min_x.val ∨
       start.x.val + t.val * (next.x.val - start.x.val) = rect.max_x.val) ∧
      rect.min_y.val - eps3.val ≤
        start.y.val + t.val * (next.y.val - start.y.val) ∧
      start.y.val + t.val * (next.y.val - start.y.val) ≤
        rect.max_y.val + eps3.val) ∨
     ((start.y.val + t.val * (next.y.val - start.y.val) = rect.min_y.val ∨
       start.y.val + t.val * (next.y.val - start.y.val) = rect.max_y.val) ∧
      rect.min_x.val - eps3.val ≤
        start.x.val + t.val * (next.x.val - start.x.val) ∧
      start.x.val + t.val * (next.x.val - start.x.val) ≤
        rect.max_x.val + eps3.val)) := by
  simp only [rectExitCandidates] at ht
  have hepsv : (0 : ℚ) < epsF32.val := by
    rw [epsF32_val]
    norm_num
  rcases List.mem_append.mp ht with hX | hY
  · split_ifs at hX with hd hdir hr hy hr hy
    all_goals
      first
      | exact absurd hX (List.not_mem_nil _)
      | (rcases List.mem_singleton.mp hX with rfl
         have hdx : next.x.val - start.x.val ≠ 0 := by
           have h := (Frac.val_lt_iff epsF32 (next.x - start.x).abs).mp hd
           rw [Frac.val_abs, Frac.val_sub] at h
           intro h0
           rw [h0, abs_zero] at h
           exact absurd h (not_lt.mpr (le_of_lt hepsv))
         obtain ⟨hr0, hr1⟩ := hr
         obtain ⟨hy0, hy1⟩ := hy
         simp only [Frac.val_le_iff, Frac.val_add, Frac.val_sub, Frac.val_mul,
           Frac.val_div, Frac.val_zero, Frac.val_one] at hr0 hr1 hy0 hy1 ⊢
         refine ⟨hr0, hr1, Or.inl ⟨?_, hy0, hy1⟩⟩
         first
         | (apply Or.inr
            rw [div_mul_cancel₀ _ hdx]
            ring1)
         | (apply Or.inl
            rw [div_mul_cancel₀ _ hdx]
            ring1))
  · split_ifs at hY with hd hdir hr hy hr hy
    all_goals
      first
      | exact absurd hY (List.not_mem_nil _)
      | (rcases List.mem_singleton.mp hY with rfl
         have hdy : next.y.val - start.y.val ≠ 0 := by
           have h := (Frac.val_lt_iff epsF32 (next.y - start.y).abs).mp hd
           rw [Frac.val_abs, Frac.val_sub] at h
           intro h0
           rw [h0, abs_zero] at h
           exact absurd h (not_lt.mpr (le_of_lt hepsv))
         obtain ⟨hr0, hr1⟩ := hr
         obtain ⟨hy0, hy1⟩ := hy
         simp only [Frac.val_le_iff, Frac.val_add, Frac.val_sub, Frac.val_mul,
           Frac.val_div, Frac.val_zero, Frac.val_one] at hr0 hr1 hy0 hy1 ⊢
         refine ⟨hr0, hr1, Or.inr ⟨?_, hy0, hy1⟩⟩
         first
         | (apply Or.inr
            rw [div_mul_cancel₀ _ hdy]
            ring1)
         | (apply Or.inl
            rw [div_mul_cancel₀ _ hdy]
            ring1))

/-- One Newton step from above: for positive inputs the step stays
positive and its square dominates the radicand (AM-GM). -/
theorem newtonStep_spec (a t : Frac) (ha : 0 < a.val) (ht : 0 < t.val) :
    0 < (newtonStep a t).val ∧
      a.val ≤ (newtonStep a t).val * (newtonStep a t).val := by
  have hv : (newtonStep a t).val = (t.val + a.val / t.val) / 2 := by
    show ((t + a / t) / 2).val = _
    rw [Frac.val_div, Frac.val_add, Frac.val_div, Frac.val_ofNat]
  have htne : t.val ≠ 0 := ne_of_gt ht
  constructor
  · rw [hv]
    positivity
  · rw [hv]
    have key : (t.val + a.val / t.val) / 2 * ((t.val + a.val / t.val) / 2)
        - a.val = ((t.val * t.val - a.val) / (2 * t.val)) ^ 2 := by
      field_simp
      ring
    nlinarith [sq_nonneg ((t.val * t.val - a.val) / (2 * t.val))]

/-- `ratSqrt` of a positive rational is positive and its square dominates
the argument (it is exact on perfect squares and approximates the root
from above otherwise). -/
theorem ratSqrt_spec (q : Frac) (hq : 0 < q.val) :
    0 < (ratSqrt q).val ∧ q.val ≤ (ratSqrt q).val * (ratSqrt q).val := by
  have hqle : ¬ q ≤ 0 := by
    intro hc
    have h2 := (Frac.val_le_iff q 0).mp hc
    rw [Frac.val_zero] at h2
    exact absurd h2 (not_le.mpr hq)
  have hdQ : (0 : ℚ) < (q.d : ℚ) := by exact_mod_cast q.dpos
  have hnQ : 0 < (q.n : ℚ) := by
    have h2 := mul_pos hq hdQ
    rwa [Frac.val_def, div_mul_cancel₀ _ (ne_of_gt hdQ)] at h2
  have hn : 0 < q.n := by exact_mod_cast hnQ
  simp only [ratSqrt]
  rw [if_neg hqle]
  by_cases h : isqrt q.n.toNat * isqrt q.n.toNat = q.n.toNat ∧
      isqrt q.d.toNat * isqrt q.d.toNat = q.d.toNat ∧ 0 < isqrt q.d.toNat
  · rw [dif_pos h]
    obtain ⟨h1, h2, h3⟩ := h
    have hnt : 0 < q.n.toNat := by omega
    have hsn : 0 < isqrt q.n.toNat := by
      rcases Nat.eq_zero_or_pos (isqrt q.n.toNat) with h0 | h0
      · rw [h0] at h1
        simp at h1
        omega
      · exact h0
    have h4 : ((isqrt q.n.toNat : ℤ)) * (isqrt q.n.toNat : ℤ) = q.n := by
      rw [← Nat.cast_mul, h1]
      exact Int.toNat_of_nonneg (le_of_lt hn)
    have h5 : ((isqrt q.d.toNat : ℤ)) * (isqrt q.d.toNat : ℤ) = q.d := by
      rw [← Nat.cast_mul, h2]
      exact Int.toNat_of_nonneg (le_of_lt q.dpos)
    constructor
    · simp only [Frac.val_def]
      have hsnQ : (0 : ℚ) < ((isqrt q.n.toNat : ℤ) : ℚ) := by exact_mod_cast hsn
      have hsdQ : (0 : ℚ) < ((isqrt q.d.toNat : ℤ) : ℚ) := by exact_mod_cast h3
      positivity
    · simp only [Frac.val_def]
      rw [div_mul_div_comm]
      have e1 : ((isqrt q.n.toNat : ℤ) : ℚ) * ((isqrt q.n.toNat : ℤ) : ℚ)
          = (q.n : ℚ) := by exact_mod_cast h4
      have e2 : ((isqrt q.d.toNat : ℤ) : ℚ) * ((isqrt q.d.toNat : ℤ) : ℚ)
          = (q.d : ℚ) := by exact_mod_cast h5
      rw [e1, e2]
  · rw [dif_neg h]
    have h0 : 0 < (Max.max 1 q).val := by
      rw [Frac.val_max, Frac.val_one]
      exact lt_of_lt_of_le one_pos (le_max_left 1 q.val)
    have s1 := newtonStep_spec q (Max.max 1 q) hq h0
    have s2 := newtonStep_spec q _ hq s1.1
    have s3 := newtonStep_spec q _ hq s2.1
    have s4 := newtonStep_spec q _ hq s3.1
    have s5 := newtonStep_spec q _ hq s4.1
    exact newtonStep_spec q _ hq s5.1

/-- The arrowhead extension displaces the clipped point by at most
`EDGE_ARROW_EXTENSION` (the `f32` square root is approximated from
above, so the normalized direction has length at most one). -/
theorem extend_sq_le (dx dy : Frac)
    (hpos : 0 < (dx * dx + dy * dy).val) :
    ((dx / ratSqrt (dx * dx + dy * dy) * EDGE_ARROW_EXTENSION).val) ^ 2 +
      ((dy / ratSqrt (dx * dx + dy * dy) * EDGE_ARROW_EXTENSION).val) ^ 2 ≤
      EDGE_ARROW_EXTENSION.val ^ 2 := by
  obtain ⟨hd0, hdsq⟩ := ratSqrt_spec (dx * dx + dy * dy) hpos
  have hvsum : (dx * dx + dy * dy).val
      = dx.val * dx.val + dy.val * dy.val := by
    rw [Frac.val_add, Frac.val_mul, Frac.val_mul]
  rw [Frac.val_mul, Frac.val_div, Frac.val_mul, Frac.val_div]
  have hDne : (ratSqrt (dx * dx + dy * dy)).val ≠ 0 := ne_of_gt hd0
  rw [hvsum] at hdsq
  have key : (dx.val / (ratSqrt (dx * dx + dy * dy)).val
        * EDGE_ARROW_EXTENSION.val) ^ 2
      + (dy.val / (ratSqrt (dx * dx + dy * dy)).val
        * EDGE_ARROW_EXTENSION.val) ^ 2
      = (dx.val * dx.val + dy.val * dy.val)
        * EDGE_ARROW_EXTENSION.val ^ 2
        / (ratSqrt (dx * dx + dy * dy)).val ^ 2 := by
    field_simp
    ring
  rw [key, div_le_iff (by positivity)]
  nlinarith [sq_nonneg EDGE_ARROW_EXTENSION.val, hdsq]

/-- `q` lies exactly on a vertical or horizontal side line of `r`, within
the `1e-3` tangential slack of the code's range check. -/
def onRectSide (q : Point) (r : Rect) : Prop :=
  ((q.x.val = r.min_x.val ∨ q.x.val = r.max_x.val) ∧
    r.min_y.val - eps3.val ≤ q.y.val ∧ q.y.val ≤ r.max_y.val + eps3.val) ∨
  ((q.y.val = r.min_y.val ∨ q.y.val = r.max_y.val) ∧
    r.min_x.val - eps3.val ≤ q.x.val ∧ q.x.val ≤ r.max_x.val + eps3.val)

/-- `q` lies exactly on one of the four boundary segments of the
diamond. -/
def onDiamondBoundary (q : Point) (b : NodeBoundary) : Prop :=
  ∃ ed ∈ diamondEdges b, ∃ u : ℚ, 0 ≤ u ∧ u ≤ 1 ∧
    q.x.val = ed.1.x.val + u * (ed.2.x.val - ed.1.x.val) ∧
    q.y.val = ed.1.y.val + u * (ed.2.y.val - ed.1.y.val)

/-- `q` lies exactly on the boundary of `b`: on a side line for
Rectangle/Stadium, on a diamond edge for Diamond. -/
def onShapeBoundary (q : Point) (b : NodeBoundary) : Prop :=
  ((b.shape = NodeShape.Rectangle ∨ b.shape = NodeShape.Stadium) ∧
    onRectSide q b.rect) ∨
  (b.shape = NodeShape.Diamond ∧ onDiamondBoundary q b)

/-- No epsilon clamping for one diamond edge: if the intersection
parameter exists it is at least `f32::EPSILON`. -/
def paramClampFree (start next : Point) (ed : Point × Point) : Bool :=
  match segment_intersection_param start next ed.1 ed.2 with
  | some t => decide (epsF32 ≤ t)
  | none => true

theorem paramClampFree_spec (start next : Point) (ed : Point × Point)
    (t : Frac) (h : paramClampFree start next ed = true)
    (hp : segment_intersection_param start next ed.1 ed.2 = some t) :
    epsF32 ≤ t := by
  unfold paramClampFree at h
  rw [hp] at h
  exact of_decide_eq_true h

/-- No candidate crossing parameter of either clip family is
epsilon-clamped (the no-clamping side condition of the amended claim). -/
def clipCandOK (start next : Point) (b : NodeBoundary) : Prop :=
  (∀ t ∈ rectExitCandidates start next b.rect, epsF32 ≤ t) ∧
  (∀ ed ∈ diamondEdges b, paramClampFree start next ed = true)

/-- The clamped exit-parameter fold of the rect clip selects (the value
of) one of the candidates when none is epsilon-clamped. -/
theorem clip_rect_param (start next : Point) (rect : Rect)
    (h2 : ¬ (rectExitCandidates start next rect).isEmpty = true)
    (hcand : ∀ t ∈ rectExitCandidates start next rect, epsF32 ≤ t) :
    ∃ t ∈ rectExitCandidates start next rect,
      (Min.min (Max.max ((rectExitCandidates start next rect).foldl
          (fun acc t => Min.min acc (Max.max t epsF32)) 1) 0) 1).val
        = t.val := by
  have hne : rectExitCandidates start next rect ≠ [] := by
    intro h0
    rw [h0] at h2
    exact h2 rfl
  have hfoldval : ((rectExitCandidates start next rect).foldl
      (fun acc t => Min.min acc (Max.max t epsF32)) 1).val
      = ((rectExitCandidates start next rect).map Frac.val).foldl
        Min.min 1 := by
    rw [clip_fold_val _ _ hcand, Frac.val_one]
  obtain ⟨t, ht, htv⟩ : ∃ t ∈ rectExitCandidates start next rect,
      ((rectExitCandidates start next rect).foldl
        (fun acc t => Min.min acc (Max.max t epsF32)) 1).val = t.val := by
    rcases foldl_min_eq_or_mem
        ((rectExitCandidates start next rect).map Frac.val) 1 with h | h
    · obtain ⟨c, hcmem⟩ := List.exists_mem_of_ne_nil _ hne
      have hcv : c.val ≤ 1 :=
        (mem_rectExitCandidates start next rect c hcmem).2.1
      have hle : ((rectExitCandidates start next rect).map
          Frac.val).foldl Min.min 1 ≤ c.val :=
        foldl_min_le_mem _ _ 1 (List.mem_map_of_mem Frac.val hcmem)
      refine ⟨c, hcmem, ?_⟩
      rw [hfoldval, h]
      rw [h] at hle
      exact (le_antisymm hcv hle).symm
    · obtain ⟨t, ht, htv⟩ := List.mem_map.mp h
      exact ⟨t, ht, by rw [hfoldval, ← htv]⟩
  have h0t : (0 : ℚ) ≤ t.val :=
    (mem_rectExitCandidates start next rect t ht).1
  have ht1 : t.val ≤ 1 :=
    (mem_rectExitCandidates start next rect t ht).2.1
  refine ⟨t, ht, ?_⟩
  rw [Frac.val_min, Frac.val_max, Frac.val_zero, Frac.val_one,
    max_eq_left (htv ▸ h0t), min_eq_left (htv ▸ ht1), htv]

/-- A successful un-extended rect clip lands exactly on a side line. -/
theorem clip_rect_on_side (start next : Point) (rect : Rect) (q : Point)
    (hclip : clip_segment_exit_rect start next rect false = some q)
    (hcand : ∀ t ∈ rectExitCandidates start next rect, epsF32 ≤ t) :
    onRectSide q rect := by
  simp only [clip_segment_exit_rect, Bool.false_eq_true, if_false] at hclip
  split_ifs at hclip with h1 h2
  obtain ⟨t, ht, htv⟩ := clip_rect_param start next rect h2 hcand
  cases hclip
  unfold onRectSide
  dsimp only
  simp only [Frac.val_add, Frac.val_mul, Frac.val_sub, htv]
  exact (mem_rectExitCandidates start next rect t ht).2.2

/-- A successful extended rect clip is a side-line point displaced by at
most `EDGE_ARROW_EXTENSION`. -/
theorem clip_rect_extend (start next : Point) (rect : Rect) (q : Point)
    (hclip : clip_segment_exit_rect start next rect true = some q)
    (hcand : ∀ t ∈ rectExitCandidates start next rect, epsF32 ≤ t) :
    ∃ p : Point, onRectSide p rect ∧
      (q.x.val - p.x.val) ^ 2 + (q.y.val - p.y.val) ^ 2 ≤
        EDGE_ARROW_EXTENSION.val ^ 2 := by
  simp only [clip_segment_exit_rect, eq_self_iff_true, if_true] at hclip
  split_ifs at hclip with h1 h2
  obtain ⟨t, ht, htv⟩ := clip_rect_param start next rect h2 hcand
  have hpos : 0 < ((next.x - start.x) * (next.x - start.x)
      + (next.y - start.y) * (next.y - start.y)).val := by
    have h1v : (epsF32 * epsF32).val < ((next.x - start.x)
        * (next.x - start.x)
        + (next.y - start.y) * (next.y - start.y)).val :=
      not_le.mp (fun hc => h1 ((Frac.val_le_iff _ _).mpr hc))
    refine lt_of_le_of_lt ?_ h1v
    rw [Frac.val_mul]
    exact mul_self_nonneg epsF32.val
  cases hclip
  refine ⟨⟨start.x + Min.min (Max.max ((rectExitCandidates start next
      rect).foldl (fun acc t => Min.min acc (Max.max t epsF32)) 1) 0) 1
      * (next.x - start.x),
    start.y + Min.min (Max.max ((rectExitCandidates start next
      rect).foldl (fun acc t => Min.min acc (Max.max t epsF32)) 1) 0) 1
      * (next.y - start.y)⟩, ?_, ?_⟩
  · unfold onRectSide
    dsimp only
    simp only [Frac.val_add, Frac.val_mul, Frac.val_sub, htv]
    exact (mem_rectExitCandidates start next rect t ht).2.2
  · dsimp only
    have hx : ((start.x + Min.min (Max.max ((rectExitCandidates start next
        rect).foldl (fun acc t => Min.min acc (Max.max t epsF32)) 1) 0) 1
        * (next.x - start.x))
        + (next.x - start.x) / ratSqrt ((next.x - start.x)
          * (next.x - start.x) + (next.y - start.y) * (next.y - start.y))
          * EDGE_ARROW_EXTENSION).val
        - (start.x + Min.min (Max.max ((rectExitCandidates start next
        rect).foldl (fun acc t => Min.min acc (Max.max t epsF32)) 1) 0) 1
        * (next.x - start.x)).val
        = ((next.x - start.x) / ratSqrt ((next.x - start.x)
          * (next.x - start.x) + (next.y - start.y) * (next.y - start.y))
          * EDGE_ARROW_EXTENSION).val := by
      rw [Frac.val_add]
      ring
    have hy : ((start.y + Min.min (Max.max ((rectExitCandidates start next
        rect).foldl (fun acc t => Min.min acc (Max.max t epsF32)) 1) 0) 1
        * (next.y - start.y))
        + (next.y - start.y) / ratSqrt ((next.x - start.x)
          * (next.x - start.x) + (next.y - start.y) * (next.y - start.y))
          * EDGE_ARROW_EXTENSION).val
        - (start.y + Min.min (Max.max ((rectExitCandidates start next
        rect).foldl (fun acc t => Min.min acc (Max.max t epsF32)) 1) 0) 1
        * (next.y - start.y)).val
        = ((next.y - start.y) / ratSqrt ((next.x - start.x)
          * (next.x - start.x) + (next.y - start.y) * (next.y - start.y))
          * EDGE_ARROW_EXTENSION).val := by
      rw [Frac.val_add]
      ring
    rw [hx, hy]
    exact extend_sq_le (next.x - start.x) (next.y - start.y) hpos

/-- A parameter returned by `segment_intersection_param` is in `[0,1]`
and places the segment point exactly on the edge segment (the
intersection arithmetic is exact). -/
theorem segment_intersection_param_spec (start next a b : Point) (t : Frac)
    (h : segment_intersection_param start next a b = some t) :
    0 ≤ t.val ∧ t.val ≤ 1 ∧ ∃ u : ℚ, 0 ≤ u ∧ u ≤ 1 ∧
      start.x.val + t.val * (next.x.val - start.x.val)
        = a.x.val + u * (b.x.val - a.x.val) ∧
      start.y.val + t.val * (next.y.val - start.y.val)
        = a.y.val + u * (b.y.val - a.y.val) := by
  simp only [segment_intersection_param] at h
  split_ifs at h with h1 h2
  injection h with h
  subst h
  obtain ⟨ht0, ht1, hu0, hu1⟩ := h2
  have hsmall : ((1 : Frac) / 1000000).val = 1 / 1000000 := by
    rw [Frac.val_div, Frac.val_one, Frac.val_ofNat]
  have hden : ((next.x - start.x) * (b.y - a.y)
      - (next.y - start.y) * (b.x - a.x)).val ≠ 0 := by
    intro h0
    apply h1
    rw [Frac.val_lt_iff, Frac.val_abs, h0, abs_zero, hsmall]
    norm_num
  simp only [Frac.val_sub, Frac.val_mul] at hden
  have ht0v := (Frac.val_le_iff _ _).mp ht0
  rw [Frac.val_zero] at ht0v
  have ht1v := (Frac.val_le_iff _ _).mp ht1
  rw [Frac.val_one] at ht1v
  have hu0v := (Frac.val_le_iff _ _).mp hu0
  rw [Frac.val_zero] at hu0v
  have hu1v := (Frac.val_le_iff _ _).mp hu1
  rw [Frac.val_one] at hu1v
  refine ⟨by simpa using ht0v, by simpa using ht1v,
    (((a.x - start.x) * (next.y - start.y)
      - (a.y - start.y) * (next.x - start.x))
      / ((next.x - start.x) * (b.y - a.y)
        - (next.y - start.y) * (b.x - a.x))).val,
    hu0v, hu1v, ?_, ?_⟩
  · simp only [Frac.val_div, Frac.val_sub, Frac.val_mul]
    field_simp
    ring
  · simp only [Frac.val_div, Frac.val_sub, Frac.val_mul]
    field_simp
    ring

/-- The best-crossing fold of the diamond clip returns the value of one
of the raw intersection parameters, provided none is epsilon-clamped. -/
theorem diamond_fold_spec (start next : Point)
    (eds : List (Point × Point)) :
    ∀ (acc : Option Frac) (t : Frac),
    (∀ ed ∈ eds, paramClampFree start next ed = true) →
    eds.foldl (diamondFoldStep start next) acc = some t →
    (∃ t0, acc = some t0 ∧ t.val = t0.val) ∨
    (∃ ed ∈ eds, ∃ tp, segment_intersection_param start next ed.1 ed.2
      = some tp ∧ t.val = tp.val) := by
  induction eds with
  | nil =>
    intro acc t _ hf
    rw [List.foldl_nil] at hf
    exact Or.inl ⟨t, hf, rfl⟩
  | cons ed rest ih =>
    intro acc t hcf hf
    rw [List.foldl_cons] at hf
    have hnext : ∀ e2 ∈ rest, paramClampFree start next e2 = true :=
      fun e2 he2 => hcf e2 (List.mem_cons_of_mem ed he2)
    cases hp : segment_intersection_param start next ed.1 ed.2 with
    | none =>
      have hstep : diamondFoldStep start next acc ed = acc := by
        unfold diamondFoldStep
        rw [hp]
      rw [hstep] at hf
      rcases ih acc t hnext hf with h | ⟨e2, he2, tp, hptp, hval⟩
      · exact Or.inl h
      · exact Or.inr ⟨e2, List.mem_cons_of_mem ed he2, tp, hptp, hval⟩
    | some tp =>
      have heps : epsF32 ≤ tp := paramClampFree_spec start next ed tp
        (hcf ed (List.mem_cons_self ed rest)) hp
      have hMval : (Max.max tp epsF32).val = tp.val := by
        rw [Frac.val_max]
        exact max_eq_left ((Frac.val_le_iff epsF32 tp).mp heps)
      by_cases hb : 0 ≤ tp ∧ tp ≤ 1
      · cases acc with
        | none =>
          have hstep : diamondFoldStep start next none ed
              = some (Max.max tp epsF32) := by
            unfold diamondFoldStep
            rw [hp]
            dsimp only
            rw [if_pos hb]
          rw [hstep] at hf
          rcases ih _ t hnext hf with ⟨t0, ht0, hval⟩ |
            ⟨e2, he2, tp2, hptp, hval⟩
          · refine Or.inr ⟨ed, List.mem_cons_self ed rest, tp, hp, ?_⟩
            have ht0e : t0 = Max.max tp epsF32 :=
              (Option.some_inj.mp ht0).symm
            rw [hval, ht0e, hMval]
          · exact Or.inr ⟨e2, List.mem_cons_of_mem ed he2, tp2, hptp, hval⟩
        | some cur =>
          have hstep : diamondFoldStep start next (some cur) ed
              = some (Min.min cur (Max.max tp epsF32)) := by
            unfold diamondFoldStep
            rw [hp]
            dsimp only
            rw [if_pos hb]
          rw [hstep] at hf
          rcases ih _ t hnext hf with ⟨t0, ht0, hval⟩ |
            ⟨e2, he2, tp2, hptp, hval⟩
          · have ht0e : t0 = Min.min cur (Max.max tp epsF32) :=
              (Option.some_inj.mp ht0).symm
            have hv2 : t.val = Min.min cur.val (Max.max tp epsF32).val := by
              rw [hval, ht0e, Frac.val_min]
            rcases min_choice cur.val (Max.max tp epsF32).val with hm | hm
            · exact Or.inl ⟨cur, rfl, by rw [hv2, hm]⟩
            · exact Or.inr ⟨ed, List.mem_cons_self ed rest, tp, hp, by
                rw [hv2, hm, hMval]⟩
          · exact Or.inr ⟨e2, List.mem_cons_of_mem ed he2, tp2, hptp, hval⟩
      · have hstep : diamondFoldStep start next acc ed = acc := by
          unfold diamondFoldStep
          rw [hp]
          dsimp only
          rw [if_neg hb]
        rw [hstep] at hf
        rcases ih acc t hnext hf with h | ⟨e2, he2, tp2, hptp, hval⟩
        · exact Or.inl h
        · exact Or.inr ⟨e2, List.mem_cons_of_mem ed he2, tp2, hptp, hval⟩

/-- A successful un-extended diamond clip lands exactly on a diamond
edge. -/
theorem clip_diamond_on_edge (start next : Point) (bounds : NodeBoundary)
    (q : Point)
    (hclip : clip_segment_exit_diamond start next bounds false = some q)
    (hcand : ∀ ed ∈ diamondEdges bounds,
      paramClampFree start next ed = true) :
    onDiamondBoundary q bounds := by
  simp only [clip_segment_exit_diamond, Bool.false_eq_true, if_false]
    at hclip
  split_ifs at hclip with h1
  cases hfold : (diamondEdges bounds).foldl (diamondFoldStep start next)
      none with
  | none =>
    rw [hfold] at hclip
    exact absurd hclip (by simp)
  | some tf =>
    rw [hfold] at hclip
    dsimp only at hclip
    rcases diamond_fold_spec start next (diamondEdges bounds) none tf
        hcand hfold with ⟨t0, ht0, _⟩ | ⟨ed, hed, tp, hptp, hval⟩
    · exact absurd ht0 (by simp)
    · obtain ⟨ht0v, ht1v, u, hu0, hu1, hx, hy⟩ :=
        segment_intersection_param_spec start next ed.1 ed.2 tp hptp
      have htE : (Min.min (Max.max tf 0) 1).val = tp.val := by
        rw [Frac.val_min, Frac.val_max, Frac.val_zero, Frac.val_one,
          max_eq_left (by rw [hval]; exact ht0v),
          min_eq_left (by rw [hval]; exact ht1v), hval]
      cases hclip
      refine ⟨ed, hed, u, hu0, hu1, ?_, ?_⟩
      · show (start.x + Min.min (Max.max tf 0) 1
            * (next.x - start.x)).val = _
        rw [Frac.val_add, Frac.val_mul, Frac.val_sub, htE]
        exact hx
      · show (start.y + Min.min (Max.max tf 0) 1
            * (next.y - start.y)).val = _
        rw [Frac.val_add, Frac.val_mul, Frac.val_sub, htE]
        exact hy

/-- A successful extended diamond clip is a diamond-edge point displaced
by at most `EDGE_ARROW_EXTENSION`. -/
theorem clip_diamond_extend (start next : Point) (bounds : NodeBoundary)
    (q : Point)
    (hclip : clip_segment_exit_diamond start next bounds true = some q)
    (hcand : ∀ ed ∈ diamondEdges bounds,
      paramClampFree start next ed = true) :
    ∃ p : Point, onDiamondBoundary p bounds ∧
      (q.x.val - p.x.val) ^ 2 + (q.y.val - p.y.val) ^ 2 ≤
        EDGE_ARROW_EXTENSION.val ^ 2 := by
  simp only [clip_segment_exit_diamond, eq_self_iff_true, if_true] at hclip
  split_ifs at hclip with h1
  have hpos : 0 < ((next.x - start.x) * (next.x - start.x)
      + (next.y - start.y) * (next.y - start.y)).val := by
    have h1v : (epsF32 * epsF32).val < ((next.x - start.x)
        * (next.x - start.x)
        + (next.y - start.y) * (next.y - start.y)).val :=
      not_le.mp (fun hc => h1 ((Frac.val_le_iff _ _).mpr hc))
    refine lt_of_le_of_lt ?_ h1v
    rw [Frac.val_mul]
    exact mul_self_nonneg epsF32.val
  cases hfold : (diamondEdges bounds).foldl (diamondFoldStep start next)
      none with
  | none =>
    rw [hfold] at hclip
    exact absurd hclip (by simp)
  | some tf =>
    rw [hfold] at hclip
    dsimp only at hclip
    rcases diamond_fold_spec start next (diamondEdges bounds) none tf
        hcand hfold with ⟨t0, ht0, _⟩ | ⟨ed, hed, tp, hptp, hval⟩
    · exact absurd ht0 (by simp)
    · obtain ⟨ht0v, ht1v, u, hu0, hu1, hx, hy⟩ :=
        segment_intersection_param_spec start next ed.1 ed.2 tp hptp
      have htE : (Min.min (Max.max tf 0) 1).val = tp.val := by
        rw [Frac.val_min, Frac.val_max, Frac.val_zero, Frac.val_one,
          max_eq_left (by rw [hval]; exact ht0v),
          min_eq_left (by rw [hval]; exact ht1v), hval]
      cases hclip
      refine ⟨⟨start.x + Min.min (Max.max tf 0) 1 * (next.x - start.x),
        start.y + Min.min (Max.max tf 0) 1 * (next.y - start.y)⟩, ?_, ?_⟩
      · refine ⟨ed, hed, u, hu0, hu1, ?_, ?_⟩
        · show (start.x + Min.min (Max.max tf 0) 1
              * (next.x - start.x)).val = _
          rw [Frac.val_add, Frac.val_mul, Frac.val_sub, htE]
          exact hx
        · show (start.y + Min.min (Max.max tf 0) 1
              * (next.y - start.y)).val = _
          rw [Frac.val_add, Frac.val_mul, Frac.val_sub, htE]
          exact hy
      · dsimp only
        have hdx : ((start.x + Min.min (Max.max tf 0) 1
            * (next.x - start.x))
            + (next.x - start.x) / ratSqrt ((next.x - start.x)
              * (next.x - start.x)
              + (next.y - start.y) * (next.y - start.y))
              * EDGE_ARROW_EXTENSION).val
            - (start.x + Min.min (Max.max tf 0) 1
              * (next.x - start.x)).val
            = ((next.x - start.x) / ratSqrt ((next.x - start.x)
              * (next.x - start.x)
              + (next.y - start.y) * (next.y - start.y))
              * EDGE_ARROW_EXTENSION).val := by
          rw [Frac.val_add]
          ring
        have hdy : ((start.y + Min.min (Max.max tf 0) 1
            * (next.y - start.y))
            + (next.y - start.y) / ratSqrt ((next.x - start.x)
              * (next.x - start.x)
              + (next.y - start.y) * (next.y - start.y))
              * EDGE_ARROW_EXTENSION).val
            - (start.y + Min.min (Max.max tf 0) 1
              * (next.y - start.y)).val
            = ((next.y - start.y) / ratSqrt ((next.x - start.x)
              * (next.x - start.x)
              + (next.y - start.y) * (next.y - start.y))
              * EDGE_ARROW_EXTENSION).val := by
          rw [Frac.val_add]
          ring
        rw [hdx, hdy]
        exact extend_sq_le (next.x - start.x) (next.y - start.y) hpos

/-- Dispatch of the un-extended clip over non-Circle shapes. -/
theorem clip_shape_on_boundary (start next : Point) (b : NodeBoundary)
    (q : Point) (hsh : b.shape ≠ NodeShape.Circle)
    (hclip : clip_segment_exit_with_shape start next b false = some q)
    (hcand : clipCandOK start next b) :
    onShapeBoundary q b := by
  unfold onShapeBoundary
  simp only [clip_segment_exit_with_shape] at hclip
  cases hs : b.shape with
  | Rectangle =>
    rw [hs] at hclip
    exact Or.inl ⟨Or.inl rfl, clip_rect_on_side start next b.rect q hclip
      hcand.1⟩
  | Stadium =>
    rw [hs] at hclip
    exact Or.inl ⟨Or.inr rfl, clip_rect_on_side start next b.rect q hclip
      hcand.1⟩
  | Circle => exact absurd hs hsh
  | Diamond =>
    rw [hs] at hclip
    exact Or.inr ⟨rfl, clip_diamond_on_edge start next b q hclip hcand.2⟩

/-- Dispatch of the extended clip over non-Circle shapes. -/
theorem clip_shape_extend (start next : Point) (b : NodeBoundary)
    (q : Point) (hsh : b.shape ≠ NodeShape.Circle)
    (hclip : clip_segment_exit_with_shape start next b true = some q)
    (hcand : clipCandOK start next b) :
    ∃ p : Point, onShapeBoundary p b ∧
      (q.x.val - p.x.val) ^ 2 + (q.y.val - p.y.val) ^ 2 ≤
        EDGE_ARROW_EXTENSION.val ^ 2 := by
  unfold onShapeBoundary
  simp only [clip_segment_exit_with_shape] at hclip
  cases hs : b.shape with
  | Rectangle =>
    rw [hs] at hclip
    obtain ⟨p, hp, hd⟩ := clip_rect_extend start next b.rect q hclip
      hcand.1
    exact ⟨p, Or.inl ⟨Or.inl rfl, hp⟩, hd⟩
  | Stadium =>
    rw [hs] at hclip
    obtain ⟨p, hp, hd⟩ := clip_rect_extend start next b.rect q hclip
      hcand.1
    exact ⟨p, Or.inl ⟨Or.inr rfl, hp⟩, hd⟩
  | Circle => exact absurd hs hsh
  | Diamond =>
    rw [hs] at hclip
    obtain ⟨p, hp, hd⟩ := clip_diamond_extend start next b q hclip hcand.2
    exact ⟨p, Or.inr ⟨rfl, hp⟩, hd⟩

/-- C8 (amended, **endpoint containment**): for a routed edge between
non-Circle nodes, when both endpoint clips of `trim_route_endpoints`
succeed and no crossing parameter is epsilon-clamped, the route's first
point lies exactly on the source node's shape boundary (a rectangle side
line within the `1e-3` tangential slack for Rectangle/Stadium, exactly
on one of the four diamond edges for Diamond), and the route's last
point is such a boundary point of the target displaced outward by at
most `EDGE_ARROW_EXTENSION` for the arrowhead.  When a clip fails
(e.g. the degenerate zero-length segment of a self-loop) the endpoint is
left unchanged and can sit strictly inside the shape, which is the
corrected behaviour. -/
theorem claim_C8_endpoint_on_boundary (p0 p1 : Point) (rest : List Point)
    (fromB toB : NodeBoundary) (qF L B qT : Point)
    (hshF : fromB.shape ≠ NodeShape.Circle)
    (hshT : toB.shape ≠ NodeShape.Circle)
    (hinF : fromB.contains_point p0 = true)
    (hclipF : clip_segment_exit_with_shape p0 p1 fromB false = some qF)
    (hcandF : clipCandOK p0 p1 fromB)
    (hL : (qF :: p1 :: rest).getD (rest.length + 1) ⟨0, 0⟩ = L)
    (hB : (qF :: p1 :: rest).getD rest.length ⟨0, 0⟩ = B)
    (hinT : toB.contains_point L = true)
    (hclipT : clip_segment_exit_with_shape L B toB true = some qT)
    (hcandT : clipCandOK L B toB) :
    (trim_route_endpoints (p0 :: p1 :: rest) fromB toB).head? = some qF ∧
    (trim_route_endpoints (p0 :: p1 :: rest) fromB toB).getLast?
      = some qT ∧
    onShapeBoundary qF fromB ∧
    ∃ p : Point, onShapeBoundary p toB ∧
      (qT.x.val - p.x.val) ^ 2 + (qT.y.val - p.y.val) ^ 2 ≤
        EDGE_ARROW_EXTENSION.val ^ 2 := by
  have hlen1 : (qF :: p1 :: rest).length - 1 = rest.length + 1 := by
    simp only [List.length_cons]
    omega
  have hlen2 : (qF :: p1 :: rest).length - 2 = rest.length := by
    simp only [List.length_cons]
    omega
  have htrim : trim_route_endpoints (p0 :: p1 :: rest) fromB toB
      = (qF :: p1 :: rest).take (rest.length + 1) ++ [qT] := by
    simp only [trim_route_endpoints]
    rw [if_neg (by simp only [List.length_cons]; omega)]
    rw [if_pos hinF, hclipF]
    dsimp only
    rw [if_neg (by simp only [List.length_cons]; omega)]
    rw [hlen1, hlen2, hL, hB, if_pos hinT, hclipT]
  refine ⟨?_, ?_, ?_, ?_⟩
  · rw [htrim, List.take_succ_cons]
    rfl
  · rw [htrim, List.getLast?_concat]
  · exact clip_shape_on_boundary p0 p1 fromB qF hshF hclipF hcandF
  · exact clip_shape_extend L B toB qT hshT hclipT hcandT

/-- A rectangle node at the origin for the clipping witness. -/
def c8from : NodeBoundary :=
  NodeBoundary.new (Point.mk 0 0) NodeShape.Rectangle

/-- A diamond node above it as the witness route's target. -/
def c8to : NodeBoundary :=
  NodeBoundary.new (Point.mk 0 400) NodeShape.Diamond

theorem claim_C8_endpoint_on_boundary_witness :
    (trim_route_endpoints [Point.mk 0 0, Point.mk 0 400] c8from
        c8to).head? = some (Point.mk 0 30) ∧
    (trim_route_endpoints [Point.mk 0 0, Point.mk 0 400] c8from
        c8to).getLast? = some (Point.mk 0 364) := by
  have h := claim_C8_endpoint_on_boundary (Point.mk 0 0) (Point.mk 0 400)
    [] c8from c8to (Point.mk 0 30) (Point.mk 0 400) (Point.mk 0 30)
    (Point.mk 0 364) (by decide) (by decide) (by decide) (by decide)
    ⟨by decide, by decide⟩ (by decide) (by decide) (by decide)
    (by decide) ⟨by decide, by decide⟩
  exact ⟨h.1, h.2.1⟩

/-! ### Kahn leveling invariants (C3) -/

/-- One edge step of the diagram's directed graph. -/
def edgeRel (edges : List Edge) (a b : Str) : Prop :=
  ∃ e ∈ edges, e.«from» = a ∧ e.«to» = b

/-- The number of in-edges of `v` whose source has been visited. -/
def inCount (edges : List Edge) (V : List Str) (v : Str) : ℕ :=
  (edges.filter (fun e => e.«to» = v ∧ e.«from» ∈ V)).length

/-- The loop potential: queue length plus nodes not yet seen. -/
def kahnPhi (order : List Str) (st : KahnSt) : ℕ :=
  st.queue.length +
    (order.toFinset \ (st.visited.toFinset ∪ st.queue.toFinset)).card

theorem length_filter_le_of_imp {α : Type} (l : List α) (p q : α → Bool)
    (h : ∀ a ∈ l, p a = true → q a = true) :
    (l.filter p).length ≤ (l.filter q).length := by
  induction l with
  | nil => exact le_refl 0
  | cons x rest ih =>
    have ih' := ih (fun a ha => h a (List.mem_cons_of_mem x ha))
    by_cases hp : p x = true
    · rw [List.filter_cons, if_pos hp, List.filter_cons,
        if_pos (h x (List.mem_cons_self x rest) hp)]
      simpa using ih'
    · rw [List.filter_cons, if_neg hp, List.filter_cons]
      by_cases hq : q x = true
      · rw [if_pos hq]
        exact le_trans ih' (by simp)
      · rw [if_neg hq]
        exact ih'

theorem length_filter_partition {α : Type} (l : List α) (p r : α → Bool) :
    (l.filter p).length
      = (l.filter (fun a => p a && r a)).length
        + (l.filter (fun a => p a && !r a)).length := by
  induction l with
  | nil => rfl
  | cons x rest ih =>
    by_cases hp : p x = true
    · by_cases hr : r x = true
      · simp [List.filter_cons, hp, hr, ih]
        omega
      · simp only [Bool.not_eq_true] at hr
        simp [List.filter_cons, hp, hr, ih]
        omega
    · simp only [Bool.not_eq_true] at hp
      simp [List.filter_cons, hp, ih]

/-- A walk staying inside a finite vertex list where every vertex has an
in-neighbour inside the list yields a cycle. -/
theorem cycle_of_all_have_pred (R : Str → Str → Prop) (S : List Str)
    (hne : S ≠ []) (hpred : ∀ v ∈ S, ∃ u ∈ S, R u v) :
    ∃ v, Relation.TransGen R v v := by
  obtain ⟨v₀, hv₀⟩ := List.exists_mem_of_ne_nil S hne
  have hstep : ∀ v : {x : Str // x ∈ S}, ∃ u : {x : Str // x ∈ S}, R u.1 v.1 := by
    rintro ⟨v, hv⟩
    obtain ⟨u, hu, hr⟩ := hpred v hv
    exact ⟨⟨u, hu⟩, hr⟩
  choose f hf using hstep
  have chain : ∀ j i : ℕ, i < j →
      Relation.TransGen R ((f^[j] ⟨v₀, hv₀⟩).1) ((f^[i] ⟨v₀, hv₀⟩).1) := by
    intro j
    induction j with
    | zero => intro i h; cases h
    | succ j ih =>
      intro i h
      have hstep1 : Relation.TransGen R ((f^[j + 1] ⟨v₀, hv₀⟩).1)
          ((f^[j] ⟨v₀, hv₀⟩).1) := by
        rw [Function.iterate_succ_apply']
        exact Relation.TransGen.single (hf _)
      rcases Nat.lt_succ_iff_lt_or_eq.mp h with h' | h'
      · exact Relation.TransGen.trans hstep1 (ih i h')
      · rw [h']
        exact hstep1
  have hmaps : ∀ k ∈ Finset.range (S.length + 1),
      (f^[k] ⟨v₀, hv₀⟩).1 ∈ S.toFinset := by
    intro k _
    rw [List.mem_toFinset]
    exact (f^[k] ⟨v₀, hv₀⟩).2
  have hcard : S.toFinset.card < (Finset.range (S.length + 1)).card := by
    rw [Finset.card_range]
    exact Nat.lt_succ_of_le (List.toFinset_card_le S)
  obtain ⟨i, hi, j, hj, hij, heq⟩ :=
    Finset.exists_ne_map_eq_of_card_lt_of_maps_to hcard hmaps
  rcases Nat.lt_or_ge i j with h | h
  · exact ⟨_, heq ▸ chain j i h⟩
  · have h' : j < i := lt_of_le_of_ne h (fun hh => hij hh.symm)
    exact ⟨_, heq.symm ▸ chain i j h'⟩

/-- The invariant of the out-edge fold inside `kahnProcess`: `P` is the
prefix of the popped node's out-edges processed so far, `V`/`rest` are
the visited list and remaining queue at pop time, `deg1`/`lvl1` the
indegree and level maps at pop time, and `lvl` the popped node's level. -/
structure FoldI (order : List Str) (edges : List Edge) (u : Str)
    (V rest : List Str) (lvl : ℕ) (deg1 lvl1 : Str → ℕ)
    (P : List Edge) (st' : KahnSt) : Prop where
  fvis : st'.visited = V ++ [u]
  fq : ∃ N : List Str, st'.queue = rest ++ N ∧ N.Nodup ∧
      ∀ w ∈ N, w ∈ order ∧ w ∉ V ∧ w ≠ u ∧ w ∉ rest
  fdeg : ∀ v, st'.indegree v + (P.filter (fun e => e.«to» = v)).length = deg1 v
  fzero : ∀ v ∈ order, (st'.indegree v = 0 ↔ v ∈ V ∨ v = u ∨ v ∈ st'.queue)
  fmono : ∀ v, lvl1 v ≤ st'.levels v
  fstab : ∀ v, (v ∈ V ∨ v = u) → st'.levels v = lvl1 v
  fdone : ∀ e ∈ P, lvl + 1 ≤ st'.levels e.«to»

theorem kahnFold_spec (order : List Str) (edges : List Edge) (u : Str)
    (V rest : List Str) (lvl : ℕ) (deg1 lvl1 : Str → ℕ)
    (hends : ∀ e ∈ edges, e.«from» ∈ order ∧ e.«to» ∈ order)
    (hkey : ∀ v, ((edges.filter (fun e => e.«from» = u)).filter
      (fun e => e.«to» = v)).length ≤ deg1 v) :
    ∀ (R P : List Edge) (st' : KahnSt),
      edges.filter (fun e => e.«from» = u) = P ++ R →
      FoldI order edges u V rest lvl deg1 lvl1 P st' →
      FoldI order edges u V rest lvl deg1 lvl1 (P ++ R)
        (R.foldl (fun st e =>
          let targetId := e.«to»
          let st :=
            if st.levels targetId < lvl + 1 then
              { st with levels := fun k =>
                  if k = targetId then lvl + 1 else st.levels k }
            else st
          if 0 < st.indegree targetId then
            let newDeg := st.indegree targetId - 1
            let st := { st with indegree := fun k =>
              if k = targetId then newDeg else st.indegree k }
            if newDeg = 0 then { st with queue := st.queue ++ [targetId] }
            else st
          else st) st') := by
  intro R
  induction R with
  | nil =>
    intro P st' houts hI
    rw [List.foldl_nil, List.append_nil]
    exact hI
  | cons e R' ih =>
    intro P st' houts hI
    -- facts about the target w := e.to
    have hemem : e ∈ edges.filter (fun e => e.«from» = u) := by
      rw [houts]
      exact List.mem_append_right P (List.mem_cons_self e R')
    have heedge : e ∈ edges := (List.mem_filter.mp hemem).1
    have hworder : e.«to» ∈ order := (hends e heedge).2
    have hcount : (P.filter (fun e' => e'.«to» = e.«to»)).length + 1
        ≤ deg1 e.«to» := by
      have h1 : ((P ++ e :: R').filter
          (fun e' => e'.«to» = e.«to»)).length ≤ deg1 e.«to» := by
        rw [← houts]
        exact hkey e.«to»
      rw [List.filter_append, List.length_append, List.filter_cons,
        if_pos (by simp)] at h1
      simp only [List.length_cons] at h1
      omega
    have hwpos : 0 < st'.indegree e.«to» := by
      have := hI.fdeg e.«to»
      omega
    have hwnot : ¬ (e.«to» ∈ V ∨ e.«to» = u ∨ e.«to» ∈ st'.queue) := by
      intro hmem
      have := (hI.fzero e.«to» hworder).mpr hmem
      omega
    push_neg at hwnot
    obtain ⟨hwV, hwu, hwQ⟩ := hwnot
    rw [List.foldl_cons]
    have hstep : FoldI order edges u V rest lvl deg1 lvl1 (P ++ [e])
        ((fun st e =>
          let targetId := e.«to»
          let st :=
            if st.levels targetId < lvl + 1 then
              { st with levels := fun k =>
                  if k = targetId then lvl + 1 else st.levels k }
            else st
          if 0 < st.indegree targetId then
            let newDeg := st.indegree targetId - 1
            let st := { st with indegree := fun k =>
              if k = targetId then newDeg else st.indegree k }
            if newDeg = 0 then { st with queue := st.queue ++ [targetId] }
            else st
          else st) st' e) := by
      dsimp only
      -- the level-updated intermediate state
      obtain ⟨N, hqeq, hNnodup, hNprops⟩ := hI.fq
      by_cases hlv : st'.levels e.«to» < lvl + 1
      case pos =>
        rw [if_pos hlv]
        rw [if_pos (by exact hwpos)]
        by_cases hzz : st'.indegree e.«to» - 1 = 0
        · rw [if_pos hzz]
          refine ⟨hI.fvis, ⟨N ++ [e.«to»], ?_, ?_, ?_⟩, ?_, ?_, ?_, ?_, ?_⟩
          · rw [hqeq, List.append_assoc]
          · rw [List.nodup_append]
            refine ⟨hNnodup, List.nodup_singleton _, ?_⟩
            intro w hwN hwsing
            rw [List.mem_singleton] at hwsing
            subst hwsing
            exact hwQ (by rw [hqeq]; exact List.mem_append_right rest hwN)
          · intro w hw
            rcases List.mem_append.mp hw with hw | hw
            · exact hNprops w hw
            · rw [List.mem_singleton] at hw
              subst hw
              exact ⟨hworder, hwV, hwu,
                fun hr => hwQ (by rw [hqeq]; exact List.mem_append_left N hr)⟩
          · intro v
            have hd := hI.fdeg v
            rw [List.filter_append, List.length_append, List.filter_cons]
            by_cases hv : e.«to» = v
            · rw [if_pos (by simp [hv])]
              subst hv
              simp only [eq_self_iff_true, if_true, ite_true,
                List.filter_nil, List.length_cons, List.length_nil]
              omega
            · rw [if_neg (by simp [hv])]
              simp only [List.filter_nil, List.length_nil]
              have : (if v = e.«to» then st'.indegree e.«to» - 1
                  else st'.indegree v) = st'.indegree v := by
                rw [if_neg (fun h => hv h.symm)]
              simp only [this]
              omega
          · intro v hvorder
            by_cases hv : v = e.«to»
            · subst hv
              simp only [eq_self_iff_true, if_true, ite_true]
              constructor
              · intro _
                right; right
                exact List.mem_append_right _ (List.mem_singleton_self _)
              · intro _
                exact hzz
            · simp only [if_neg hv]
              rw [hI.fzero v hvorder]
              constructor
              · rintro (h | h | h)
                · exact Or.inl h
                · exact Or.inr (Or.inl h)
                · right; right
                  exact List.mem_append_left _ h
              · rintro (h | h | h)
                · exact Or.inl h
                · exact Or.inr (Or.inl h)
                · rcases List.mem_append.mp h with h | h
                  · exact Or.inr (Or.inr h)
                  · rw [List.mem_singleton] at h
                    exact absurd h hv
          · intro v
            by_cases hv : v = e.«to»
            · subst hv
              simp only [eq_self_iff_true, if_true, ite_true]
              have h1 := hI.fmono e.«to»
              omega
            · simp only [if_neg hv]
              exact hI.fmono v
          · intro v hv
            have hvne : v ≠ e.«to» := by
              rintro rfl
              rcases hv with h | h
              · exact hwV h
              · exact hwu h
            simp only [if_neg hvne]
            exact hI.fstab v hv
          · intro e' he'
            rcases List.mem_append.mp he' with h | h
            · have := hI.fdone e' h
              by_cases hv : e'.«to» = e.«to»
              · simp only [if_pos hv]
                exact le_refl _
              · simp only [if_neg hv]
                exact this
            · rw [List.mem_singleton] at h
              subst h
              simp only [eq_self_iff_true, if_true, ite_true]
              exact le_refl _
        · rw [if_neg hzz]
          refine ⟨hI.fvis, ⟨N, hqeq, hNnodup, hNprops⟩, ?_, ?_, ?_, ?_, ?_⟩
          · intro v
            have hd := hI.fdeg v
            rw [List.filter_append, List.length_append, List.filter_cons]
            by_cases hv : e.«to» = v
            · rw [if_pos (by simp [hv])]
              subst hv
              simp only [eq_self_iff_true, if_true, ite_true,
                List.filter_nil, List.length_cons, List.length_nil]
              omega
            · rw [if_neg (by simp [hv])]
              simp only [List.filter_nil, List.length_nil]
              have : (if v = e.«to» then st'.indegree e.«to» - 1
                  else st'.indegree v) = st'.indegree v := by
                rw [if_neg (fun h => hv h.symm)]
              simp only [this]
              omega
          · intro v hvorder
            by_cases hv : v = e.«to»
            · subst hv
              simp only [eq_self_iff_true, if_true, ite_true]
              constructor
              · intro h
                exact absurd h hzz
              · intro hmem
                exact absurd hmem
                  (by push_neg; exact ⟨hwV, hwu, hwQ⟩)
            · simp only [if_neg hv]
              exact hI.fzero v hvorder
          · intro v
            by_cases hv : v = e.«to»
            · subst hv
              simp only [eq_self_iff_true, if_true, ite_true]
              have h1 := hI.fmono e.«to»
              omega
            · simp only [if_neg hv]
              exact hI.fmono v
          · intro v hv
            have hvne : v ≠ e.«to» := by
              rintro rfl
              rcases hv with h | h
              · exact hwV h
              · exact hwu h
            simp only [if_neg hvne]
            exact hI.fstab v hv
          · intro e' he'
            rcases List.mem_append.mp he' with h | h
            · have := hI.fdone e' h
              by_cases hv : e'.«to» = e.«to»
              · simp only [if_pos hv]
                exact le_refl _
              · simp only [if_neg hv]
                exact this
            · rw [List.mem_singleton] at h
              subst h
              simp only [eq_self_iff_true, if_true, ite_true]
              exact le_refl _
      case neg =>
        rw [if_neg hlv]
        rw [if_pos hwpos]
        push_neg at hlv
        by_cases hzz : st'.indegree e.«to» - 1 = 0
        · rw [if_pos hzz]
          refine ⟨hI.fvis, ⟨N ++ [e.«to»], ?_, ?_, ?_⟩, ?_, ?_, hI.fmono,
              hI.fstab, ?_⟩
          · rw [hqeq, List.append_assoc]
          · rw [List.nodup_append]
            refine ⟨hNnodup, List.nodup_singleton _, ?_⟩
            intro w hwN hwsing
            rw [List.mem_singleton] at hwsing
            subst hwsing
            exact hwQ (by rw [hqeq]; exact List.mem_append_right rest hwN)
          · intro w hw
            rcases List.mem_append.mp hw with hw | hw
            · exact hNprops w hw
            · rw [List.mem_singleton] at hw
              subst hw
              exact ⟨hworder, hwV, hwu,
                fun hr => hwQ (by rw [hqeq]; exact List.mem_append_left N hr)⟩
          · intro v
            have hd := hI.fdeg v
            rw [List.filter_append, List.length_append, List.filter_cons]
            by_cases hv : e.«to» = v
            · rw [if_pos (by simp [hv])]
              subst hv
              simp only [eq_self_iff_true, if_true, ite_true,
                List.filter_nil, List.length_cons, List.length_nil]
              omega
            · rw [if_neg (by simp [hv])]
              simp only [List.filter_nil, List.length_nil]
              have : (if v = e.«to» then st'.indegree e.«to» - 1
                  else st'.indegree v) = st'.indegree v := by
                rw [if_neg (fun h => hv h.symm)]
              simp only [this]
              omega
          · intro v hvorder
            by_cases hv : v = e.«to»
            · subst hv
              simp only [eq_self_iff_true, if_true, ite_true]
              constructor
              · intro _
                right; right
                exact List.mem_append_right _ (List.mem_singleton_self _)
              · intro _
                exact hzz
            · simp only [if_neg hv]
              rw [hI.fzero v hvorder]
              constructor
              · rintro (h | h | h)
                · exact Or.inl h
                · exact Or.inr (Or.inl h)
                · right; right
                  exact List.mem_append_left _ h
              · rintro (h | h | h)
                · exact Or.inl h
                · exact Or.inr (Or.inl h)
                · rcases List.mem_append.mp h with h | h
                  · exact Or.inr (Or.inr h)
                  · rw [List.mem_singleton] at h
                    exact absurd h hv
          · intro e' he'
            rcases List.mem_append.mp he' with h | h
            · exact hI.fdone e' h
            · rw [List.mem_singleton] at h
              subst h
              exact le_trans hlv (le_refl _)
        · rw [if_neg hzz]
          refine ⟨hI.fvis, ⟨N, hqeq, hNnodup, hNprops⟩, ?_, ?_, hI.fmono,
              hI.fstab, ?_⟩
          · intro v
            have hd := hI.fdeg v
            rw [List.filter_append, List.length_append, List.filter_cons]
            by_cases hv : e.«to» = v
            · rw [if_pos (by simp [hv])]
              subst hv
              simp only [eq_self_iff_true, if_true, ite_true,
                List.filter_nil, List.length_cons, List.length_nil]
              omega
            · rw [if_neg (by simp [hv])]
              simp only [List.filter_nil, List.length_nil]
              have : (if v = e.«to» then st'.indegree e.«to» - 1
                  else st'.indegree v) = st'.indegree v := by
                rw [if_neg (fun h => hv h.symm)]
              simp only [this]
              omega
          · intro v hvorder
            by_cases hv : v = e.«to»
            · subst hv
              simp only [eq_self_iff_true, if_true, ite_true]
              constructor
              · intro h
                exact absurd h hzz
              · intro hmem
                exact absurd hmem
                  (by push_neg; exact ⟨hwV, hwu, hwQ⟩)
            · simp only [if_neg hv]
              exact hI.fzero v hvorder
          · intro e' he'
            rcases List.mem_append.mp he' with h | h
            · exact hI.fdone e' h
            · rw [List.mem_singleton] at h
              subst h
              exact hlv
    have hres := ih (P ++ [e]) _ (by rw [List.append_assoc]; exact houts) hstep
    rw [List.append_assoc] at hres
    exact hres

theorem inCount_le_indegreeInit (edges : List Edge) (W : List Str) (v : Str) :
    inCount edges W v ≤ indegreeInit edges v := by
  apply length_filter_le_of_imp
  intro e _ h
  simp only [decide_eq_true_eq] at h ⊢
  exact h.1

theorem inCount_append_singleton (edges : List Edge) (V : List Str) (u : Str)
    (hu : u ∉ V) (v : Str) :
    inCount edges (V ++ [u]) v
      = inCount edges V v
        + ((edges.filter (fun e => e.«from» = u)).filter
            (fun e => e.«to» = v)).length := by
  induction edges with
  | nil => rfl
  | cons e rest ih =>
    simp only [inCount, List.filter_cons] at ih ⊢
    by_cases hA : e.«to» = v
    · by_cases hB : e.«from» ∈ V
      · by_cases hC : e.«from» = u
        · exact absurd (hC ▸ hB) hu
        · simp only [decide_eq_true_eq]
          rw [if_pos ⟨hA, List.mem_append_left [u] hB⟩, if_pos ⟨hA, hB⟩,
            if_neg hC]
          simp only [List.length_cons]
          omega
      · by_cases hC : e.«from» = u
        · simp only [decide_eq_true_eq]
          rw [if_pos ⟨hA, List.mem_append_right V
              (hC ▸ List.mem_singleton_self e.«from»)⟩,
            if_neg (fun h => hB h.2), if_pos hC, List.filter_cons,
            if_pos (show decide (e.«to» = v) = true from decide_eq_true hA)]
          simp only [List.length_cons]
          omega
        · simp only [decide_eq_true_eq]
          rw [if_neg ?hone, if_neg (fun h => hB h.2), if_neg hC]
          case hone =>
            rintro ⟨_, hmem⟩
            rcases List.mem_append.mp hmem with h | h
            · exact hB h
            · rw [List.mem_singleton] at h
              exact hC h
          exact ih
    · simp only [decide_eq_true_eq]
      rw [if_neg (fun h => hA h.1), if_neg (fun h => hA h.1)]
      by_cases hC : e.«from» = u
      · rw [if_pos hC, List.filter_cons,
          if_neg (show ¬ decide (e.«to» = v) = true by simp [hA])]
        exact ih
      · rw [if_neg hC]
        exact ih

/-- The global invariant of the Kahn loop. -/
structure KahnInv (order : List Str) (edges : List Edge) (st : KahnSt) :
    Prop where
  vnodup : st.visited.Nodup
  qnodup : st.queue.Nodup
  disj : ∀ x ∈ st.queue, x ∉ st.visited
  vsub : ∀ x ∈ st.visited, x ∈ order
  qsub : ∀ x ∈ st.queue, x ∈ order
  kdeg : ∀ v, st.indegree v + inCount edges st.visited v
    = indegreeInit edges v
  kzero : ∀ v ∈ order, (st.indegree v = 0 ↔ v ∈ st.visited ∨ v ∈ st.queue)
  klt : ∀ e ∈ edges, e.«from» ∈ st.visited →
    st.levels e.«from» < st.levels e.«to»

theorem kahnLoop_spec (order : List Str) (edges : List Edge)
    (hends : ∀ e ∈ edges, e.«from» ∈ order ∧ e.«to» ∈ order) :
    ∀ fuel st, KahnInv order edges st → kahnPhi order st < fuel →
      KahnInv order edges (kahnLoop edges fuel st) ∧
      (kahnLoop edges fuel st).queue = [] := by
  intro fuel
  induction fuel with
  | zero =>
    intro st _ h
    exact absurd h (Nat.not_lt_zero _)
  | succ fuel ih =>
    intro st hI hphi
    cases hq : st.queue with
    | nil =>
      have hres : kahnLoop edges (fuel + 1) st = st := by
        simp only [kahnLoop]
        rw [hq]
      rw [hres]
      exact ⟨hI, hq⟩
    | cons u rest =>
      have huq : u ∈ st.queue := by
        rw [hq]
        exact List.mem_cons_self u rest
      have huo : u ∈ order := hI.qsub u huq
      have hunv : u ∉ st.visited := hI.disj u huq
      have hkey : ∀ v, ((edges.filter (fun e => e.«from» = u)).filter
          (fun e => e.«to» = v)).length ≤ st.indegree v := by
        intro v
        have h1 := inCount_append_singleton edges st.visited u hunv v
        have h2 := inCount_le_indegreeInit edges (st.visited ++ [u]) v
        have h3 := hI.kdeg v
        omega
      have hF := kahnFold_spec order edges u st.visited rest
        (st.levels u) st.indegree st.levels hends hkey
        (edges.filter (fun e => e.«from» = u)) []
        { st with queue := rest, visited := st.visited ++ [u] }
        (List.nil_append _).symm
        (by
          refine ⟨rfl, ⟨[], (List.append_nil rest).symm,
            List.nodup_nil, by simp⟩, ?_, ?_, fun v => le_refl _,
            fun v _ => rfl, by simp⟩
          · intro v
            simp [Nat.add_zero]
          · intro v hv
            have := hI.kzero v hv
            rw [hq] at this
            simp only [List.mem_cons] at this
            dsimp only
            rw [this])
      rw [List.nil_append] at hF
      have hF2 : FoldI order edges u st.visited rest (st.levels u)
          st.indegree st.levels (edges.filter (fun e => e.«from» = u))
          (kahnProcess edges u
            { st with queue := rest, visited := st.visited ++ [u] }) := hF
      have hstep : kahnLoop edges (fuel + 1) st
          = kahnLoop edges fuel (kahnProcess edges u
            { st with queue := rest, visited := st.visited ++ [u] }) := by
        simp only [kahnLoop]
        rw [hq]
      rw [hstep]
      obtain ⟨N, hqeq, hNnodup, hNprops⟩ := hF2.fq
      have hrestnodup : rest.Nodup := by
        have := hI.qnodup
        rw [hq] at this
        exact this.of_cons
      have hunotrest : u ∉ rest := by
        have := hI.qnodup
        rw [hq] at this
        exact (List.nodup_cons.mp this).1
      have hI2 : KahnInv order edges (kahnProcess edges u
          { st with queue := rest, visited := st.visited ++ [u] }) := by
        refine ⟨?_, ?_, ?_, ?_, ?_, ?_, ?_, ?_⟩
        · rw [hF2.fvis]
          rw [List.nodup_append]
          exact ⟨hI.vnodup, List.nodup_singleton u,
            fun x hx hx' => hunv ((List.mem_singleton.mp hx') ▸ hx)⟩
        · rw [hqeq, List.nodup_append]
          exact ⟨hrestnodup, hNnodup,
            fun x hx hx' => ((hNprops x hx').2.2.2) hx⟩
        · intro x hx
          rw [hqeq] at hx
          rw [hF2.fvis]
          intro hmem
          rcases List.mem_append.mp hmem with hv | hv
          · rcases List.mem_append.mp hx with hx | hx
            · exact hI.disj x (by rw [hq]; exact List.mem_cons_of_mem u hx) hv
            · exact (hNprops x hx).2.1 hv
          · rw [List.mem_singleton] at hv
            subst hv
            rcases List.mem_append.mp hx with hx | hx
            · exact hunotrest hx
            · exact (hNprops x hx).2.2.1 rfl
        · intro x hx
          rw [hF2.fvis] at hx
          rcases List.mem_append.mp hx with hx | hx
          · exact hI.vsub x hx
          · rw [List.mem_singleton] at hx
            exact hx ▸ huo
        · intro x hx
          rw [hqeq] at hx
          rcases List.mem_append.mp hx with hx | hx
          · exact hI.qsub x (by rw [hq]; exact List.mem_cons_of_mem u hx)
          · exact (hNprops x hx).1
        · intro v
          have h1 := hF2.fdeg v
          have h2 := hI.kdeg v
          have h3 := inCount_append_singleton edges st.visited u hunv v
          rw [hF2.fvis]
          omega
        · intro v hv
          have := hF2.fzero v hv
          rw [hF2.fvis]
          rw [this]
          simp only [List.mem_append, List.mem_singleton]
          tauto
        · intro e he hfrom
          rw [hF2.fvis] at hfrom
          rcases List.mem_append.mp hfrom with hfrom | hfrom
          · have hlt := hI.klt e he hfrom
            have hs := hF2.fstab e.«from» (Or.inl hfrom)
            have hm := hF2.fmono e.«to»
            omega
          · rw [List.mem_singleton] at hfrom
            have hs := hF2.fstab e.«from» (Or.inr hfrom)
            have hd := hF2.fdone e (by
              rw [List.mem_filter]
              exact ⟨he, by simp [hfrom]⟩)
            rw [hs, hfrom]
            omega
      have hphi2 : kahnPhi order (kahnProcess edges u
          { st with queue := rest, visited := st.visited ++ [u] }) < fuel := by
        have hsets : (kahnProcess edges u
              { st with queue := rest, visited := st.visited ++ [u] }).visited.toFinset
            ∪ (kahnProcess edges u
              { st with queue := rest, visited := st.visited ++ [u] }).queue.toFinset
          = (st.visited.toFinset ∪ st.queue.toFinset) ∪ N.toFinset := by
          ext x
          rw [hF2.fvis]
          simp only [Finset.mem_union, List.mem_toFinset, hqeq, hq,
            List.mem_append, List.mem_singleton, List.mem_cons]
          tauto
        have hsub : N.toFinset ⊆ order.toFinset
            \ (st.visited.toFinset ∪ st.queue.toFinset) := by
          intro x hx
          rw [List.mem_toFinset] at hx
          have hp := hNprops x hx
          rw [Finset.mem_sdiff, Finset.mem_union, List.mem_toFinset,
            List.mem_toFinset, List.mem_toFinset]
          refine ⟨hp.1, ?_⟩
          rw [hq]
          simp only [List.mem_cons]
          push_neg
          exact ⟨hp.2.1, hp.2.2.1, hp.2.2.2⟩
        have hNX : N.toFinset.card = N.length :=
          List.toFinset_card_of_nodup hNnodup
        have hXle := Finset.card_le_card hsub
        have hsd : order.toFinset \ ((st.visited.toFinset
              ∪ st.queue.toFinset) ∪ N.toFinset)
            = (order.toFinset \ (st.visited.toFinset ∪ st.queue.toFinset))
              \ N.toFinset := by
          ext x
          simp only [Finset.mem_sdiff, Finset.mem_union]
          tauto
        have hcard : ((order.toFinset \ (st.visited.toFinset
              ∪ st.queue.toFinset)) \ N.toFinset).card
            = (order.toFinset \ (st.visited.toFinset
              ∪ st.queue.toFinset)).card - N.toFinset.card :=
          Finset.card_sdiff hsub
        have e2 : kahnPhi order (kahnProcess edges u
            { st with queue := rest, visited := st.visited ++ [u] })
            = rest.length + N.length
              + ((order.toFinset \ (st.visited.toFinset
                ∪ st.queue.toFinset)).card - N.length) := by
          simp only [kahnPhi]
          rw [hsets, hsd, hcard, hNX, hqeq, List.length_append]
        have e1 : kahnPhi order st = rest.length + 1
            + (order.toFinset \ (st.visited.toFinset
              ∪ st.queue.toFinset)).card := by
          simp only [kahnPhi]
          rw [hq, List.length_cons]
        rw [e2]
        rw [e1] at hphi
        rw [hNX] at hXle
        omega
      exact ih _ hI2 hphi2

theorem exists_unvisited_pred (edges : List Edge) (V : List Str) (v : Str)
    (h : inCount edges V v < indegreeInit edges v) :
    ∃ e ∈ edges, e.«to» = v ∧ e.«from» ∉ V := by
  by_contra hno
  push_neg at hno
  have heq : inCount edges V v = indegreeInit edges v := by
    unfold inCount indegreeInit
    congr 1
    apply List.filter_congr
    intro e he
    rw [decide_eq_decide]
    exact ⟨fun h' => h'.1, fun h' => ⟨h', hno e he h'⟩⟩
  omega

/-- C3 (**leveling invariant**): on an acyclic diagram the Kahn-style
leveling of `compute_auto_layout` gives every edge's target a strictly
greater level than its source. -/
theorem claim_C3_leveling (d : Diagram)
    (hnodup : d.order.Nodup)
    (hlen : d.order.length = d.nodes.length)
    (hends : ∀ e ∈ d.edges, e.«from» ∈ d.order ∧ e.«to» ∈ d.order)
    (hacyc : ∀ v, ¬ Relation.TransGen (edgeRel d.edges) v v) :
    ∀ e ∈ d.edges, (d.computeLevels).1 e.«from» < (d.computeLevels).1 e.«to» := by
  have hseedsnodup : (d.order.filter
      (fun id => indegreeInit d.edges id = 0)).Nodup := hnodup.filter _
  have hseedsub : ∀ x ∈ d.order.filter
      (fun id => indegreeInit d.edges id = 0), x ∈ d.order :=
    fun x hx => (List.mem_filter.mp hx).1
  have hI0 : KahnInv d.order d.edges
      { levels := fun _ => 0
        indegree := indegreeInit d.edges
        queue := d.order.filter (fun id => indegreeInit d.edges id = 0)
        visited := [] } := by
    refine ⟨List.nodup_nil, hseedsnodup, fun x _ => List.not_mem_nil x,
      fun x hx => absurd hx (List.not_mem_nil x), hseedsub, ?_, ?_,
      fun e _ hmem => absurd hmem (List.not_mem_nil _)⟩
    · intro v
      have : inCount d.edges [] v = 0 := by
        simp [inCount]
      simp [this]
    · intro v hv
      simp only [List.mem_filter, List.not_mem_nil, false_or, hv,
        decide_eq_true_eq, true_and]
  have hphi0 : kahnPhi d.order
      { levels := fun _ => 0
        indegree := indegreeInit d.edges
        queue := d.order.filter (fun id => indegreeInit d.edges id = 0)
        visited := [] } < d.order.length + d.edges.length + 1 := by
    simp only [kahnPhi]
    have hsub : (d.order.filter
        (fun id => indegreeInit d.edges id = 0)).toFinset ⊆
        d.order.toFinset := by
      intro x hx
      rw [List.mem_toFinset] at hx ⊢
      exact hseedsub x hx
    have hcardV : (d.order.filter
        (fun id => indegreeInit d.edges id = 0)).toFinset.card
        = (d.order.filter (fun id => indegreeInit d.edges id = 0)).length :=
      List.toFinset_card_of_nodup hseedsnodup
    have hcardO : d.order.toFinset.card = d.order.length :=
      List.toFinset_card_of_nodup hnodup
    have hle := Finset.card_le_card hsub
    have : (([] : List Str).toFinset ∪ (d.order.filter
        (fun id => indegreeInit d.edges id = 0)).toFinset)
        = (d.order.filter (fun id => indegreeInit d.edges id = 0)).toFinset := by
      simp
    rw [this, Finset.card_sdiff hsub, hcardV, hcardO]
    omega
  obtain ⟨hIF, hqF⟩ := kahnLoop_spec d.order d.edges hends
    (d.order.length + d.edges.length + 1) _ hI0 hphi0
  have hall : ∀ n ∈ d.order, n ∈ (kahnLoop d.edges
      (d.order.length + d.edges.length + 1)
      { levels := fun _ => 0
        indegree := indegreeInit d.edges
        queue := d.order.filter (fun id => indegreeInit d.edges id = 0)
        visited := [] }).visited := by
    by_contra hex
    push_neg at hex
    obtain ⟨n, hn, hnv⟩ := hex
    have hSne : d.order.filter (fun v => ¬ v ∈ (kahnLoop d.edges
        (d.order.length + d.edges.length + 1)
        { levels := fun _ => 0
          indegree := indegreeInit d.edges
          queue := d.order.filter (fun id => indegreeInit d.edges id = 0)
          visited := [] }).visited) ≠ [] := by
      intro h0
      have : n ∈ d.order.filter (fun v => ¬ v ∈ (kahnLoop d.edges
          (d.order.length + d.edges.length + 1)
          { levels := fun _ => 0
            indegree := indegreeInit d.edges
            queue := d.order.filter (fun id => indegreeInit d.edges id = 0)
            visited := [] }).visited) := by
        rw [List.mem_filter]
        exact ⟨hn, by simpa using hnv⟩
      rw [h0] at this
      exact List.not_mem_nil n this
    have hpredS : ∀ v ∈ d.order.filter (fun v => ¬ v ∈ (kahnLoop d.edges
        (d.order.length + d.edges.length + 1)
        { levels := fun _ => 0
          indegree := indegreeInit d.edges
          queue := d.order.filter (fun id => indegreeInit d.edges id = 0)
          visited := [] }).visited),
        ∃ u ∈ d.order.filter (fun v => ¬ v ∈ (kahnLoop d.edges
          (d.order.length + d.edges.length + 1)
          { levels := fun _ => 0
            indegree := indegreeInit d.edges
            queue := d.order.filter (fun id => indegreeInit d.edges id = 0)
            visited := [] }).visited), edgeRel d.edges u v := by
      intro v hv
      rw [List.mem_filter] at hv
      obtain ⟨hvo, hvnv⟩ := hv
      simp only [decide_eq_true_eq] at hvnv
      have hdegne : (kahnLoop d.edges (d.order.length + d.edges.length + 1)
          { levels := fun _ => 0
            indegree := indegreeInit d.edges
            queue := d.order.filter (fun id => indegreeInit d.edges id = 0)
            visited := [] }).indegree v ≠ 0 := by
        intro h0
        rcases (hIF.kzero v hvo).mp h0 with h | h
        · exact hvnv h
        · rw [hqF] at h
          exact List.not_mem_nil v h
      have hdeg := hIF.kdeg v
      obtain ⟨e, he, hto, hfromnv⟩ := exists_unvisited_pred d.edges
        (kahnLoop d.edges (d.order.length + d.edges.length + 1)
          { levels := fun _ => 0
            indegree := indegreeInit d.edges
            queue := d.order.filter (fun id => indegreeInit d.edges id = 0)
            visited := [] }).visited v (by omega)
      refine ⟨e.«from», ?_, ⟨e, he, rfl, hto⟩⟩
      rw [List.mem_filter]
      exact ⟨(hends e he).1, by simpa using hfromnv⟩
    obtain ⟨v₀, hcyc⟩ := cycle_of_all_have_pred (edgeRel d.edges) _ hSne hpredS
    exact hacyc v₀ hcyc
  have hvlen : (kahnLoop d.edges (d.order.length + d.edges.length + 1)
      { levels := fun _ => 0
        indegree := indegreeInit d.edges
        queue := d.order.filter (fun id => indegreeInit d.edges id = 0)
        visited := [] }).visited.length = d.nodes.length := by
    have hVfin : (kahnLoop d.edges (d.order.length + d.edges.length + 1)
        { levels := fun _ => 0
          indegree := indegreeInit d.edges
          queue := d.order.filter (fun id => indegreeInit d.edges id = 0)
          visited := [] }).visited.toFinset = d.order.toFinset := by
      ext x
      rw [List.mem_toFinset, List.mem_toFinset]
      exact ⟨fun h => hIF.vsub x h, fun h => hall x h⟩
    have h1 := List.toFinset_card_of_nodup hIF.vnodup
    have h2 := List.toFinset_card_of_nodup hnodup
    rw [hVfin, h2] at h1
    omega
  intro e he
  simp only [Diagram.computeLevels]
  rw [if_neg (by simpa using hvlen)]
  exact hIF.klt e he (hall e.«from» (hends e he).1)

/-- A two-node, one-edge acyclic diagram for the leveling witness. -/
def c3diag : Diagram :=
  ⟨Direction.TopDown,
   [(("A").data, ⟨("A").data, NodeShape.Rectangle⟩),
    (("B").data, ⟨("B").data, NodeShape.Rectangle⟩)],
   [("A").data, ("B").data],
   [⟨("A").data, ("B").data, none, EdgeKind.Solid⟩],
   [], []⟩

theorem claim_C3_leveling_witness :
    (c3diag.computeLevels).1 (("A").data) < (c3diag.computeLevels).1 (("B").data) := by
  have hstep : ∀ a b, edgeRel c3diag.edges a b →
      a = ("A").data ∧ b = ("B").data := by
    rintro a b ⟨e, he, hfrom, hto⟩
    have he' : e = ⟨("A").data, ("B").data, none, EdgeKind.Solid⟩ :=
      List.mem_singleton.mp he
    subst he'
    exact ⟨hfrom.symm, hto.symm⟩
  have hacyc : ∀ v, ¬ Relation.TransGen (edgeRel c3diag.edges) v v := by
    have hreach : ∀ a b, Relation.TransGen (edgeRel c3diag.edges) a b →
        a = ("A").data ∧ b = ("B").data := by
      intro a b h
      induction h with
      | single hr => exact hstep _ _ hr
      | tail h1 h2 ih =>
        have hx := hstep _ _ h2
        have : ("B").data = ("A").data := ih.2.symm.trans hx.1
        exact absurd this (by decide)
    intro v h
    have := hreach v v h
    have hAB : ("A").data = ("B").data := this.1.symm.trans this.2
    exact absurd hAB (by decide)
  exact claim_C3_leveling c3diag (by decide) (by decide) (by decide) hacyc
    ⟨("A").data, ("B").data, none, EdgeKind.Solid⟩ (by decide)

/-! ### Subgraph separation (C7) -/

/-- A rational that denotes an integer (all auto-layout coordinates do). -/
def intF (a : Frac) : Prop := ∃ n : ℤ, a.val = (n : ℚ)

theorem intF_add {a b : Frac} (ha : intF a) (hb : intF b) : intF (a + b) := by
  obtain ⟨n, hn⟩ := ha
  obtain ⟨m, hm⟩ := hb
  exact ⟨n + m, by rw [Frac.val_add, hn, hm]; push_cast; ring⟩

theorem intF_sub {a b : Frac} (ha : intF a) (hb : intF b) : intF (a - b) := by
  obtain ⟨n, hn⟩ := ha
  obtain ⟨m, hm⟩ := hb
  exact ⟨n - m, by rw [Frac.val_sub, hn, hm]; push_cast; ring⟩

theorem intF_max {a b : Frac} (ha : intF a) (hb : intF b) :
    intF (Max.max a b) := by
  obtain ⟨n, hn⟩ := ha
  obtain ⟨m, hm⟩ := hb
  exact ⟨Max.max n m, by rw [Frac.val_max, hn, hm, Int.cast_max]⟩

theorem intF_min {a b : Frac} (ha : intF a) (hb : intF b) :
    intF (Min.min a b) := by
  obtain ⟨n, hn⟩ := ha
  obtain ⟨m, hm⟩ := hb
  exact ⟨Min.min n m, by rw [Frac.val_min, hn, hm, Int.cast_min]⟩

theorem intF_zero : intF 0 := ⟨0, by rw [Frac.val_zero]; norm_num⟩

theorem intF_sep48 : intF SUBGRAPH_SEPARATION :=
  ⟨48, by rw [SUBGRAPH_SEPARATION, Frac.val_ofNat]; norm_num⟩

theorem NW2_val : (NODE_WIDTH / 2).val = 70 := by
  rw [Frac.val_div, NODE_WIDTH, Frac.val_ofNat, Frac.val_ofNat]
  norm_num

theorem NH2_val : (NODE_HEIGHT / 2).val = 30 := by
  rw [Frac.val_div, NODE_HEIGHT, Frac.val_ofNat, Frac.val_ofNat]
  norm_num

theorem intF_NW2 : intF (NODE_WIDTH / 2) := ⟨70, by rw [NW2_val]; norm_num⟩

theorem intF_NH2 : intF (NODE_HEIGHT / 2) := ⟨30, by rw [NH2_val]; norm_num⟩

/-- Two integers closer than `epsF32` are equal. -/
theorem intF_eq_of_abs_lt_eps {a b : Frac} (ha : intF a) (hb : intF b)
    (h : (a - b).abs < epsF32) : a.val = b.val := by
  obtain ⟨n, hn⟩ := ha
  obtain ⟨m, hm⟩ := hb
  have hval := (Frac.val_lt_iff _ _).mp h
  rw [Frac.val_abs, Frac.val_sub, epsF32_val, hn, hm] at hval
  have h5 : |(n : ℚ) - (m : ℚ)| < 1 := lt_trans hval (by norm_num)
  rw [← Int.cast_sub, ← Int.cast_abs] at h5
  have h1 : |n - m| < 1 := by exact_mod_cast h5
  have h2 := abs_lt.mp h1
  have h0 : n = m := by omega
  rw [hn, hm, h0]

/-- An integer whose absolute value does not exceed `epsF32` is zero. -/
theorem intF_zero_of_abs_le_eps {a : Frac} (ha : intF a)
    (h : ¬ epsF32 < a.abs) : a.val = 0 := by
  obtain ⟨n, hn⟩ := ha
  rw [Frac.val_lt_iff, Frac.val_abs, epsF32_val, hn] at h
  push_neg at h
  rw [← Int.cast_abs] at h
  have h1 : |n| < 1 := by
    by_contra hc
    push_neg at hc
    have : (1 : ℚ) ≤ ((|n| : ℤ) : ℚ) := by exact_mod_cast hc
    have : (1 : ℚ) ≤ 1 / 8388608 := le_trans this h
    norm_num at this
  have h2 := abs_lt.mp h1
  have h0 : n = 0 := by omega
  rw [hn, h0]
  norm_num

/-- `rects_intersect_with_margin`, unfolded to its proposition. -/
theorem rim_eq_true_iff (a b : Rect) (m : Frac) :
    rects_intersect_with_margin a b m = true ↔
      (a.min_x - m < b.max_x + m ∧ a.max_x + m > b.min_x - m ∧
       a.min_y - m < b.max_y + m ∧ a.max_y + m > b.min_y - m) := by
  unfold rects_intersect_with_margin
  rw [decide_eq_true_eq]

theorem rim_eq_false_iff (a b : Rect) (m : Frac) :
    rects_intersect_with_margin a b m = false ↔
      ¬ (a.min_x - m < b.max_x + m ∧ a.max_x + m > b.min_x - m ∧
         a.min_y - m < b.max_y + m ∧ a.max_y + m > b.min_y - m) := by
  unfold rects_intersect_with_margin
  rw [Bool.eq_false_iff]
  rw [ne_eq, decide_eq_true_eq]

/-- Intersection-with-margin is symmetric. -/
theorem rim_symm (a b : Rect) (m : Frac) :
    rects_intersect_with_margin a b m = rects_intersect_with_margin b a m := by
  unfold rects_intersect_with_margin
  rw [decide_eq_decide]
  constructor
  · rintro ⟨h1, h2, h3, h4⟩
    exact ⟨h2, h1, h4, h3⟩
  · rintro ⟨h1, h2, h3, h4⟩
    exact ⟨h2, h1, h4, h3⟩

/-- Intersection-with-margin only depends on the coordinate values. -/
theorem rim_val_congr (a a' b b' : Rect) (m : Frac)
    (h1 : a.min_x.val = a'.min_x.val) (h2 : a.max_x.val = a'.max_x.val)
    (h3 : a.min_y.val = a'.min_y.val) (h4 : a.max_y.val = a'.max_y.val)
    (g1 : b.min_x.val = b'.min_x.val) (g2 : b.max_x.val = b'.max_x.val)
    (g3 : b.min_y.val = b'.min_y.val) (g4 : b.max_y.val = b'.max_y.val) :
    rects_intersect_with_margin a b m = rects_intersect_with_margin a' b' m := by
  unfold rects_intersect_with_margin
  rw [decide_eq_decide]
  simp only [GT.gt, Frac.val_lt_iff, Frac.val_sub, Frac.val_add,
    h1, h2, h3, h4, g1, g2, g3, g4]

/-- All four corners denote integers. -/
def intRect (r : Rect) : Prop :=
  intF r.min_x ∧ intF r.max_x ∧ intF r.min_y ∧ intF r.max_y

/-- Value-level equality of rectangles. -/
def rectValEq (a b : Rect) : Prop :=
  a.min_x.val = b.min_x.val ∧ a.max_x.val = b.max_x.val ∧
  a.min_y.val = b.min_y.val ∧ a.max_y.val = b.max_y.val

/-- The candidate box of the separation loop: `bounds` shifted right. -/
def xShift (bounds : Rect) (s : Frac) : Rect :=
  ⟨bounds.min_x + s, bounds.max_x + s, bounds.min_y, bounds.max_y⟩

/-- The per-rect weight of the separation loop potential. -/
def sepW (bounds : Rect) (sep shift : Frac) (p : Rect) : ℕ :=
  if shift < p.max_x + sep - bounds.min_x then 2
  else if shift < p.max_x + 2 * sep - bounds.min_x then 1 else 0

/-- The separation loop potential. -/
def sepWsum (bounds : Rect) (placed : List Rect) (sep shift : Frac) : ℕ :=
  (placed.map (sepW bounds sep shift)).sum

theorem sepW_le_two (bounds : Rect) (sep shift : Frac) (p : Rect) :
    sepW bounds sep shift p ≤ 2 := by
  unfold sepW
  split
  · omega
  · split <;> omega

theorem sepW_mono (bounds : Rect) (sep : Frac) (s1 s2 : Frac) (p : Rect)
    (h : s1.val ≤ s2.val) : sepW bounds sep s2 p ≤ sepW bounds sep s1 p := by
  unfold sepW
  have k1 : s2 < p.max_x + sep - bounds.min_x →
      s1 < p.max_x + sep - bounds.min_x := fun hlt =>
    (Frac.val_lt_iff _ _).mpr (lt_of_le_of_lt h ((Frac.val_lt_iff _ _).mp hlt))
  have k2 : s2 < p.max_x + 2 * sep - bounds.min_x →
      s1 < p.max_x + 2 * sep - bounds.min_x := fun hlt =>
    (Frac.val_lt_iff _ _).mpr (lt_of_le_of_lt h ((Frac.val_lt_iff _ _).mp hlt))
  by_cases h2 : s2 < p.max_x + sep - bounds.min_x
  · rw [if_pos h2, if_pos (k1 h2)]
  · rw [if_neg h2]
    by_cases h3 : s2 < p.max_x + 2 * sep - bounds.min_x
    · rw [if_pos h3]
      by_cases h4 : s1 < p.max_x + sep - bounds.min_x
      · rw [if_pos h4]
        omega
      · rw [if_neg h4, if_pos (k2 h3)]
    · rw [if_neg h3]
      exact Nat.zero_le _

/-- A rect found intersecting the candidate box has positive weight. -/
theorem sepW_pos_of_intersect (bounds : Rect) (sep s : Frac) (p : Rect)
    (h : rects_intersect_with_margin (xShift bounds s) p sep = true) :
    1 ≤ sepW bounds sep s p := by
  obtain ⟨h1, -, -, -⟩ := (rim_eq_true_iff _ _ _).mp h
  have hx : (xShift bounds s).min_x = bounds.min_x + s := rfl
  rw [hx, Frac.val_lt_iff, Frac.val_sub, Frac.val_add] at h1
  have hlt : s < p.max_x + 2 * sep - bounds.min_x := by
    rw [Frac.val_lt_iff, Frac.val_sub, Frac.val_add, Frac.val_mul,
      Frac.val_ofNat]
    have := (Frac.val_add p.max_x sep)
    linarith
  unfold sepW
  by_cases h2 : s < p.max_x + sep - bounds.min_x
  · rw [if_pos h2]
    omega
  · rw [if_neg h2, if_pos hlt]

/-- Weight zero means the candidate box clears the rect. -/
theorem rim_false_of_sepW_zero (bounds : Rect) (sep s : Frac) (p : Rect)
    (h : sepW bounds sep s p = 0) :
    rects_intersect_with_margin (xShift bounds s) p sep = false := by
  unfold sepW at h
  by_cases h1 : s < p.max_x + sep - bounds.min_x
  · rw [if_pos h1] at h
    omega
  · rw [if_neg h1] at h
    by_cases h2 : s < p.max_x + 2 * sep - bounds.min_x
    · rw [if_pos h2] at h
      omega
    · rw [rim_eq_false_iff]
      rintro ⟨hc, -, -, -⟩
      have hx : (xShift bounds s).min_x = bounds.min_x + s := rfl
      rw [hx, Frac.val_lt_iff, Frac.val_sub, Frac.val_add, Frac.val_add] at hc
      have h2' : ¬ s.val < (p.max_x + 2 * sep - bounds.min_x).val :=
        fun hv => h2 ((Frac.val_lt_iff _ _).mpr hv)
      have hT2 : (p.max_x + 2 * sep - bounds.min_x).val =
          p.max_x.val + 2 * sep.val - bounds.min_x.val := by
        rw [Frac.val_sub, Frac.val_add, Frac.val_mul, Frac.val_ofNat]
      rw [hT2] at h2'
      push_neg at h2'
      clear h h1 h2
      linarith

theorem sepWsum_le (bounds : Rect) (placed : List Rect) (sep s : Frac) :
    sepWsum bounds placed sep s ≤ 2 * placed.length := by
  induction placed with
  | nil => simp [sepWsum]
  | cons p rest ih =>
    have h := sepW_le_two bounds sep s p
    simp only [sepWsum, List.map_cons, List.sum_cons, List.length_cons] at ih ⊢
    omega

theorem sepW_eq_zero (bounds : Rect) (sep s0 : Frac) (p : Rect)
    (hsep : 0 ≤ sep.val)
    (h : p.max_x.val + 2 * sep.val - bounds.min_x.val ≤ s0.val) :
    sepW bounds sep s0 p = 0 := by
  unfold sepW
  have hT1v : (p.max_x + sep - bounds.min_x).val =
      p.max_x.val + sep.val - bounds.min_x.val := by
    rw [Frac.val_sub, Frac.val_add]
  have hT2v : (p.max_x + 2 * sep - bounds.min_x).val =
      p.max_x.val + 2 * sep.val - bounds.min_x.val := by
    rw [Frac.val_sub, Frac.val_add, Frac.val_mul, Frac.val_ofNat]
  have h2 : ¬ s0 < p.max_x + 2 * sep - bounds.min_x := by
    intro hlt
    rw [Frac.val_lt_iff, hT2v] at hlt
    linarith
  have h1 : ¬ s0 < p.max_x + sep - bounds.min_x := by
    intro hlt
    rw [Frac.val_lt_iff, hT1v] at hlt
    clear h2
    linarith
  rw [if_neg h1, if_neg h2]

theorem sepW_le_one_of_ge (bounds : Rect) (sep s0 : Frac) (p : Rect)
    (h : (p.max_x + sep - bounds.min_x).val ≤ s0.val) :
    sepW bounds sep s0 p ≤ 1 := by
  unfold sepW
  have h1 : ¬ s0 < p.max_x + sep - bounds.min_x := fun hlt =>
    absurd ((Frac.val_lt_iff _ _).mp hlt) (not_lt.mpr h)
  rw [if_neg h1]
  split <;> omega

theorem sepW_eq_two_of_lt (bounds : Rect) (sep s0 : Frac) (p : Rect)
    (h : s0.val < (p.max_x + sep - bounds.min_x).val) :
    sepW bounds sep s0 p = 2 := by
  unfold sepW
  rw [if_pos ((Frac.val_lt_iff _ _).mpr h)]

/-- One unfolding step of `sepLoop`. -/
theorem sepLoop_succ (bounds : Rect) (placed : List Rect) (sep : Frac)
    (fuel : ℕ) (s : Frac) :
    sepLoop bounds placed sep (fuel + 1) s =
      match placed.find?
          (fun p => rects_intersect_with_margin (xShift bounds s) p sep) with
      | some p =>
        if (Max.max (p.max_x + sep - bounds.min_x) s - s).abs < epsF32 then
          sepLoop bounds placed sep fuel
            (Max.max (p.max_x + sep - bounds.min_x) s + sep)
        else sepLoop bounds placed sep fuel
          (Max.max (p.max_x + sep - bounds.min_x) s)
      | none => some s := rfl

/-- The splitting identity for the potential. -/
theorem sepWsum_split (bounds : Rect) (sep : Frac) (l1 l2 : List Rect)
    (p : Rect) (t : Frac) :
    sepWsum bounds (l1 ++ p :: l2) sep t =
      sepWsum bounds l1 sep t + sepW bounds sep t p + sepWsum bounds l2 sep t := by
  unfold sepWsum
  rw [List.map_append, List.sum_append, List.map_cons, List.sum_cons]
  ring

theorem sepWsum_mono (bounds : Rect) (sep : Frac) (placed : List Rect)
    (s1 s2 : Frac) (h : s1.val ≤ s2.val) :
    sepWsum bounds placed sep s2 ≤ sepWsum bounds placed sep s1 := by
  unfold sepWsum
  exact List.sum_le_sum (fun q _ => sepW_mono bounds sep s1 s2 q h)

/-- Fuel sufficiency and correctness of the rightward-shift loop: with
fuel exceeding the potential, the loop terminates at an integral shift
whose candidate box clears every placed rect. -/
theorem sepLoop_spec (bounds : Rect) (placed : List Rect) (sep : Frac)
    (hsep : 0 < sep.val) (hbI : intF bounds.min_x) (hsepI : intF sep)
    (hpI : ∀ p ∈ placed, intF p.max_x) :
    ∀ fuel s, intF s → sepWsum bounds placed sep s < fuel →
    ∃ r, sepLoop bounds placed sep fuel s = some r ∧ intF r ∧
      ∀ p ∈ placed,
        rects_intersect_with_margin (xShift bounds r) p sep = false := by
  intro fuel
  induction fuel with
  | zero =>
    intro s hsI hlt
    omega
  | succ fuel ih =>
    intro s hsI hlt
    cases hfind : placed.find?
        (fun p => rects_intersect_with_margin (xShift bounds s) p sep) with
    | none =>
      refine ⟨s, ?_, hsI, ?_⟩
      · rw [sepLoop_succ, hfind]
      · intro q hq
        have hnot := (List.find?_eq_none.mp hfind) q hq
        exact Bool.eq_false_iff.mpr hnot
    | some p =>
      have hp_mem : p ∈ placed := List.mem_of_find?_eq_some hfind
      have hp_true' := List.find?_some hfind
      have hp_true : rects_intersect_with_margin (xShift bounds s) p sep
          = true := hp_true'
      have hT1I : intF (p.max_x + sep - bounds.min_x) :=
        intF_sub (intF_add (hpI p hp_mem) hsepI) hbI
      have hAI : intF (Max.max (p.max_x + sep - bounds.min_x) s) :=
        intF_max hT1I hsI
      have hT1v : (p.max_x + sep - bounds.min_x).val =
          p.max_x.val + sep.val - bounds.min_x.val := by
        rw [Frac.val_sub, Frac.val_add]
      have hAv : (Max.max (p.max_x + sep - bounds.min_x) s).val =
          Max.max (p.max_x + sep - bounds.min_x).val s.val := Frac.val_max _ _
      obtain ⟨l1, l2, hsplit⟩ := List.append_of_mem hp_mem
      have hwp : 1 ≤ sepW bounds sep s p :=
        sepW_pos_of_intersect bounds sep s p hp_true
      by_cases heps :
          (Max.max (p.max_x + sep - bounds.min_x) s - s).abs < epsF32
      · have hAs : (Max.max (p.max_x + sep - bounds.min_x) s).val = s.val :=
          intF_eq_of_abs_lt_eps (intF_max hT1I hsI) hsI
            (by
              have hd : (Max.max (p.max_x + sep - bounds.min_x) s - s).abs
                  < epsF32 := heps
              exact hd)
        have hT1le : (p.max_x + sep - bounds.min_x).val ≤ s.val := by
          rw [hAv] at hAs
          exact max_eq_right_iff.mp hAs
        have hs'I : intF (Max.max (p.max_x + sep - bounds.min_x) s + sep) :=
          intF_add hAI hsepI
        have hs'v : (Max.max (p.max_x + sep - bounds.min_x) s + sep).val =
            s.val + sep.val := by
          rw [Frac.val_add, hAs]
        have hdec : sepWsum bounds placed sep
            (Max.max (p.max_x + sep - bounds.min_x) s + sep)
            < sepWsum bounds placed sep s := by
          have hwz : sepW bounds sep
              (Max.max (p.max_x + sep - bounds.min_x) s + sep) p = 0 := by
            apply sepW_eq_zero bounds sep _ p (le_of_lt hsep)
            rw [hs'v]
            rw [hT1v] at hT1le
            linarith
          have hmono1 := sepWsum_mono bounds sep l1 s
            (Max.max (p.max_x + sep - bounds.min_x) s + sep)
            (by rw [hs'v]; linarith)
          have hmono2 := sepWsum_mono bounds sep l2 s
            (Max.max (p.max_x + sep - bounds.min_x) s + sep)
            (by rw [hs'v]; linarith)
          rw [hsplit, sepWsum_split, sepWsum_split, hwz]
          omega
        obtain ⟨r, hr, hrI, hrOK⟩ := ih
          (Max.max (p.max_x + sep - bounds.min_x) s + sep) hs'I (by omega)
        refine ⟨r, ?_, hrI, hrOK⟩
        rw [sepLoop_succ, hfind]
        dsimp only
        rw [if_pos heps]
        exact hr
      · have hge : s.val ≤ (Max.max (p.max_x + sep - bounds.min_x) s).val := by
          rw [hAv]
          exact le_max_right _ _
        have hne : (Max.max (p.max_x + sep - bounds.min_x) s).val ≠ s.val := by
          intro heq
          apply heps
          rw [Frac.val_lt_iff, Frac.val_abs, Frac.val_sub, heq, sub_self,
            abs_zero, epsF32_val]
          norm_num
        have hlt' : s.val < (Max.max (p.max_x + sep - bounds.min_x) s).val :=
          lt_of_le_of_ne hge (fun h => hne h.symm)
        have hT1gt : s.val < (p.max_x + sep - bounds.min_x).val := by
          by_contra hc
          push_neg at hc
          rw [hAv, max_eq_right hc] at hlt'
          exact lt_irrefl _ hlt'
        have hAT1 : (Max.max (p.max_x + sep - bounds.min_x) s).val =
            (p.max_x + sep - bounds.min_x).val := by
          rw [hAv]
          exact max_eq_left (le_of_lt hT1gt)
        have hdec : sepWsum bounds placed sep
            (Max.max (p.max_x + sep - bounds.min_x) s)
            < sepWsum bounds placed sep s := by
          have hwz : sepW bounds sep
              (Max.max (p.max_x + sep - bounds.min_x) s) p ≤ 1 :=
            sepW_le_one_of_ge bounds sep _ p (le_of_eq hAT1.symm)
          have hw2 : sepW bounds sep s p = 2 :=
            sepW_eq_two_of_lt bounds sep s p hT1gt
          have hmono1 := sepWsum_mono bounds sep l1 s
            (Max.max (p.max_x + sep - bounds.min_x) s) hge
          have hmono2 := sepWsum_mono bounds sep l2 s
            (Max.max (p.max_x + sep - bounds.min_x) s) hge
          rw [hsplit, sepWsum_split, sepWsum_split, hw2]
          omega
        obtain ⟨r, hr, hrI, hrOK⟩ := ih
          (Max.max (p.max_x + sep - bounds.min_x) s) hAI (by omega)
        refine ⟨r, ?_, hrI, hrOK⟩
        rw [sepLoop_succ, hfind]
        dsimp only
        rw [if_neg heps]
        exact hr

/-- The loop as called by `separate_top_level_subgraphs` always succeeds
on integral data. -/
theorem sepLoop_top_spec (bounds : Rect) (placed : List Rect) (sep : Frac)
    (hsep : 0 < sep.val) (hbI : intF bounds.min_x) (hsepI : intF sep)
    (hpI : ∀ p ∈ placed, intF p.max_x) :
    ∃ r, sepLoop bounds placed sep (2 * placed.length + 2) 0 = some r ∧
      intF r ∧ ∀ p ∈ placed,
        rects_intersect_with_margin (xShift bounds r) p sep = false := by
  apply sepLoop_spec bounds placed sep hsep hbI hsepI hpI
  · exact intF_zero
  · have := sepWsum_le bounds placed sep 0
    omega

/-- `alGet` after `offset_nodes`: keys are untouched, member values shift. -/
theorem alGet_offset_nodes (nodes : List Str) (dx dy : Frac) (id : Str) :
    ∀ positions : List (Str × Point),
    alGet (offset_nodes positions nodes dx dy) id =
      (alGet positions id).map
        (fun p => if id ∈ nodes then (⟨p.x + dx, p.y + dy⟩ : Point) else p) := by
  intro positions
  induction positions with
  | nil => rfl
  | cons kv rest ih =>
    obtain ⟨k, v⟩ := kv
    by_cases hmem : k ∈ nodes
    · simp only [offset_nodes, List.map_cons, if_pos hmem] at ih ⊢
      by_cases hk : k = id
      · subst hk
        simp only [alGet, eq_self_iff_true, if_true, ite_true,
          Option.map_some', if_pos hmem]
      · simp only [alGet, if_neg hk]
        exact ih
    · simp only [offset_nodes, List.map_cons, if_neg hmem] at ih ⊢
      by_cases hk : k = id
      · subst hk
        simp only [alGet, eq_self_iff_true, if_true, ite_true,
          Option.map_some', if_neg hmem]
      · simp only [alGet, if_neg hk]
        exact ih

/-- `offset_nodes` is invisible to nodes outside the shifted set. -/
theorem alGet_offset_frame (positions : List (Str × Point)) (nodes : List Str)
    (dx dy : Frac) (id : Str) (hid : id ∉ nodes) :
    alGet (offset_nodes positions nodes dx dy) id = alGet positions id := by
  rw [alGet_offset_nodes]
  cases alGet positions id with
  | none => rfl
  | some v => simp only [Option.map_some', if_neg hid]

/-- `offset_nodes` preserves coordinate integrality. -/
theorem offset_nodes_intF (positions : List (Str × Point)) (nodes : List Str)
    (dx dy : Frac) (hdx : intF dx) (hdy : intF dy)
    (hpos : ∀ kv ∈ positions, intF kv.2.x ∧ intF kv.2.y) :
    ∀ kv ∈ offset_nodes positions nodes dx dy, intF kv.2.x ∧ intF kv.2.y := by
  intro kv hkv
  obtain ⟨kv0, hkv0, hmap⟩ := List.mem_map.mp hkv
  obtain ⟨hx, hy⟩ := hpos kv0 hkv0
  by_cases hmem : kv0.1 ∈ nodes
  · rw [if_pos hmem] at hmap
    rw [← hmap]
    exact ⟨intF_add hx hdx, intF_add hy hdy⟩
  · rw [if_neg hmem] at hmap
    rw [← hmap]
    exact ⟨hx, hy⟩

/-- A successful association-list lookup is a member. -/
theorem alGet_mem_pair (id : Str) (v : Point) :
    ∀ positions : List (Str × Point),
    alGet positions id = some v → (id, v) ∈ positions := by
  intro positions
  induction positions with
  | nil => intro h; exact absurd h (by simp [alGet])
  | cons kv rest ih =>
    obtain ⟨k, w⟩ := kv
    intro h
    by_cases hk : k = id
    · subst hk
      simp only [alGet, eq_self_iff_true, if_true, ite_true,
        Option.some_inj] at h
      subst h
      exact List.mem_cons_self _ _
    · simp only [alGet, if_neg hk] at h
      exact List.mem_cons_of_mem _ (ih h)

/-- The group-bounds fold only inspects member lookups. -/
theorem cgb_fold_congr (pos1 pos2 : List (Str × Point)) :
    ∀ nodes : List Str, (∀ id ∈ nodes, alGet pos1 id = alGet pos2 id) →
    ∀ b : Option Rect,
      nodes.foldl (fun b id => match alGet pos1 id with
        | some p => expand_bounds b (node_rect p) | none => b) b =
      nodes.foldl (fun b id => match alGet pos2 id with
        | some p => expand_bounds b (node_rect p) | none => b) b := by
  intro nodes
  induction nodes with
  | nil => intro h b; rfl
  | cons n rest ih =>
    intro h b
    simp only [List.foldl_cons]
    rw [h n (List.mem_cons_self n rest)]
    exact ih (fun id hid => h id (List.mem_cons_of_mem n hid)) _

theorem cgb_congr (nodes : List Str) (pos1 pos2 : List (Str × Point))
    (h : ∀ id ∈ nodes, alGet pos1 id = alGet pos2 id) :
    compute_group_bounds nodes pos1 = compute_group_bounds nodes pos2 :=
  cgb_fold_congr pos1 pos2 nodes h none

/-- The accumulator relation for the translated group-bounds fold. -/
def optShift (dx : Frac) : Option Rect → Option Rect → Prop
  | none, none => True
  | some r1, some r2 => r2.min_x.val = r1.min_x.val + dx.val ∧
      r2.max_x.val = r1.max_x.val + dx.val ∧
      r2.min_y.val = r1.min_y.val ∧ r2.max_y.val = r1.max_y.val
  | _, _ => False

theorem cgb_fold_shift (dx dy : Frac) (hdy : dy.val = 0)
    (pos1 pos2 : List (Str × Point)) :
    ∀ nodes : List Str,
    (∀ id ∈ nodes, alGet pos2 id =
       (alGet pos1 id).map (fun p => (⟨p.x + dx, p.y + dy⟩ : Point))) →
    ∀ b1 b2 : Option Rect, optShift dx b1 b2 →
    optShift dx
      (nodes.foldl (fun b id => match alGet pos1 id with
        | some p => expand_bounds b (node_rect p) | none => b) b1)
      (nodes.foldl (fun b id => match alGet pos2 id with
        | some p => expand_bounds b (node_rect p) | none => b) b2) := by
  intro nodes
  induction nodes with
  | nil => intro h b1 b2 hb; exact hb
  | cons n rest ih =>
    intro h b1 b2 hb
    simp only [List.foldl_cons]
    apply ih (fun id hid => h id (List.mem_cons_of_mem n hid))
    have hn := h n (List.mem_cons_self n rest)
    cases hg : alGet pos1 n with
    | none =>
      rw [hg, Option.map_none'] at hn
      rw [hn]
      exact hb
    | some v =>
      rw [hg, Option.map_some'] at hn
      rw [hn]
      have hvx1 : (v.x + dx - NODE_WIDTH / 2).val =
          (v.x - NODE_WIDTH / 2).val + dx.val := by
        rw [Frac.val_sub, Frac.val_add, Frac.val_sub]
        ring
      have hvx2 : (v.x + dx + NODE_WIDTH / 2).val =
          (v.x + NODE_WIDTH / 2).val + dx.val := by
        rw [Frac.val_add, Frac.val_add, Frac.val_add]
        ring
      have hvy1 : (v.y + dy - NODE_HEIGHT / 2).val =
          (v.y - NODE_HEIGHT / 2).val := by
        rw [Frac.val_sub, Frac.val_add, Frac.val_sub, hdy]
        ring
      have hvy2 : (v.y + dy + NODE_HEIGHT / 2).val =
          (v.y + NODE_HEIGHT / 2).val := by
        rw [Frac.val_add, Frac.val_add, Frac.val_add, hdy]
        ring
      show optShift dx (expand_bounds b1 (node_rect v))
        (expand_bounds b2 (node_rect ⟨v.x + dx, v.y + dy⟩))
      cases b1 with
      | none =>
        cases b2 with
        | none =>
          show optShift dx (some (node_rect v))
            (some (node_rect ⟨v.x + dx, v.y + dy⟩))
          exact ⟨hvx1, hvx2, hvy1, hvy2⟩
        | some e2 => exact hb.elim
      | some e1 =>
        cases b2 with
        | none => exact hb.elim
        | some e2 =>
          obtain ⟨g1, g2, g3, g4⟩ := hb
          show optShift dx
            (some ⟨Min.min e1.min_x (node_rect v).min_x,
              Max.max e1.max_x (node_rect v).max_x,
              Min.min e1.min_y (node_rect v).min_y,
              Max.max e1.max_y (node_rect v).max_y⟩)
            (some ⟨Min.min e2.min_x (node_rect ⟨v.x + dx, v.y + dy⟩).min_x,
              Max.max e2.max_x (node_rect ⟨v.x + dx, v.y + dy⟩).max_x,
              Min.min e2.min_y (node_rect ⟨v.x + dx, v.y + dy⟩).min_y,
              Max.max e2.max_y (node_rect ⟨v.x + dx, v.y + dy⟩).max_y⟩)
          refine ⟨?_, ?_, ?_, ?_⟩
          · show (Min.min e2.min_x (v.x + dx - NODE_WIDTH / 2)).val =
              (Min.min e1.min_x (v.x - NODE_WIDTH / 2)).val + dx.val
            rw [Frac.val_min, Frac.val_min, g1, hvx1, min_add_add_right]
          · show (Max.max e2.max_x (v.x + dx + NODE_WIDTH / 2)).val =
              (Max.max e1.max_x (v.x + NODE_WIDTH / 2)).val + dx.val
            rw [Frac.val_max, Frac.val_max, g2, hvx2, max_add_add_right]
          · show (Min.min e2.min_y (v.y + dy - NODE_HEIGHT / 2)).val =
              (Min.min e1.min_y (v.y - NODE_HEIGHT / 2)).val
            rw [Frac.val_min, Frac.val_min, g3, hvy1]
          · show (Max.max e2.max_y (v.y + dy + NODE_HEIGHT / 2)).val =
              (Max.max e1.max_y (v.y + NODE_HEIGHT / 2)).val
            rw [Frac.val_max, Frac.val_max, g4, hvy2]

/-- Group bounds after shifting the member set translate accordingly. -/
theorem cgb_offset (nodes : List Str) (pos : List (Str × Point)) (dx : Frac) :
    optShift dx (compute_group_bounds nodes pos)
      (compute_group_bounds nodes (offset_nodes pos nodes dx 0)) := by
  apply cgb_fold_shift dx 0 Frac.val_zero pos (offset_nodes pos nodes dx 0)
    nodes ?_ none none trivial
  intro id hid
  rw [alGet_offset_nodes]
  cases alGet pos id with
  | none => rfl
  | some v => simp only [Option.map_some', if_pos hid]

/-- Integrality of computed group bounds. -/
theorem cgb_intRect (pos : List (Str × Point))
    (hpos : ∀ kv ∈ pos, intF kv.2.x ∧ intF kv.2.y) :
    ∀ (nodes : List Str) (b : Option Rect),
    (∀ e, b = some e → intRect e) →
    ∀ e, nodes.foldl (fun b id => match alGet pos id with
      | some p => expand_bounds b (node_rect p) | none => b) b = some e →
    intRect e := by
  intro nodes
  induction nodes with
  | nil =>
    intro b hb e he
    exact hb e he
  | cons n rest ih =>
    intro b hb e he
    simp only [List.foldl_cons] at he
    cases hg : alGet pos n with
    | none =>
      rw [hg] at he
      exact ih b hb e he
    | some v =>
      rw [hg] at he
      have hv := hpos (n, v) (alGet_mem_pair n v pos hg)
      have hnr : intRect (node_rect v) := by
        refine ⟨intF_sub hv.1 intF_NW2, intF_add hv.1 intF_NW2,
          intF_sub hv.2 intF_NH2, intF_add hv.2 intF_NH2⟩
      apply ih _ ?_ e he
      intro e' he'
      cases b with
      | none =>
        show intRect e'
        have : some (node_rect v) = some e' := he'
        have hee : node_rect v = e' := Option.some_inj.mp this
        rw [← hee]
        exact hnr
      | some e0 =>
        have h0 : intRect e0 := hb e0 rfl
        have : some (⟨Min.min e0.min_x (node_rect v).min_x,
          Max.max e0.max_x (node_rect v).max_x,
          Min.min e0.min_y (node_rect v).min_y,
          Max.max e0.max_y (node_rect v).max_y⟩ : Rect) = some e' := he'
        have hee := Option.some_inj.mp this
        rw [← hee]
        exact ⟨intF_min h0.1 hnr.1, intF_max h0.2.1 hnr.2.1,
          intF_min h0.2.2.1 hnr.2.2.1, intF_max h0.2.2.2 hnr.2.2.2⟩

theorem compute_group_bounds_intRect (nodes : List Str)
    (pos : List (Str × Point))
    (hpos : ∀ kv ∈ pos, intF kv.2.x ∧ intF kv.2.y) (b : Rect)
    (hb : compute_group_bounds nodes pos = some b) : intRect b :=
  cgb_intRect pos hpos nodes none (fun e he => absurd he (by simp)) b hb

/-- One fold step of `separate_top_level_subgraphs`. -/
def sepStep (sep : Frac) (acc : List (Str × Point) × List Rect)
    (sg : Subgraph) : List (Str × Point) × List Rect :=
  let (positions, placedBounds) := acc
  let nodes := gather_subgraph_nodes sg
  if nodes.isEmpty then acc
  else
    match compute_group_bounds nodes positions with
    | none => acc
    | some bounds =>
      match sepLoop bounds placedBounds sep (2 * placedBounds.length + 2) 0 with
      | none => acc
      | some requiredShift =>
        if requiredShift.abs > epsF32 then
          let positions := offset_nodes positions nodes requiredShift 0
          let bounds : Rect := ⟨bounds.min_x + requiredShift,
            bounds.max_x + requiredShift, bounds.min_y, bounds.max_y⟩
          (positions, placedBounds ++ [bounds])
        else (positions, placedBounds ++ [bounds])

theorem separate_eq_fold (d : Diagram) (sep : Frac)
    (positions : List (Str × Point)) :
    d.separate_top_level_subgraphs sep positions =
      if d.subgraphs.isEmpty then positions
      else (d.subgraphs.foldl (sepStep sep) (positions, [])).1 := rfl

theorem sepStep_empty (sep : Frac) (pos : List (Str × Point))
    (placed : List Rect) (sg : Subgraph)
    (h : (gather_subgraph_nodes sg).isEmpty = true) :
    sepStep sep (pos, placed) sg = (pos, placed) := by
  unfold sepStep
  dsimp only
  rw [if_pos h]

theorem sepStep_cgb_none (sep : Frac) (pos : List (Str × Point))
    (placed : List Rect) (sg : Subgraph)
    (h1 : ¬ (gather_subgraph_nodes sg).isEmpty = true)
    (h2 : compute_group_bounds (gather_subgraph_nodes sg) pos = none) :
    sepStep sep (pos, placed) sg = (pos, placed) := by
  unfold sepStep
  dsimp only
  rw [if_neg h1, h2]

theorem sepStep_shift (sep : Frac) (pos : List (Str × Point))
    (placed : List Rect) (sg : Subgraph) (bounds : Rect) (r : Frac)
    (h1 : ¬ (gather_subgraph_nodes sg).isEmpty = true)
    (h2 : compute_group_bounds (gather_subgraph_nodes sg) pos = some bounds)
    (h3 : sepLoop bounds placed sep (2 * placed.length + 2) 0 = some r)
    (h4 : epsF32 < r.abs) :
    sepStep sep (pos, placed) sg =
      (offset_nodes pos (gather_subgraph_nodes sg) r 0,
       placed ++ [xShift bounds r]) := by
  unfold sepStep
  dsimp only
  rw [if_neg h1, h2]
  dsimp only
  rw [h3]
  dsimp only
  rw [if_pos h4]
  rfl

theorem sepStep_noshift (sep : Frac) (pos : List (Str × Point))
    (placed : List Rect) (sg : Subgraph) (bounds : Rect) (r : Frac)
    (h1 : ¬ (gather_subgraph_nodes sg).isEmpty = true)
    (h2 : compute_group_bounds (gather_subgraph_nodes sg) pos = some bounds)
    (h3 : sepLoop bounds placed sep (2 * placed.length + 2) 0 = some r)
    (h4 : ¬ epsF32 < r.abs) :
    sepStep sep (pos, placed) sg = (pos, placed ++ [bounds]) := by
  unfold sepStep
  dsimp only
  rw [if_neg h1, h2]
  dsimp only
  rw [h3]
  dsimp only
  rw [if_neg h4]

/-- Mutual (both-ways) non-intersection with margin. -/
def rimOK (sep : Frac) (a b : Rect) : Prop :=
  rects_intersect_with_margin a b sep = false ∧
  rects_intersect_with_margin b a sep = false

/-- Invariant of the separation fold: positions stay integral, untouched
ids keep their positions, recorded boxes stay pairwise clear, each
processed subgraph's final group bounds value-matches a recorded box, and
the final group bounds of distinct processed subgraphs do not intersect
within the margin. -/
theorem sepFold_spec (sep : Frac) (hsep : 0 < sep.val) (hsepI : intF sep) :
    ∀ (L : List Subgraph) (pos : List (Str × Point)) (placed : List Rect),
    (∀ kv ∈ pos, intF kv.2.x ∧ intF kv.2.y) →
    (∀ p ∈ placed, intRect p) →
    placed.Pairwise (rimOK sep) →
    L.Pairwise (fun s1 s2 => ∀ id ∈ gather_subgraph_nodes s1,
      id ∉ gather_subgraph_nodes s2) →
    (∀ id, (∀ sg ∈ L, id ∉ gather_subgraph_nodes sg) →
       alGet (L.foldl (sepStep sep) (pos, placed)).1 id = alGet pos id) ∧
    (∀ kv ∈ (L.foldl (sepStep sep) (pos, placed)).1,
       intF kv.2.x ∧ intF kv.2.y) ∧
    (∀ p ∈ (L.foldl (sepStep sep) (pos, placed)).2, intRect p) ∧
    (L.foldl (sepStep sep) (pos, placed)).2.Pairwise (rimOK sep) ∧
    (∃ extra : List Rect,
       (L.foldl (sepStep sep) (pos, placed)).2 = placed ++ extra ∧
       ∀ sg ∈ L, ∀ b, compute_group_bounds (gather_subgraph_nodes sg)
           (L.foldl (sepStep sep) (pos, placed)).1 = some b →
         ∃ q ∈ extra, rectValEq b q) ∧
    L.Pairwise (fun s1 s2 => ∀ b1 b2,
      compute_group_bounds (gather_subgraph_nodes s1)
        (L.foldl (sepStep sep) (pos, placed)).1 = some b1 →
      compute_group_bounds (gather_subgraph_nodes s2)
        (L.foldl (sepStep sep) (pos, placed)).1 = some b2 →
      rects_intersect_with_margin b1 b2 sep = false) := by
  intro L
  induction L with
  | nil =>
    intro pos placed hposI hplacedI hpair hdisj
    refine ⟨fun id h => rfl, hposI, hplacedI, hpair,
      ⟨[], (List.append_nil placed).symm,
        fun sg hsg => absurd hsg (List.not_mem_nil sg)⟩,
      List.Pairwise.nil⟩
  | cons sg rest ih =>
    intro pos placed hposI hplacedI hpair hdisj
    have hdisj_head : ∀ sg2 ∈ rest, ∀ id ∈ gather_subgraph_nodes sg,
        id ∉ gather_subgraph_nodes sg2 := (List.pairwise_cons.mp hdisj).1
    have hdisj_rest := (List.pairwise_cons.mp hdisj).2
    simp only [List.foldl_cons]
    have hcont : ∀ (pos1 : List (Str × Point)) (q : Rect),
        (∀ kv ∈ pos1, intF kv.2.x ∧ intF kv.2.y) →
        intRect q →
        (∀ p ∈ placed, rimOK sep p q) →
        (∀ id, id ∉ gather_subgraph_nodes sg →
          alGet pos1 id = alGet pos id) →
        (∀ b, compute_group_bounds (gather_subgraph_nodes sg) pos1 = some b →
          rectValEq b q) →
        (∀ id, (∀ sg' ∈ sg :: rest, id ∉ gather_subgraph_nodes sg') →
          alGet (rest.foldl (sepStep sep) (pos1, placed ++ [q])).1 id =
            alGet pos id) ∧
        (∀ kv ∈ (rest.foldl (sepStep sep) (pos1, placed ++ [q])).1,
          intF kv.2.x ∧ intF kv.2.y) ∧
        (∀ p ∈ (rest.foldl (sepStep sep) (pos1, placed ++ [q])).2,
          intRect p) ∧
        (rest.foldl (sepStep sep) (pos1, placed ++ [q])).2.Pairwise
          (rimOK sep) ∧
        (∃ extra : List Rect,
          (rest.foldl (sepStep sep) (pos1, placed ++ [q])).2 =
            placed ++ extra ∧
          ∀ sg' ∈ sg :: rest, ∀ b,
            compute_group_bounds (gather_subgraph_nodes sg')
              (rest.foldl (sepStep sep) (pos1, placed ++ [q])).1 = some b →
            ∃ q2 ∈ extra, rectValEq b q2) ∧
        List.Pairwise (fun s1 s2 => ∀ b1 b2,
          compute_group_bounds (gather_subgraph_nodes s1)
            (rest.foldl (sepStep sep) (pos1, placed ++ [q])).1 = some b1 →
          compute_group_bounds (gather_subgraph_nodes s2)
            (rest.foldl (sepStep sep) (pos1, placed ++ [q])).1 = some b2 →
          rects_intersect_with_margin b1 b2 sep = false) (sg :: rest) := by
      intro pos1 q hpos1I hqI hq_rim hframeN hhead
      have hplaced1I : ∀ p ∈ placed ++ [q], intRect p := by
        intro p hp
        rcases List.mem_append.mp hp with h | h
        · exact hplacedI p h
        · rw [List.mem_singleton.mp h]
          exact hqI
      have hpair1 : (placed ++ [q]).Pairwise (rimOK sep) := by
        rw [List.pairwise_append]
        refine ⟨hpair, ?_, ?_⟩
        · exact List.Pairwise.cons
            (fun b hb => absurd hb (List.not_mem_nil b)) List.Pairwise.nil
        · intro a ha b hb
          rw [List.mem_singleton.mp hb]
          exact hq_rim a ha
      obtain ⟨F1, F2, F3, F4, ⟨extra2, hext, hbind⟩, F6⟩ :=
        ih pos1 (placed ++ [q]) hpos1I hplaced1I hpair1 hdisj_rest
      have hNcongr : compute_group_bounds (gather_subgraph_nodes sg)
          (rest.foldl (sepStep sep) (pos1, placed ++ [q])).1 =
          compute_group_bounds (gather_subgraph_nodes sg) pos1 :=
        cgb_congr _ _ _
          (fun id hid => F1 id (fun sg2 hsg2 => hdisj_head sg2 hsg2 id hid))
      have hqmem : q ∈ placed ++ [q] :=
        List.mem_append_right placed (List.mem_singleton.mpr rfl)
      refine ⟨?_, F2, F3, F4, ⟨q :: extra2, ?_, ?_⟩, ?_⟩
      · intro id hid
        have h1 := F1 id
          (fun sg' hsg' => hid sg' (List.mem_cons_of_mem sg hsg'))
        rw [h1]
        exact hframeN id (hid sg (List.mem_cons_self sg rest))
      · rw [hext, List.append_assoc]
        rfl
      · intro sg' hsg' b hb
        rcases List.mem_cons.mp hsg' with h | h
        · subst h
          rw [hNcongr] at hb
          exact ⟨q, List.mem_cons_self q extra2, hhead b hb⟩
        · obtain ⟨q2, hq2, hveq⟩ := hbind sg' h b hb
          exact ⟨q2, List.mem_cons_of_mem q hq2, hveq⟩
      · rw [List.pairwise_cons]
        refine ⟨?_, F6⟩
        intro sg2 hsg2 b1 b2 hb1 hb2
        rw [hNcongr] at hb1
        have hv1 : rectValEq b1 q := hhead b1 hb1
        obtain ⟨q2, hq2, hv2⟩ := hbind sg2 hsg2 b2 hb2
        rw [hext] at F4
        have hok : rimOK sep q q2 :=
          ((List.pairwise_append.mp F4).2.2) q hqmem q2 hq2
        have hcongr := rim_val_congr b1 q b2 q2 sep
          hv1.1 hv1.2.1 hv1.2.2.1 hv1.2.2.2
          hv2.1 hv2.2.1 hv2.2.2.1 hv2.2.2.2
        rw [hcongr]
        exact hok.1
    by_cases hE : (gather_subgraph_nodes sg).isEmpty = true
    · rw [sepStep_empty sep pos placed sg hE]
      obtain ⟨F1, F2, F3, F4, ⟨extra, hext, hbind⟩, F6⟩ :=
        ih pos placed hposI hplacedI hpair hdisj_rest
      have hgnil : gather_subgraph_nodes sg = [] := List.isEmpty_iff.mp hE
      refine ⟨?_, F2, F3, F4, ⟨extra, hext, ?_⟩, ?_⟩
      · intro id hid
        exact F1 id (fun sg' hsg' => hid sg' (List.mem_cons_of_mem sg hsg'))
      · intro sg' hsg' b hb
        rcases List.mem_cons.mp hsg' with h | h
        · subst h
          rw [hgnil] at hb
          exact absurd hb (by simp [compute_group_bounds])
        · exact hbind sg' h b hb
      · rw [List.pairwise_cons]
        refine ⟨?_, F6⟩
        intro sg2 hsg2 b1 b2 hb1 hb2
        rw [hgnil] at hb1
        exact absurd hb1 (by simp [compute_group_bounds])
    · cases hcgb : compute_group_bounds (gather_subgraph_nodes sg) pos with
      | none =>
        rw [sepStep_cgb_none sep pos placed sg hE hcgb]
        obtain ⟨F1, F2, F3, F4, ⟨extra, hext, hbind⟩, F6⟩ :=
          ih pos placed hposI hplacedI hpair hdisj_rest
        have hNcongr : compute_group_bounds (gather_subgraph_nodes sg)
            (rest.foldl (sepStep sep) (pos, placed)).1 =
            compute_group_bounds (gather_subgraph_nodes sg) pos :=
          cgb_congr _ _ _
            (fun id hid => F1 id (fun sg2 hsg2 => hdisj_head sg2 hsg2 id hid))
        refine ⟨?_, F2, F3, F4, ⟨extra, hext, ?_⟩, ?_⟩
        · intro id hid
          exact F1 id (fun sg' hsg' => hid sg' (List.mem_cons_of_mem sg hsg'))
        · intro sg' hsg' b hb
          rcases List.mem_cons.mp hsg' with h | h
          · subst h
            rw [hNcongr, hcgb] at hb
            exact Option.noConfusion hb
          · exact hbind sg' h b hb
        · rw [List.pairwise_cons]
          refine ⟨?_, F6⟩
          intro sg2 hsg2 b1 b2 hb1 hb2
          rw [hNcongr, hcgb] at hb1
          exact Option.noConfusion hb1
      | some bounds =>
        have hboundsI : intRect bounds :=
          compute_group_bounds_intRect _ _ hposI bounds hcgb
        obtain ⟨r, hloop, hrI, hrOK⟩ := sepLoop_top_spec bounds placed sep
          hsep hboundsI.1 hsepI (fun p hp => (hplacedI p hp).2.1)
        by_cases hshift : epsF32 < r.abs
        · rw [sepStep_shift sep pos placed sg bounds r hE hcgb hloop hshift]
          apply hcont
          · exact offset_nodes_intF pos _ r 0 hrI intF_zero hposI
          · exact ⟨intF_add hboundsI.1 hrI, intF_add hboundsI.2.1 hrI,
              hboundsI.2.2.1, hboundsI.2.2.2⟩
          · intro p hp
            refine ⟨?_, hrOK p hp⟩
            rw [rim_symm]
            exact hrOK p hp
          · intro id hid
            exact alGet_offset_frame pos _ r 0 id hid
          · intro b hb
            have hrel := cgb_offset (gather_subgraph_nodes sg) pos r
            rw [hcgb, hb] at hrel
            obtain ⟨o1, o2, o3, o4⟩ := hrel
            refine ⟨?_, ?_, ?_, ?_⟩
            · show b.min_x.val = (bounds.min_x + r).val
              rw [Frac.val_add]
              exact o1
            · show b.max_x.val = (bounds.max_x + r).val
              rw [Frac.val_add]
              exact o2
            · exact o3
            · exact o4
        · rw [sepStep_noshift sep pos placed sg bounds r hE hcgb hloop hshift]
          have hr0 : r.val = 0 := intF_zero_of_abs_le_eps hrI hshift
          apply hcont
          · exact hposI
          · exact hboundsI
          · intro p hp
            have hx1 : (xShift bounds r).min_x.val = bounds.min_x.val := by
              show (bounds.min_x + r).val = bounds.min_x.val
              rw [Frac.val_add, hr0]
              ring
            have hx2 : (xShift bounds r).max_x.val = bounds.max_x.val := by
              show (bounds.max_x + r).val = bounds.max_x.val
              rw [Frac.val_add, hr0]
              ring
            have hcongr := rim_val_congr (xShift bounds r) bounds p p sep
              hx1 hx2 rfl rfl rfl rfl rfl rfl
            refine ⟨?_, ?_⟩
            · rw [rim_symm, ← hcongr]
              exact hrOK p hp
            · rw [← hcongr]
              exact hrOK p hp
          · intro id hid
            rfl
          · intro b hb
            rw [hcgb] at hb
            have hbb : bounds = b := Option.some_inj.mp hb
            rw [← hbb]
            exact ⟨rfl, rfl, rfl, rfl⟩

/-- C7: after the top-level subgraph separation pass, for any two distinct
top-level subgraphs (with pairwise-disjoint member-node sets, positions on
the integral auto-layout grid, and a positive integral separation margin),
the bounding boxes of their member node positions, inflated by the
separation margin, do not intersect. -/
theorem claim_C7_subgraph_separation (d : Diagram) (sep : Frac)
    (positions : List (Str × Point))
    (hsep : 0 < sep.val) (hsepI : intF sep)
    (hposI : ∀ kv ∈ positions, intF kv.2.x ∧ intF kv.2.y)
    (hdisj : d.subgraphs.Pairwise (fun s1 s2 =>
      ∀ id ∈ gather_subgraph_nodes s1, id ∉ gather_subgraph_nodes s2)) :
    d.subgraphs.Pairwise (fun s1 s2 => ∀ b1 b2,
      compute_group_bounds (gather_subgraph_nodes s1)
        (d.separate_top_level_subgraphs sep positions) = some b1 →
      compute_group_bounds (gather_subgraph_nodes s2)
        (d.separate_top_level_subgraphs sep positions) = some b2 →
      rects_intersect_with_margin b1 b2 sep = false) := by
  rw [separate_eq_fold]
  by_cases hE : d.subgraphs.isEmpty = true
  · rw [List.isEmpty_iff.mp hE]
    exact List.Pairwise.nil
  · rw [if_neg hE]
    exact (sepFold_spec sep hsep hsepI d.subgraphs positions []
      hposI (fun p hp => absurd hp (List.not_mem_nil p))
      List.Pairwise.nil hdisj).2.2.2.2.2

/-- Two one-node top-level subgraphs for the C7 witness. -/
def c7sg1 : Subgraph := .mk ("g1").data ("G1").data [("A").data] [] 0

def c7sg2 : Subgraph := .mk ("g2").data ("G2").data [("B").data] [] 1

def c7diag : Diagram := ⟨.TopDown, [], [], [], [c7sg1, c7sg2], []⟩

def c7pos : List (Str × Point) := [(("A").data, ⟨0, 0⟩), (("B").data, ⟨0, 0⟩)]

theorem claim_C7_subgraph_separation_witness :
    List.Pairwise (fun s1 s2 => ∀ b1 b2,
      compute_group_bounds (gather_subgraph_nodes s1)
        (c7diag.separate_top_level_subgraphs SUBGRAPH_SEPARATION c7pos) =
          some b1 →
      compute_group_bounds (gather_subgraph_nodes s2)
        (c7diag.separate_top_level_subgraphs SUBGRAPH_SEPARATION c7pos) =
          some b2 →
      rects_intersect_with_margin b1 b2 SUBGRAPH_SEPARATION = false)
      c7diag.subgraphs :=
  claim_C7_subgraph_separation c7diag SUBGRAPH_SEPARATION c7pos
    (by rw [SUBGRAPH_SEPARATION, Frac.val_ofNat]; norm_num)
    intF_sep48
    (by
      intro kv hkv
      rcases List.mem_cons.mp hkv with h | h
      · rw [h]
        exact ⟨intF_zero, intF_zero⟩
      · rcases List.mem_cons.mp h with h2 | h2
        · rw [h2]
          exact ⟨intF_zero, intF_zero⟩
        · exact absurd h2 (List.not_mem_nil kv))
    (by
      refine List.Pairwise.cons ?_ (List.Pairwise.cons
        (fun x hx => absurd hx (List.not_mem_nil x)) List.Pairwise.nil)
      intro sg2 hsg2 id hid
      rcases List.mem_cons.mp hsg2 with h | h
      · subst h
        have hidA : id = ("A").data := List.mem_singleton.mp hid
        subst hidA
        decide
      · exact absurd h (List.not_mem_nil sg2))

/-! ### Round-trip for plain identifiers (C2) -/

/-- ASCII letters and digits. -/
def isAlnum (c : Char) : Bool :=
  ('a' ≤ c ∧ c ≤ 'z') ∨ ('A' ≤ c ∧ c ≤ 'Z') ∨ ('0' ≤ c ∧ c ≤ '9')

/-- A nonempty all-alphanumeric string. -/
def plainStr (s : Str) : Prop := s ≠ [] ∧ ∀ c ∈ s, isAlnum c = true

/-- An identifier safe for the round trip: plain, not `end` (up to ASCII
case), and not starting with `subgraph`. -/
def idOK (id : Str) : Prop :=
  plainStr id ∧ lowerA id ≠ ("end").data ∧
  hasLead (("subgraph").data) id = false

theorem isAlnum_ne (c x : Char) (h : isAlnum c = true)
    (hx : isAlnum x = false) : c ≠ x := by
  intro he
  rw [he, hx] at h
  cases h

theorem isAlnum_not_ws (c : Char) (h : isAlnum c = true) : isWs c = false := by
  by_cases hw : isWs c = true
  · have hc := hw
    simp only [isWs, Char.isWhitespace, Bool.or_eq_true, decide_eq_true_eq] at hc
    rcases hc with ((h1 | h1) | h1) | h1 <;> rw [h1] at h <;> cases h
  · exact Bool.eq_false_iff.mpr hw

theorem hasLead_append_self (pat b : Str) :
    hasLead pat (pat ++ b) = true := by
  induction pat with
  | nil => rfl
  | cons p ps ih =>
    show (p == p && hasLead ps (ps ++ b)) = true
    rw [beq_self_eq_true, ih]
    rfl

theorem hasLead_refl (s : Str) : hasLead s s = true := by
  have h := hasLead_append_self s []
  rwa [List.append_nil] at h

/-- A prefix match on an append either lies inside the first part or
consumes it entirely. -/
theorem hasLead_split : ∀ (a pat b : Str), hasLead pat (a ++ b) = true →
    hasLead pat a = true ∨ ∃ suf, pat = a ++ suf ∧ hasLead suf b = true := by
  intro a
  induction a with
  | nil =>
    intro pat b h
    exact Or.inr ⟨pat, rfl, h⟩
  | cons c a' ih =>
    intro pat b h
    cases pat with
    | nil => exact Or.inl rfl
    | cons p pr =>
      have h' : (p == c && hasLead pr (a' ++ b)) = true := h
      have hpc : (p == c) = true := by
        cases hb : (p == c)
        · rw [hb] at h'
          cases h'
        · rfl
      have hrest : hasLead pr (a' ++ b) = true := by
        rw [hpc] at h'
        exact h'
      rcases ih pr b hrest with h1 | ⟨suf, hp, hs⟩
      · refine Or.inl ?_
        show (p == c && hasLead pr a') = true
        rw [hpc, h1]
        rfl
      · refine Or.inr ⟨suf, ?_, hs⟩
        rw [hp, eq_of_beq hpc]
        rfl

/-- Every character of a matched pattern occurs in the string. -/
theorem hasLead_chars : ∀ (pat s : Str), hasLead pat s = true →
    ∀ c ∈ pat, c ∈ s := by
  intro pat
  induction pat with
  | nil =>
    intro s h c hc
    exact absurd hc (List.not_mem_nil c)
  | cons p pr ih =>
    intro s h c hc
    cases s with
    | nil => cases h
    | cons x xs =>
      have h' : (p == x && hasLead pr xs) = true := h
      have hpx : (p == x) = true := by
        cases hb : (p == x)
        · rw [hb] at h'
          cases h'
        · rfl
      have hrest : hasLead pr xs = true := by
        rw [hpx] at h'
        exact h'
      rcases List.mem_cons.mp hc with h1 | h1
      · rw [h1, eq_of_beq hpx]
        exact List.mem_cons_self x xs
      · exact List.mem_cons_of_mem x (ih xs hrest c h1)

theorem containsSub_false_of_not_mem (pat l : Str) (c : Char) (hc : c ∈ pat)
    (hl : c ∉ l) : containsSub pat l = false := by
  induction l with
  | nil =>
    show hasLead pat [] = false
    cases hlead : hasLead pat []
    · rfl
    · exact absurd (hasLead_chars pat [] hlead c hc) (List.not_mem_nil c)
  | cons x xs ih =>
    show (hasLead pat (x :: xs) || containsSub pat xs) = false
    have h1 : hasLead pat (x :: xs) = false := by
      cases hlead : hasLead pat (x :: xs)
      · rfl
      · exact absurd (hasLead_chars pat (x :: xs) hlead c hc) hl
    have h2 : containsSub pat xs = false :=
      ih (fun hm => hl (List.mem_cons_of_mem x hm))
    rw [h1, h2]
    rfl

theorem splitOnceSub_none_of_not_mem (pat l : Str) (c : Char) (hc : c ∈ pat)
    (hl : c ∉ l) : splitOnceSub pat l = none := by
  induction l with
  | nil =>
    show (if hasLead pat [] = true then _ else none) = none
    rw [if_neg ?_]
    intro hlead
    exact absurd (hasLead_chars pat [] hlead c hc) (List.not_mem_nil c)
  | cons x xs ih =>
    show (if hasLead pat (x :: xs) = true then _ else _) = none
    rw [if_neg ?_]
    · rw [ih (fun hm => hl (List.mem_cons_of_mem x hm))]
      rfl
    · intro hlead
      exact absurd (hasLead_chars pat (x :: xs) hlead c hc) hl

/-- `split_once` at the first occurrence, when the pattern head does not
occur earlier. -/
theorem splitOnceSub_first (p0 : Char) (pr : Str) :
    ∀ (a b : Str), p0 ∉ a →
    splitOnceSub (p0 :: pr) (a ++ (p0 :: pr) ++ b) = some (a, b) := by
  intro a
  induction a with
  | nil =>
    intro b ha
    show (if hasLead (p0 :: pr) ((p0 :: pr) ++ b) = true then
      some ([], ((p0 :: pr) ++ b).drop (p0 :: pr).length) else _) = _
    rw [if_pos (hasLead_append_self (p0 :: pr) b), List.drop_left]
  | cons c a' ih =>
    intro b ha
    have hc : p0 ≠ c := fun he => ha (he ▸ List.mem_cons_self c a')
    show (if hasLead (p0 :: pr) ((c :: a') ++ (p0 :: pr) ++ b) = true
      then _ else _) = _
    rw [if_neg ?_]
    · show (splitOnceSub (p0 :: pr) (a' ++ (p0 :: pr) ++ b)).map _ = _
      rw [ih b (fun hm => ha (List.mem_cons_of_mem c hm))]
      rfl
    · intro hlead
      have h' : (p0 == c && hasLead pr (a' ++ (p0 :: pr) ++ b)) = true := hlead
      cases hb : (p0 == c)
      · rw [hb] at h'
        cases h'
      · exact hc (eq_of_beq hb)

theorem trimL_eq_self (l : Str)
    (h : ∀ c, l.head? = some c → isWs c = false) : trimL l = l := by
  cases l with
  | nil => rfl
  | cons c cs =>
    show List.dropWhile isWs (c :: cs) = c :: cs
    rw [List.dropWhile_cons, h c rfl]
    rfl

theorem dropWhile_reverse_eq (l : Str)
    (h : ∀ c, l.getLast? = some c → isWs c = false) :
    l.reverse.dropWhile isWs = l.reverse := by
  cases hl : l.reverse with
  | nil => rfl
  | cons c cs =>
    have hc : l.getLast? = some c := by
      rw [← List.head?_reverse, hl]
      rfl
    rw [List.dropWhile_cons, h c hc]
    rfl

theorem trimR_eq_self (l : Str)
    (h : ∀ c, l.getLast? = some c → isWs c = false) : trimR l = l := by
  show (l.reverse.dropWhile isWs).reverse = l
  rw [dropWhile_reverse_eq l h, List.reverse_reverse]

theorem trim_eq_self (l : Str)
    (h1 : ∀ c, l.head? = some c → isWs c = false)
    (h2 : ∀ c, l.getLast? = some c → isWs c = false) : trim l = l := by
  rw [trim, trimL_eq_self l h1, trimR_eq_self l h2]

theorem head?_append_left {α : Type} (a b : List α) (h : a ≠ []) :
    (a ++ b).head? = a.head? := by
  cases a with
  | nil => exact absurd rfl h
  | cons x xs => rfl

theorem getLast?_append_right {α : Type} (a b : List α) (h : b ≠ []) :
    (a ++ b).getLast? = b.getLast? := by
  rw [← List.head?_reverse, ← List.head?_reverse, List.reverse_append]
  exact head?_append_left b.reverse a.reverse
    (fun hc => h (by simpa using congrArg List.reverse hc))

theorem plainStr_head_alnum (s : Str) (hs : plainStr s) :
    ∀ c, s.head? = some c → isAlnum c = true := by
  intro c hc
  cases s with
  | nil => cases hc
  | cons x xs =>
    have : x = c := Option.some_inj.mp hc
    exact hs.2 c (this ▸ List.mem_cons_self x xs)

theorem plainStr_getLast_alnum (s : Str) (hs : plainStr s) :
    ∀ c, s.getLast? = some c → isAlnum c = true := by
  intro c hc
  have hne : s ≠ [] := by
    intro h
    rw [h] at hc
    cases hc
  rw [List.getLast?_eq_getLast s hne] at hc
  have hcl : s.getLast hne = c := Option.some_inj.mp hc
  exact hs.2 c (hcl ▸ List.getLast_mem hne)

theorem trim_append_space (s : Str) (hs : plainStr s) :
    trim (s ++ [' ']) = s := by
  rw [trim]
  rw [trimL_eq_self (s ++ [' ']) ?_]
  · show ((s ++ [' ']).reverse.dropWhile isWs).reverse = s
    rw [List.reverse_append]
    show ((' ' :: s.reverse).dropWhile isWs).reverse = s
    rw [List.dropWhile_cons]
    have hws : isWs ' ' = true := rfl
    rw [hws]
    simp only [ite_true]
    rw [dropWhile_reverse_eq s (fun c hc =>
        isAlnum_not_ws c (plainStr_getLast_alnum s hs c hc)),
      List.reverse_reverse]
  · intro c hc
    rw [head?_append_left s [' '] hs.1] at hc
    exact isAlnum_not_ws c (plainStr_head_alnum s hs c hc)

theorem not_isEmpty_of_ne {α : Type} (l : List α) (h : l ≠ []) :
    ¬ l.isEmpty = true := fun hc => h (List.isEmpty_iff.mp hc)

theorem isShapeOpen_alnum (c : Char) (h : isAlnum c = true) :
    isShapeOpen c = false := by
  cases hso : isShapeOpen c
  · rfl
  · exfalso
    have hc := hso
    simp only [isShapeOpen, decide_eq_true_eq] at hc
    rcases hc with h1 | h1 | h1 <;> rw [h1] at h <;> exact absurd h (by decide)

theorem takeWhile_shape_all (a : Str) (h : ∀ c ∈ a, isShapeOpen c = false) :
    a.takeWhile (fun c => ¬ isShapeOpen c) = a := by
  induction a with
  | nil => rfl
  | cons c a' ih =>
    rw [List.takeWhile_cons]
    have hpc : ((fun c => (¬ isShapeOpen c : Bool)) c) = true := by
      show (¬ isShapeOpen c : Bool) = true
      rw [h c (List.mem_cons_self c a')]
      decide
    rw [if_pos hpc, ih (fun x hx => h x (List.mem_cons_of_mem c hx))]

theorem takeWhile_shape_append (a b : Str)
    (h : ∀ c ∈ a, isShapeOpen c = false) :
    (a ++ b).takeWhile (fun c => ¬ isShapeOpen c) =
      a ++ b.takeWhile (fun c => ¬ isShapeOpen c) := by
  induction a with
  | nil => rfl
  | cons c a' ih =>
    rw [List.cons_append, List.takeWhile_cons]
    have hpc : ((fun c => (¬ isShapeOpen c : Bool)) c) = true := by
      show (¬ isShapeOpen c : Bool) = true
      rw [h c (List.mem_cons_self c a')]
      decide
    rw [if_pos hpc, ih (fun x hx => h x (List.mem_cons_of_mem c hx))]
    rfl

theorem takeWhile_shape_cons_open (c : Char) (l : Str)
    (h : isShapeOpen c = true) :
    (c :: l).takeWhile (fun c => ¬ isShapeOpen c) = [] := by
  rw [List.takeWhile_cons]
  have hpc : (¬ isShapeOpen c : Bool) = false := by
    rw [h]
    decide
  rw [hpc]
  rfl

theorem dropWhile_shape_append (a b : Str)
    (h : ∀ c ∈ a, isShapeOpen c = false) :
    (a ++ b).dropWhile (fun c => ¬ isShapeOpen c) =
      b.dropWhile (fun c => ¬ isShapeOpen c) := by
  induction a with
  | nil => rfl
  | cons c a' ih =>
    rw [List.cons_append, List.dropWhile_cons]
    have hpc : (¬ isShapeOpen c : Bool) = true := by
      rw [h c (List.mem_cons_self c a')]
      decide
    rw [hpc]
    simp only [ite_true]
    exact ih (fun x hx => h x (List.mem_cons_of_mem c hx))

theorem dropWhile_shape_all (a : Str) (h : ∀ c ∈ a, isShapeOpen c = false) :
    a.dropWhile (fun c => ¬ isShapeOpen c) = [] := by
  have h2 := dropWhile_shape_append a [] h
  rwa [List.append_nil] at h2

theorem dropWhile_shape_cons_open (c : Char) (l : Str)
    (h : isShapeOpen c = true) :
    (c :: l).dropWhile (fun c => ¬ isShapeOpen c) = c :: l := by
  rw [List.dropWhile_cons]
  have hpc : (¬ isShapeOpen c : Bool) = false := by
    rw [h]
    decide
  rw [hpc]
  rfl

theorem hasLead_cons_ne (p c : Char) (ps cs : Str) (h : (p == c) = false) :
    hasLead (p :: ps) (c :: cs) = false := by
  show (p == c && hasLead ps cs) = false
  rw [h]
  rfl

theorem hasLead_singleton_self (x : Char) (rest : Str) :
    hasLead [x] (x :: rest) = true := by
  show (x == x && true) = true
  rw [beq_self_eq_true]
  rfl

theorem hasTail_concat (x : Char) (a : Str) :
    hasTail [x] (a ++ [x]) = true := by
  unfold hasTail
  rw [List.reverse_append]
  show hasLead [x] (x :: a.reverse) = true
  exact hasLead_singleton_self x a.reverse

theorem hasTail_concat2 (x y : Char) (a : Str) :
    hasTail [x, y] (a ++ [x, y]) = true := by
  unfold hasTail
  rw [List.reverse_append]
  show hasLead [y, x] (y :: x :: a.reverse) = true
  show (y == y && (x == x && true)) = true
  rw [beq_self_eq_true, beq_self_eq_true]
  rfl

theorem plainStr_head_not_ws (s : Str) (hs : plainStr s) :
    ∀ c, s.head? = some c → isWs c = false := fun c hc =>
  isAlnum_not_ws c (plainStr_head_alnum s hs c hc)

theorem plainStr_getLast_not_ws (s : Str) (hs : plainStr s) :
    ∀ c, s.getLast? = some c → isWs c = false := fun c hc =>
  isAlnum_not_ws c (plainStr_getLast_alnum s hs c hc)

theorem trim_plain (s : Str) (hs : plainStr s) : trim s = s :=
  trim_eq_self s (plainStr_head_not_ws s hs) (plainStr_getLast_not_ws s hs)

theorem hasLead_two_of_head (x c : Char) (rest : Str) (hne : (x == c) = false) :
    hasLead [x, x] (x :: c :: rest) = false := by
  show (x == x && (x == c && true)) = false
  rw [beq_self_eq_true, hne]
  rfl

theorem trim_cons_space (s : Str) (hs : plainStr s) :
    trim (' ' :: s) = s := by
  rw [trim]
  show trimR (List.dropWhile isWs (' ' :: s)) = s
  rw [List.dropWhile_cons]
  have hws : isWs ' ' = true := rfl
  rw [hws]
  simp only [ite_true]
  show trimR (trimL s) = s
  rw [trimL_eq_self s (fun c hc =>
    isAlnum_not_ws c (plainStr_head_alnum s hs c hc))]
  exact trimR_eq_self s (fun c hc =>
    isAlnum_not_ws c (plainStr_getLast_alnum s hs c hc))

theorem NodeSpec_parse_plain (id : Str) (hid : plainStr id) :
    NodeSpec.parse id = .ok ⟨id, id, NodeShape.Rectangle⟩ := by
  simp only [NodeSpec.parse]
  rw [trim_plain id hid]
  rw [if_neg (not_isEmpty_of_ne id hid.1)]
  rw [takeWhile_shape_all id (fun c hc => isShapeOpen_alnum c (hid.2 c hc))]
  rw [trim_plain id hid]
  rw [if_neg (not_isEmpty_of_ne id hid.1)]
  rw [dropWhile_shape_all id (fun c hc => isShapeOpen_alnum c (hid.2 c hc))]
  rw [show trim ([] : Str) = [] from rfl]
  rw [if_pos (show ([] : Str).isEmpty = true from rfl)]
  dsimp only
  rw [if_neg (not_isEmpty_of_ne id hid.1)]

theorem NodeSpec_parse_stadium (id label : Str) (hid : plainStr id)
    (hlab : plainStr label) :
    NodeSpec.parse (id ++ '(' :: label ++ [')']) =
      .ok ⟨id, label, NodeShape.Stadium⟩ := by
  obtain ⟨lc, lrest, hlabeq⟩ : ∃ c r, label = c :: r := by
    cases label with
    | nil => exact absurd rfl hlab.1
    | cons c r => exact ⟨c, r, rfl⟩
  have hlc : isAlnum lc = true :=
    hlab.2 lc (hlabeq ▸ List.mem_cons_self lc lrest)
  have hassoc : id ++ '(' :: label ++ [')'] =
      id ++ ('(' :: (label ++ [')'])) := by
    rw [List.append_assoc]
    rfl
  rw [hassoc]
  have hR_last : ∀ c, ('(' :: (label ++ [')'])).getLast? = some c →
      isWs c = false := by
    intro c hc
    have h2 : ('(' :: (label ++ [')'])).getLast? = some ')' := by
      show (('(' :: label) ++ [')']).getLast? = some ')'
      exact List.getLast?_concat _
    rw [h2] at hc
    rw [(Option.some_inj.mp hc).symm]
    decide
  have hline_ne : id ++ ('(' :: (label ++ [')'])) ≠ [] := fun h =>
    hid.1 (List.append_eq_nil.mp h).1
  have htrim : trim (id ++ ('(' :: (label ++ [')']))) =
      id ++ ('(' :: (label ++ [')'])) := by
    refine trim_eq_self _ ?_ ?_
    · intro c hc
      rw [head?_append_left id _ hid.1] at hc
      exact plainStr_head_not_ws id hid c hc
    · intro c hc
      rw [getLast?_append_right id _ (List.cons_ne_nil _ _)] at hc
      exact hR_last c hc
  have htrim_rest : trim ('(' :: (label ++ [')'])) =
      '(' :: (label ++ [')']) := by
    refine trim_eq_self _ ?_ hR_last
    intro c hc
    rw [(Option.some_inj.mp hc).symm]
    decide
  have hshape : ∀ c ∈ id, isShapeOpen c = false := fun c hc =>
    isShapeOpen_alnum c (hid.2 c hc)
  have hcirc : ¬ (hasLead (['(', '(']) ('(' :: (label ++ [')'])) = true ∧
      hasTail ([')', ')']) ('(' :: (label ++ [')'])) = true ∧
      4 ≤ ('(' :: (label ++ [')'])).length) := by
    rintro ⟨h1, -, -⟩
    have h1' : hasLead (['(', '(']) ('(' :: lc :: (lrest ++ [')'])) = true := by
      rw [hlabeq] at h1
      exact h1
    rw [hasLead_two_of_head '(' lc _
      (beq_eq_false_iff_ne.mpr (Ne.symm (isAlnum_ne lc '(' hlc (by decide))))]
      at h1'
    cases h1'
  have hstad : hasLead (['(']) ('(' :: (label ++ [')'])) = true ∧
      hasTail ([')']) ('(' :: (label ++ [')'])) = true ∧
      2 ≤ ('(' :: (label ++ [')'])).length := by
    refine ⟨hasLead_singleton_self '(' _, ?_, ?_⟩
    · show hasTail [')'] (('(' :: label) ++ [')']) = true
      exact hasTail_concat ')' ('(' :: label)
    · simp
  simp only [NodeSpec.parse]
  rw [htrim]
  rw [if_neg (not_isEmpty_of_ne _ hline_ne)]
  rw [takeWhile_shape_append id _ hshape,
    takeWhile_shape_cons_open '(' _ (by decide), List.append_nil]
  rw [trim_plain id hid]
  rw [if_neg (not_isEmpty_of_ne id hid.1)]
  rw [dropWhile_shape_append id _ hshape,
    dropWhile_shape_cons_open '(' _ (by decide)]
  rw [htrim_rest]
  rw [if_neg (not_isEmpty_of_ne _ (List.cons_ne_nil '(' (label ++ [')'])))]
  rw [if_neg hcirc]
  rw [if_pos hstad]
  dsimp only
  have hlen2 : ('(' :: (label ++ [')'])).length = label.length + 2 := by
    simp
  have hlen : ('(' :: (label ++ [')'])).length - 2 * 1 = label.length := by
    rw [hlen2]
    omega
  rw [hlen]
  rw [show List.drop 1 ('(' :: (label ++ [')'])) = label ++ [')'] from rfl]
  rw [List.take_left, trim_plain label hlab]
  rw [if_neg (not_isEmpty_of_ne label hlab.1)]

theorem hasLead_two_self (x : Char) (rest : Str) :
    hasLead [x, x] (x :: x :: rest) = true := by
  show (x == x && (x == x && true)) = true
  rw [beq_self_eq_true]
  rfl

theorem NodeSpec_parse_rect (id label : Str) (hid : plainStr id)
    (hlab : plainStr label) :
    NodeSpec.parse (id ++ '[' :: label ++ ['\x5d']) =
      .ok ⟨id, label, NodeShape.Rectangle⟩ := by
  have hassoc : id ++ '[' :: label ++ ['\x5d'] =
      id ++ ('[' :: (label ++ ['\x5d'])) := by
    rw [List.append_assoc]
    rfl
  rw [hassoc]
  have hR_last : ∀ c, ('[' :: (label ++ ['\x5d'])).getLast? = some c →
      isWs c = false := by
    intro c hc
    have h2 : ('[' :: (label ++ ['\x5d'])).getLast? = some '\x5d' := by
      show (('[' :: label) ++ ['\x5d']).getLast? = some '\x5d'
      exact List.getLast?_concat _
    rw [h2] at hc
    rw [(Option.some_inj.mp hc).symm]
    decide
  have hline_ne : id ++ ('[' :: (label ++ ['\x5d'])) ≠ [] := fun h =>
    hid.1 (List.append_eq_nil.mp h).1
  have htrim : trim (id ++ ('[' :: (label ++ ['\x5d']))) =
      id ++ ('[' :: (label ++ ['\x5d'])) := by
    refine trim_eq_self _ ?_ ?_
    · intro c hc
      rw [head?_append_left id _ hid.1] at hc
      exact plainStr_head_not_ws id hid c hc
    · intro c hc
      rw [getLast?_append_right id _ (List.cons_ne_nil _ _)] at hc
      exact hR_last c hc
  have htrim_rest : trim ('[' :: (label ++ ['\x5d'])) =
      '[' :: (label ++ ['\x5d']) := by
    refine trim_eq_self _ ?_ hR_last
    intro c hc
    rw [(Option.some_inj.mp hc).symm]
    decide
  have hshape : ∀ c ∈ id, isShapeOpen c = false := fun c hc =>
    isShapeOpen_alnum c (hid.2 c hc)
  have hcirc : ¬ (hasLead (['(', '(']) ('[' :: (label ++ ['\x5d'])) = true ∧
      hasTail ([')', ')']) ('[' :: (label ++ ['\x5d'])) = true ∧
      4 ≤ ('[' :: (label ++ ['\x5d'])).length) := by
    rintro ⟨h1, -, -⟩
    rw [hasLead_cons_ne '(' '[' _ _ (by decide)] at h1
    cases h1
  have hstad : ¬ (hasLead (['(']) ('[' :: (label ++ ['\x5d'])) = true ∧
      hasTail ([')']) ('[' :: (label ++ ['\x5d'])) = true ∧
      2 ≤ ('[' :: (label ++ ['\x5d'])).length) := by
    rintro ⟨h1, -, -⟩
    rw [hasLead_cons_ne '(' '[' _ _ (by decide)] at h1
    cases h1
  have hrect : hasLead (['[']) ('[' :: (label ++ ['\x5d'])) = true ∧
      hasTail (['\x5d']) ('[' :: (label ++ ['\x5d'])) = true ∧
      2 ≤ ('[' :: (label ++ ['\x5d'])).length := by
    refine ⟨hasLead_singleton_self '[' _, ?_, ?_⟩
    · show hasTail ['\x5d'] (('[' :: label) ++ ['\x5d']) = true
      exact hasTail_concat '\x5d' ('[' :: label)
    · simp
  simp only [NodeSpec.parse]
  rw [htrim]
  rw [if_neg (not_isEmpty_of_ne _ hline_ne)]
  rw [takeWhile_shape_append id _ hshape,
    takeWhile_shape_cons_open '[' _ (by decide), List.append_nil]
  rw [trim_plain id hid]
  rw [if_neg (not_isEmpty_of_ne id hid.1)]
  rw [dropWhile_shape_append id _ hshape,
    dropWhile_shape_cons_open '[' _ (by decide)]
  rw [htrim_rest]
  rw [if_neg (not_isEmpty_of_ne _ (List.cons_ne_nil '[' (label ++ ['\x5d'])))]
  rw [if_neg hcirc]
  rw [if_neg hstad]
  rw [if_pos hrect]
  dsimp only
  have hlen2 : ('[' :: (label ++ ['\x5d'])).length = label.length + 2 := by
    simp
  have hlen : ('[' :: (label ++ ['\x5d'])).length - 2 * 1 = label.length := by
    rw [hlen2]
    omega
  rw [hlen]
  rw [show List.drop 1 ('[' :: (label ++ ['\x5d'])) = label ++ ['\x5d']
    from rfl]
  rw [List.take_left, trim_plain label hlab]
  rw [if_neg (not_isEmpty_of_ne label hlab.1)]

theorem NodeSpec_parse_circle (id label : Str) (hid : plainStr id)
    (hlab : plainStr label) :
    NodeSpec.parse (id ++ '(' :: '(' :: label ++ [')', ')']) =
      .ok ⟨id, label, NodeShape.Circle⟩ := by
  have hassoc : id ++ '(' :: '(' :: label ++ [')', ')'] =
      id ++ ('(' :: '(' :: (label ++ [')', ')'])) := by
    rw [List.append_assoc]
    rfl
  rw [hassoc]
  have hR_last : ∀ c, ('(' :: '(' :: (label ++ [')', ')'])).getLast? = some c →
      isWs c = false := by
    intro c hc
    have h2 : ('(' :: '(' :: (label ++ [')', ')'])).getLast? = some ')' := by
      show ((['(', '('] : Str) ++ (label ++ [')', ')'])).getLast? = some ')'
      rw [getLast?_append_right _ _ (by simp)]
      rw [getLast?_append_right label [')', ')'] (by simp)]
      rfl
    rw [h2] at hc
    rw [(Option.some_inj.mp hc).symm]
    decide
  have hline_ne : id ++ ('(' :: '(' :: (label ++ [')', ')'])) ≠ [] := fun h =>
    hid.1 (List.append_eq_nil.mp h).1
  have htrim : trim (id ++ ('(' :: '(' :: (label ++ [')', ')']))) =
      id ++ ('(' :: '(' :: (label ++ [')', ')'])) := by
    refine trim_eq_self _ ?_ ?_
    · intro c hc
      rw [head?_append_left id _ hid.1] at hc
      exact plainStr_head_not_ws id hid c hc
    · intro c hc
      rw [getLast?_append_right id _ (List.cons_ne_nil _ _)] at hc
      exact hR_last c hc
  have htrim_rest : trim ('(' :: '(' :: (label ++ [')', ')'])) =
      '(' :: '(' :: (label ++ [')', ')']) := by
    refine trim_eq_self _ ?_ hR_last
    intro c hc
    rw [(Option.some_inj.mp hc).symm]
    decide
  have hshape : ∀ c ∈ id, isShapeOpen c = false := fun c hc =>
    isShapeOpen_alnum c (hid.2 c hc)
  have hcirc : hasLead (['(', '(']) ('(' :: '(' :: (label ++ [')', ')'])) =
        true ∧
      hasTail ([')', ')']) ('(' :: '(' :: (label ++ [')', ')'])) = true ∧
      4 ≤ ('(' :: '(' :: (label ++ [')', ')'])).length := by
    refine ⟨hasLead_two_self '(' _, ?_, ?_⟩
    · show hasTail [')', ')'] (('(' :: '(' :: label) ++ [')', ')']) = true
      exact hasTail_concat2 ')' ')' ('(' :: '(' :: label)
    · simp
  simp only [NodeSpec.parse]
  rw [htrim]
  rw [if_neg (not_isEmpty_of_ne _ hline_ne)]
  rw [takeWhile_shape_append id _ hshape,
    takeWhile_shape_cons_open '(' _ (by decide), List.append_nil]
  rw [trim_plain id hid]
  rw [if_neg (not_isEmpty_of_ne id hid.1)]
  rw [dropWhile_shape_append id _ hshape,
    dropWhile_shape_cons_open '(' _ (by decide)]
  rw [htrim_rest]
  rw [if_neg (not_isEmpty_of_ne _
    (List.cons_ne_nil '(' ('(' :: (label ++ [')', ')']))))]
  rw [if_pos hcirc]
  dsimp only
  have hlen2 : ('(' :: '(' :: (label ++ [')', ')'])).length =
      label.length + 4 := by
    simp
  have hlen : ('(' :: '(' :: (label ++ [')', ')'])).length - 2 * 2 =
      label.length := by
    rw [hlen2]
    omega
  rw [hlen]
  rw [show List.drop 2 ('(' :: '(' :: (label ++ [')', ')'])) =
    label ++ [')', ')'] from rfl]
  rw [List.take_left]
  rw [trim_plain label hlab]
  rw [if_neg (not_isEmpty_of_ne label hlab.1)]

theorem NodeSpec_parse_diamond (id label : Str) (hid : plainStr id)
    (hlab : plainStr label) :
    NodeSpec.parse (id ++ '\x7b' :: label ++ ['\x7d']) =
      .ok ⟨id, label, NodeShape.Diamond⟩ := by
  have hassoc : id ++ '\x7b' :: label ++ ['\x7d'] =
      id ++ ('\x7b' :: (label ++ ['\x7d'])) := by
    rw [List.append_assoc]
    rfl
  rw [hassoc]
  have hR_last : ∀ c, ('\x7b' :: (label ++ ['\x7d'])).getLast? = some c →
      isWs c = false := by
    intro c hc
    have h2 : ('\x7b' :: (label ++ ['\x7d'])).getLast? = some '\x7d' := by
      show (('\x7b' :: label) ++ ['\x7d']).getLast? = some '\x7d'
      exact List.getLast?_concat _
    rw [h2] at hc
    rw [(Option.some_inj.mp hc).symm]
    decide
  have hline_ne : id ++ ('\x7b' :: (label ++ ['\x7d'])) ≠ [] := fun h =>
    hid.1 (List.append_eq_nil.mp h).1
  have htrim : trim (id ++ ('\x7b' :: (label ++ ['\x7d']))) =
      id ++ ('\x7b' :: (label ++ ['\x7d'])) := by
    refine trim_eq_self _ ?_ ?_
    · intro c hc
      rw [head?_append_left id _ hid.1] at hc
      exact plainStr_head_not_ws id hid c hc
    · intro c hc
      rw [getLast?_append_right id _ (List.cons_ne_nil _ _)] at hc
      exact hR_last c hc
  have htrim_rest : trim ('\x7b' :: (label ++ ['\x7d'])) =
      '\x7b' :: (label ++ ['\x7d']) := by
    refine trim_eq_self _ ?_ hR_last
    intro c hc
    rw [(Option.some_inj.mp hc).symm]
    decide
  have hshape : ∀ c ∈ id, isShapeOpen c = false := fun c hc =>
    isShapeOpen_alnum c (hid.2 c hc)
  have hcirc : ¬ (hasLead (['(', '(']) ('\x7b' :: (label ++ ['\x7d'])) =
        true ∧
      hasTail ([')', ')']) ('\x7b' :: (label ++ ['\x7d'])) = true ∧
      4 ≤ ('\x7b' :: (label ++ ['\x7d'])).length) := by
    rintro ⟨h1, -, -⟩
    rw [hasLead_cons_ne '(' '\x7b' _ _ (by decide)] at h1
    cases h1
  have hstad : ¬ (hasLead (['(']) ('\x7b' :: (label ++ ['\x7d'])) = true ∧
      hasTail ([')']) ('\x7b' :: (label ++ ['\x7d'])) = true ∧
      2 ≤ ('\x7b' :: (label ++ ['\x7d'])).length) := by
    rintro ⟨h1, -, -⟩
    rw [hasLead_cons_ne '(' '\x7b' _ _ (by decide)] at h1
    cases h1
  have hrect : ¬ (hasLead (['[']) ('\x7b' :: (label ++ ['\x7d'])) = true ∧
      hasTail (['\x5d']) ('\x7b' :: (label ++ ['\x7d'])) = true ∧
      2 ≤ ('\x7b' :: (label ++ ['\x7d'])).length) := by
    rintro ⟨h1, -, -⟩
    rw [hasLead_cons_ne '[' '\x7b' _ _ (by decide)] at h1
    cases h1
  have hdia : hasLead (['\x7b']) ('\x7b' :: (label ++ ['\x7d'])) = true ∧
      hasTail (['\x7d']) ('\x7b' :: (label ++ ['\x7d'])) = true ∧
      2 ≤ ('\x7b' :: (label ++ ['\x7d'])).length := by
    refine ⟨hasLead_singleton_self '\x7b' _, ?_, ?_⟩
    · show hasTail ['\x7d'] (('\x7b' :: label) ++ ['\x7d']) = true
      exact hasTail_concat '\x7d' ('\x7b' :: label)
    · simp
  simp only [NodeSpec.parse]
  rw [htrim]
  rw [if_neg (not_isEmpty_of_ne _ hline_ne)]
  rw [takeWhile_shape_append id _ hshape,
    takeWhile_shape_cons_open '\x7b' _ (by decide), List.append_nil]
  rw [trim_plain id hid]
  rw [if_neg (not_isEmpty_of_ne id hid.1)]
  rw [dropWhile_shape_append id _ hshape,
    dropWhile_shape_cons_open '\x7b' _ (by decide)]
  rw [htrim_rest]
  rw [if_neg (not_isEmpty_of_ne _
    (List.cons_ne_nil '\x7b' (label ++ ['\x7d'])))]
  rw [if_neg hcirc]
  rw [if_neg hstad]
  rw [if_neg hrect]
  rw [if_pos hdia]
  dsimp only
  have hlen2 : ('\x7b' :: (label ++ ['\x7d'])).length = label.length + 2 := by
    simp
  have hlen : ('\x7b' :: (label ++ ['\x7d'])).length - 2 * 1 =
      label.length := by
    rw [hlen2]
    omega
  rw [hlen]
  rw [show List.drop 1 ('\x7b' :: (label ++ ['\x7d'])) = label ++ ['\x7d']
    from rfl]
  rw [List.take_left, trim_plain label hlab]
  rw [if_neg (not_isEmpty_of_ne label hlab.1)]

/-- `NodeSpec::parse` inverts `format_spec` on plain identifiers. -/
theorem NodeSpec_parse_format (id : Str) (node : Node)
    (hid : plainStr id) (hlab : plainStr node.label) :
    NodeSpec.parse (formatNodeLine id node) =
      .ok ⟨id, node.label, node.shape⟩ := by
  obtain ⟨label, shape⟩ := node
  show NodeSpec.parse (shape.formatSpec id label) = .ok ⟨id, label, shape⟩
  cases shape with
  | Rectangle =>
    show NodeSpec.parse (if label = id then id
      else id ++ '[' :: label ++ ['\x5d']) = _
    by_cases hli : label = id
    · rw [if_pos hli, NodeSpec_parse_plain id hid, hli]
    · rw [if_neg hli, NodeSpec_parse_rect id label hid hlab]
  | Stadium => exact NodeSpec_parse_stadium id label hid hlab
  | Circle => exact NodeSpec_parse_circle id label hid hlab
  | Diamond => exact NodeSpec_parse_diamond id label hid hlab

theorem stripLead_none (pat s : Str) (h : hasLead pat s = false) :
    stripLead pat s = none := by
  unfold stripLead
  rw [if_neg (by rw [h]; exact Bool.false_ne_true)]

/-- A line that is a protected identifier followed by a non-`subgraph`
character is not a subgraph header. -/
theorem hasLead_subgraph_false (id rest : Str)
    (hid : hasLead (("subgraph").data) id = false)
    (hrest : ∀ c rs, rest = c :: rs → c ∉ ("subgraph").data) :
    hasLead (("subgraph").data) (id ++ rest) = false := by
  cases hl : hasLead (("subgraph").data) (id ++ rest)
  · rfl
  · exfalso
    rcases hasLead_split id (("subgraph").data) rest hl with h1 | ⟨suf, hp, hs⟩
    · rw [h1] at hid
      cases hid
    · cases suf with
      | nil =>
        rw [List.append_nil] at hp
        rw [hp, hasLead_refl] at hid
        cases hid
      | cons s0 srest =>
        cases rest with
        | nil => simp [hasLead] at hs
        | cons c rs =>
          have hs0 : (s0 == c) = true := by
            cases hb : (s0 == c)
            · have h2 : (s0 == c && hasLead srest rs) = true := hs
              rw [hb] at h2
              cases h2
            · rfl
          have hmem : s0 ∈ ("subgraph").data := by
            rw [hp]
            exact List.mem_append_right id (List.mem_cons_self s0 srest)
          exact hrest c rs rfl ((eq_of_beq hs0) ▸ hmem)

theorem eqIgnoreCase_false_of_ne (a b : Str) (h : lowerA a ≠ lowerA b) :
    eqIgnoreCase a b = false := by
  cases he : eqIgnoreCase a b
  · rfl
  · exact absurd (eq_of_beq he) h

theorem eqIgnoreCase_false_of_mem (a b : Str) (c : Char) (hc : c ∈ a)
    (h : c.toLower ∉ lowerA b) : eqIgnoreCase a b = false := by
  cases he : eqIgnoreCase a b
  · rfl
  · exfalso
    have heq : lowerA a = lowerA b := eq_of_beq he
    have hm : c.toLower ∈ lowerA a := List.mem_map_of_mem Char.toLower hc
    rw [heq] at hm
    exact h hm

/-- The characters of a formatted node line. -/
theorem formatNodeLine_chars (id : Str) (node : Node) (c : Char)
    (hc : c ∈ formatNodeLine id node) :
    c ∈ id ∨ c ∈ node.label ∨
      c ∈ ['[', '\x5d', '(', ')', '\x7b', '\x7d'] := by
  obtain ⟨label, shape⟩ := node
  cases shape with
  | Rectangle =>
    by_cases hli : label = id
    · show c ∈ id ∨ _ ∨ _
      have hc' : c ∈ (if label = id then id
        else id ++ '[' :: label ++ ['\x5d']) := hc
      rw [if_pos hli] at hc'
      exact Or.inl hc'
    · have hc' : c ∈ (if label = id then id
        else id ++ '[' :: label ++ ['\x5d']) := hc
      rw [if_neg hli] at hc'
      rcases List.mem_append.mp hc' with h | h
      · rcases List.mem_append.mp h with h2 | h2
        · exact Or.inl h2
        · rcases List.mem_cons.mp h2 with h3 | h3
          · exact Or.inr (Or.inr (by rw [h3]; decide))
          · exact Or.inr (Or.inl h3)
      · exact Or.inr (Or.inr (by
          rw [List.mem_singleton.mp h]
          decide))
  | Stadium =>
    have hc' : c ∈ id ++ '(' :: label ++ [')'] := hc
    rcases List.mem_append.mp hc' with h | h
    · rcases List.mem_append.mp h with h2 | h2
      · exact Or.inl h2
      · rcases List.mem_cons.mp h2 with h3 | h3
        · exact Or.inr (Or.inr (by rw [h3]; decide))
        · exact Or.inr (Or.inl h3)
    · exact Or.inr (Or.inr (by
        rw [List.mem_singleton.mp h]
        decide))
  | Circle =>
    have hc' : c ∈ id ++ '(' :: '(' :: label ++ [')', ')'] := hc
    rcases List.mem_append.mp hc' with h | h
    · rcases List.mem_append.mp h with h2 | h2
      · exact Or.inl h2
      · rcases List.mem_cons.mp h2 with h3 | h3
        · exact Or.inr (Or.inr (by rw [h3]; decide))
        · rcases List.mem_cons.mp h3 with h4 | h4
          · exact Or.inr (Or.inr (by rw [h4]; decide))
          · exact Or.inr (Or.inl h4)
    · rcases List.mem_cons.mp h with h2 | h2
      · exact Or.inr (Or.inr (by rw [h2]; decide))
      · exact Or.inr (Or.inr (by
          rw [List.mem_singleton.mp h2]
          decide))
  | Diamond =>
    have hc' : c ∈ id ++ '\x7b' :: label ++ ['\x7d'] := hc
    rcases List.mem_append.mp hc' with h | h
    · rcases List.mem_append.mp h with h2 | h2
      · exact Or.inl h2
      · rcases List.mem_cons.mp h2 with h3 | h3
        · exact Or.inr (Or.inr (by rw [h3]; decide))
        · exact Or.inr (Or.inl h3)
    · exact Or.inr (Or.inr (by
        rw [List.mem_singleton.mp h]
        decide))

/-- No dash occurs in a formatted node line over plain strings. -/
theorem formatNodeLine_no_dash (id : Str) (node : Node)
    (hid : plainStr id) (hlab : plainStr node.label) :
    '-' ∉ formatNodeLine id node := by
  intro hc
  rcases formatNodeLine_chars id node '-' hc with h | h | h
  · exact absurd (hid.2 '-' h) (by decide)
  · exact absurd (hlab.2 '-' h) (by decide)
  · exact absurd h (by decide)

theorem parseNodeLine_format (st : PSt) (id : Str) (node : Node)
    (hid : plainStr id) (hlab : plainStr node.label)
    (hfresh : alHas st.nodes id = false) (hstack : st.stack = []) :
    parseNodeLine (formatNodeLine id node) st =
      .ok (true, { st with
        nodes := st.nodes ++ [(id, node)],
        order := st.order ++ [id],
        membership := alPut st.membership id [] }) := by
  have hdash := formatNodeLine_no_dash id node hid hlab
  have hc1 : containsSub (("-->").data) (formatNodeLine id node) = false :=
    containsSub_false_of_not_mem _ _ '-' (by decide) hdash
  have hc2 : containsSub (("-.->").data) (formatNodeLine id node) = false :=
    containsSub_false_of_not_mem _ _ '-' (by decide) hdash
  have hcond : ¬ (containsSub (("-->").data) (formatNodeLine id node) = true ∨
      containsSub (("-.->").data) (formatNodeLine id node) = true) := by
    rintro (h | h)
    · rw [hc1] at h
      cases h
    · rw [hc2] at h
      cases h
  have hspec := NodeSpec_parse_format id node hid hlab
  simp only [parseNodeLine]
  rw [if_neg hcond, hspec]
  dsimp only
  simp only [insertNodeSpec]
  rw [hfresh]
  rw [if_neg Bool.false_ne_true]
  dsimp only
  simp only [if_true, ite_true, eq_self_iff_true]
  simp only [recordNodeMembership]
  rw [hstack]
  rfl

theorem parseLineStep_node (st : PSt) (id : Str) (node : Node)
    (hid : idOK id) (hlab : plainStr node.label)
    (hfresh : alHas st.nodes id = false) (hstack : st.stack = []) :
    parseLineStep st (formatNodeLine id node) =
      .ok { st with
        nodes := st.nodes ++ [(id, node)],
        order := st.order ++ [id],
        membership := alPut st.membership id [] } := by
  obtain ⟨hplain, hend, hsg⟩ := hid
  have hdash := formatNodeLine_no_dash id node hplain hlab
  -- not a subgraph header
  have hsub : hasLead (("subgraph").data) (formatNodeLine id node) = false := by
    obtain ⟨label, shape⟩ := node
    cases shape with
    | Rectangle =>
      by_cases hli : label = id
      · show hasLead (("subgraph").data)
          (if label = id then id else id ++ '[' :: label ++ ['\x5d']) = false
        rw [if_pos hli]
        exact hsg
      · show hasLead (("subgraph").data)
          (if label = id then id else id ++ '[' :: label ++ ['\x5d']) = false
        rw [if_neg hli]
        rw [show id ++ '[' :: label ++ ['\x5d'] =
          id ++ ('[' :: (label ++ ['\x5d'])) from by rw [List.append_assoc]; rfl]
        refine hasLead_subgraph_false id _ hsg ?_
        intro c rs h
        rw [(List.cons.injEq _ _ _ _).mp h |>.1.symm]
        decide
    | Stadium =>
      show hasLead (("subgraph").data) (id ++ '(' :: label ++ [')']) = false
      rw [show id ++ '(' :: label ++ [')'] =
        id ++ ('(' :: (label ++ [')'])) from by rw [List.append_assoc]; rfl]
      refine hasLead_subgraph_false id _ hsg ?_
      intro c rs h
      rw [(List.cons.injEq _ _ _ _).mp h |>.1.symm]
      decide
    | Circle =>
      show hasLead (("subgraph").data)
        (id ++ '(' :: '(' :: label ++ [')', ')']) = false
      rw [show id ++ '(' :: '(' :: label ++ [')', ')'] =
        id ++ ('(' :: ('(' :: (label ++ [')', ')'])))
        from by rw [List.append_assoc]; rfl]
      refine hasLead_subgraph_false id _ hsg ?_
      intro c rs h
      rw [(List.cons.injEq _ _ _ _).mp h |>.1.symm]
      decide
    | Diamond =>
      show hasLead (("subgraph").data)
        (id ++ '\x7b' :: label ++ ['\x7d']) = false
      rw [show id ++ '\x7b' :: label ++ ['\x7d'] =
        id ++ ('\x7b' :: (label ++ ['\x7d'])) from by rw [List.append_assoc]; rfl]
      refine hasLead_subgraph_false id _ hsg ?_
      intro c rs h
      rw [(List.cons.injEq _ _ _ _).mp h |>.1.symm]
      decide
  -- not the end marker
  have hendline : eqIgnoreCase (formatNodeLine id node) (("end").data)
      = false := by
    obtain ⟨label, shape⟩ := node
    cases shape with
    | Rectangle =>
      by_cases hli : label = id
      · have : formatNodeLine id ⟨label, .Rectangle⟩ = id := by
          show (if label = id then id else _) = id
          rw [if_pos hli]
        rw [this]
        refine eqIgnoreCase_false_of_ne id _ ?_
        rw [show lowerA (("end").data) = ("end").data from by decide]
        exact hend
      · have : formatNodeLine id ⟨label, .Rectangle⟩ =
            id ++ '[' :: label ++ ['\x5d'] := by
          show (if label = id then id else _) = _
          rw [if_neg hli]
        rw [this]
        refine eqIgnoreCase_false_of_mem _ _ '[' ?_ (by decide)
        show '[' ∈ (id ++ ('[' :: label)) ++ ['\x5d']
        exact List.mem_append_left _
          (List.mem_append_right id (List.mem_cons_self _ _))
    | Stadium =>
      refine eqIgnoreCase_false_of_mem _ _ '(' ?_ (by decide)
      show '(' ∈ (id ++ ('(' :: label)) ++ [')']
      exact List.mem_append_left _
        (List.mem_append_right id (List.mem_cons_self _ _))
    | Circle =>
      refine eqIgnoreCase_false_of_mem _ _ '(' ?_ (by decide)
      show '(' ∈ (id ++ ('(' :: '(' :: label)) ++ [')', ')']
      exact List.mem_append_left _
        (List.mem_append_right id (List.mem_cons_self _ _))
    | Diamond =>
      refine eqIgnoreCase_false_of_mem _ _ '\x7b' ?_ (by decide)
      show '\x7b' ∈ (id ++ ('\x7b' :: label)) ++ ['\x7d']
      exact List.mem_append_left _
        (List.mem_append_right id (List.mem_cons_self _ _))
  have hso1 : splitOnceSub (("-.->").data) (formatNodeLine id node) = none :=
    splitOnceSub_none_of_not_mem _ _ '-' (by decide) hdash
  have hso2 : splitOnceSub (("-->").data) (formatNodeLine id node) = none :=
    splitOnceSub_none_of_not_mem _ _ '-' (by decide) hdash
  simp only [parseLineStep]
  rw [stripLead_none _ _ hsub]
  dsimp only
  rw [if_neg (by rw [hendline]; exact Bool.false_ne_true)]
  simp only [bind, Except.bind]
  rw [parseEdgeLine_noop st _ hso1 hso2]
  dsimp only
  rw [parseNodeLine_format st id node hplain hlab hfresh hstack]
  rfl

theorem alHas_false_iff {κ α : Type} [DecidableEq κ]
    (m : List (κ × α)) (k : κ) : alHas m k = false ↔ alGet m k = none := by
  unfold alHas
  cases alGet m k <;> simp

theorem alGet_append_of_none {κ α : Type} [DecidableEq κ]
    (a b : List (κ × α)) (k : κ) (ha : alGet a k = none) :
    alGet (a ++ b) k = alGet b k := by
  induction a with
  | nil => rfl
  | cons kv rest ih =>
    obtain ⟨k', v⟩ := kv
    by_cases hk : k' = k
    · exfalso
      simp only [alGet, if_pos hk] at ha
      exact Option.noConfusion ha
    · simp only [alGet, if_neg hk] at ha ⊢
      show alGet (rest ++ b) k = alGet b k
      exact ih ha

theorem alHas_singleton_ne {κ α : Type} [DecidableEq κ]
    (k k' : κ) (v : α) (h : k' ≠ k) : alHas [(k', v)] k = false := by
  rw [alHas_false_iff]
  simp only [alGet, if_neg h]

/-- Processing the formatted node lines appends exactly the node list
(and its ids to the order). -/
theorem parse_node_lines (sub : List (Str × Node)) :
    ∀ st : PSt, st.stack = [] →
    (∀ kv ∈ sub, idOK kv.1 ∧ plainStr kv.2.label) →
    (∀ kv ∈ sub, alHas st.nodes kv.1 = false) →
    (sub.map Prod.fst).Nodup →
    ∃ mem', (sub.map (fun kv => formatNodeLine kv.1 kv.2)).foldlM
        parseLineStep st =
      .ok ⟨st.nodes ++ sub, st.order ++ sub.map Prod.fst, st.edges, mem',
        [], st.tops, st.seen, st.counter⟩ := by
  induction sub with
  | nil =>
    intro st hstack hok hfresh hnodup
    obtain ⟨n, o, e, m, sk, t, se, cnt⟩ := st
    have hsk : sk = [] := hstack
    subst hsk
    refine ⟨m, ?_⟩
    simp only [List.map_nil, List.foldlM_nil, List.append_nil]
    rfl
  | cons kv rest ih =>
    intro st hstack hok hfresh hnodup
    obtain ⟨id, node⟩ := kv
    have hkv_mem : (id, node) ∈ (id, node) :: rest := List.mem_cons_self _ _
    rw [List.map_cons, List.foldlM_cons]
    rw [parseLineStep_node st id node (hok _ hkv_mem).1 (hok _ hkv_mem).2
      (hfresh _ hkv_mem) hstack]
    simp only [bind, Except.bind]
    have hid_notin : id ∉ rest.map Prod.fst := by
      have h := hnodup
      rw [List.map_cons] at h
      exact (List.nodup_cons.mp h).1
    obtain ⟨mem', hrest⟩ := ih
      { st with
          nodes := st.nodes ++ [(id, node)]
          order := st.order ++ [id]
          membership := alPut st.membership id [] }
      hstack
      (fun kv hkv => hok kv (List.mem_cons_of_mem _ hkv))
      (by
        intro kv hkv
        show alHas (st.nodes ++ [(id, node)]) kv.1 = false
        rw [alHas_false_iff]
        rw [alGet_append_of_none st.nodes _ kv.1
          ((alHas_false_iff _ _).mp (hfresh kv (List.mem_cons_of_mem _ hkv)))]
        rw [← alHas_false_iff]
        refine alHas_singleton_ne kv.1 id node ?_
        intro he
        exact hid_notin (he ▸ List.mem_map_of_mem Prod.fst hkv))
      (by
        have h := hnodup
        rw [List.map_cons] at h
        exact (List.nodup_cons.mp h).2)
    rw [hrest]
    refine ⟨mem', ?_⟩
    show Except.ok _ = _
    rw [List.append_assoc st.nodes [(id, node)] rest,
      List.append_assoc st.order [id] (rest.map Prod.fst)]
    rfl

/-- The characters of a formatted edge line. -/
theorem formatEdgeLine_chars (e : Edge) (c : Char)
    (hc : c ∈ formatEdgeLine e) :
    c ∈ e.«from» ∨ c ∈ e.«to» ∨ (∃ lab, e.label = some lab ∧ c ∈ lab) ∨
      c ∈ e.kind.arrowToken ∨ c ∈ [' ', '|'] := by
  have hc' := hc
  unfold formatEdgeLine at hc'
  cases hl : e.label with
  | none =>
    rw [hl] at hc'
    dsimp only at hc'
    rcases List.mem_append.mp hc' with h | h
    · rcases List.mem_append.mp h with h2 | h2
      · exact Or.inl h2
      · rcases List.mem_cons.mp h2 with h3 | h3
        · exact Or.inr (Or.inr (Or.inr (Or.inr (by rw [h3]; decide))))
        · exact Or.inr (Or.inr (Or.inr (Or.inl h3)))
    · rcases List.mem_cons.mp h with h2 | h2
      · exact Or.inr (Or.inr (Or.inr (Or.inr (by rw [h2]; decide))))
      · exact Or.inr (Or.inl h2)
  | some lab =>
    rw [hl] at hc'
    dsimp only at hc'
    rcases List.mem_append.mp hc' with h | h
    · rcases List.mem_append.mp h with h2 | h2
      · rcases List.mem_append.mp h2 with h3 | h3
        · exact Or.inl h3
        · rcases List.mem_cons.mp h3 with h4 | h4
          · exact Or.inr (Or.inr (Or.inr (Or.inr (by rw [h4]; decide))))
          · exact Or.inr (Or.inr (Or.inr (Or.inl h4)))
      · rcases List.mem_cons.mp h2 with h3 | h3
        · exact Or.inr (Or.inr (Or.inr (Or.inr (by rw [h3]; decide))))
        · exact Or.inr (Or.inr (Or.inl ⟨lab, rfl, h3⟩))
    · rcases List.mem_cons.mp h with h2 | h2
      · exact Or.inr (Or.inr (Or.inr (Or.inr (by rw [h2]; decide))))
      · rcases List.mem_cons.mp h2 with h3 | h3
        · exact Or.inr (Or.inr (Or.inr (Or.inr (by rw [h3]; decide))))
        · exact Or.inr (Or.inl h3)

theorem stripLead_cons (x : Char) (s : Str) :
    stripLead [x] (x :: s) = some s := by
  unfold stripLead
  rw [if_pos (hasLead_singleton_self x s)]
  rfl

theorem internNode_existing (st : PSt) (id : Str) (hplain : plainStr id)
    (hhas : alHas st.nodes id = true) :
    internNode id st = .ok (id, false, st) := by
  unfold internNode
  simp only [bind, Except.bind]
  rw [NodeSpec_parse_plain id hplain]
  dsimp only
  simp only [insertNodeSpec]
  rw [if_pos hhas]
  rfl

/-- The membership-refresh step for an existing operand id. -/
theorem edge_membership_step (st : PSt) (id : Str) :
    ∃ m1, (if ¬ alHas st.membership id ∧ st.stack.isEmpty then
      { st with membership := alPut st.membership id [] } else st) =
      { st with membership := m1 } := by
  by_cases hm : alHas st.membership id = true
  · refine ⟨st.membership, ?_⟩
    rw [if_neg (fun hcond => hcond.1 hm)]
  · by_cases hs : st.stack.isEmpty = true
    · refine ⟨alPut st.membership id [], ?_⟩
      rw [if_pos ⟨hm, hs⟩]
    · refine ⟨st.membership, ?_⟩
      rw [if_neg (fun hcond => hs hcond.2)]

theorem no_dot_solid (e : Edge) (hfrom : plainStr e.«from»)
    (hto : plainStr e.«to»)
    (hlabp : ∀ lab, e.label = some lab → plainStr lab)
    (hk : e.kind = EdgeKind.Solid) : '.' ∉ formatEdgeLine e := by
  intro hc
  rcases formatEdgeLine_chars e '.' hc with h | h | ⟨lab, hl, h⟩ | h | h
  · exact absurd (hfrom.2 '.' h) (by decide)
  · exact absurd (hto.2 '.' h) (by decide)
  · exact absurd ((hlabp lab hl).2 '.' h) (by decide)
  · rw [hk] at h
    exact absurd h (by decide)
  · exact absurd h (by decide)

theorem no_dash_front (e : Edge) (hfrom : plainStr e.«from») :
    '-' ∉ e.«from» ++ [' '] := by
  intro hc
  rcases List.mem_append.mp hc with h | h
  · exact absurd (hfrom.2 '-' h) (by decide)
  · exact absurd h (by decide)

/-- `parse_edge_line` inverts `format_edge_line` when both operands
already exist. -/
theorem parseEdgeLine_format (st : PSt) (e : Edge)
    (hfrom : plainStr e.«from») (hto : plainStr e.«to»)
    (hlabp : ∀ lab, e.label = some lab → plainStr lab)
    (hhasF : alHas st.nodes e.«from» = true)
    (hhasT : alHas st.nodes e.«to» = true) :
    ∃ m2, parseEdgeLine (formatEdgeLine e) st =
      .ok (some e, { st with membership := m2 }) := by
  obtain ⟨tc, trest, htoeq⟩ : ∃ c r, e.«to» = c :: r := by
    cases hcs : e.«to» with
    | nil => exact absurd hcs hto.1
    | cons c r => exact ⟨c, r, rfl⟩
  have htc : isAlnum tc = true :=
    hto.2 tc (htoeq ▸ List.mem_cons_self tc trest)
  have hnolead : stripLead ['|'] e.«to» = none := by
    apply stripLead_none
    rw [htoeq]
    exact hasLead_cons_ne '|' tc _ _
      (beq_eq_false_iff_ne.mpr (Ne.symm (isAlnum_ne tc '|' htc (by decide))))
  cases hl : e.label with
  | none =>
    cases hk : e.kind with
    | Solid =>
      have hdot := no_dot_solid e hfrom hto hlabp hk
      have hso1 : splitOnceSub (("-.->").data) (formatEdgeLine e) = none :=
        splitOnceSub_none_of_not_mem _ _ '.' (by decide) hdot
      have hline : formatEdgeLine e =
          ((e.«from» ++ [' ']) ++ ("-->").data) ++ (' ' :: e.«to») := by
        unfold formatEdgeLine
        rw [hl]
        dsimp only
        rw [hk]
        simp [List.append_assoc, EdgeKind.arrowToken]
      have hso2 : splitOnceSub (("-->").data) (formatEdgeLine e) =
          some (e.«from» ++ [' '], ' ' :: e.«to») := by
        rw [hline]
        exact splitOnceSub_first '-' (['-', '>']) (e.«from» ++ [' '])
          (' ' :: e.«to») (no_dash_front e hfrom)
      simp only [parseEdgeLine]
      rw [hso1]
      dsimp only
      rw [hso2]
      dsimp only
      rw [trim_append_space e.«from» hfrom, trim_cons_space e.«to» hto]
      rw [hnolead]
      dsimp only
      simp only [bind, Except.bind, pure, Except.pure]
      rw [internNode_existing st e.«from» hfrom hhasF]
      dsimp only
      rw [if_neg Bool.false_ne_true]
      obtain ⟨m1, hm1⟩ := edge_membership_step st e.«from»
      rw [hm1]
      rw [internNode_existing { st with membership := m1 } e.«to» hto hhasT]
      dsimp only
      rw [if_neg Bool.false_ne_true]
      obtain ⟨m2, hm2⟩ := edge_membership_step
        { st with membership := m1 } e.«to»
      rw [hm2]
      refine ⟨m2, ?_⟩
      rw [show (⟨e.«from», e.«to», none, EdgeKind.Solid⟩ : Edge) = e from by
        rw [← hl, ← hk]]
    | Dashed =>
      have hline : formatEdgeLine e =
          ((e.«from» ++ [' ']) ++ ("-.->").data) ++ (' ' :: e.«to») := by
        unfold formatEdgeLine
        rw [hl]
        dsimp only
        rw [hk]
        simp [List.append_assoc, EdgeKind.arrowToken]
      have hso1 : splitOnceSub (("-.->").data) (formatEdgeLine e) =
          some (e.«from» ++ [' '], ' ' :: e.«to») := by
        rw [hline]
        exact splitOnceSub_first '-' (['.', '-', '>']) (e.«from» ++ [' '])
          (' ' :: e.«to») (no_dash_front e hfrom)
      simp only [parseEdgeLine]
      rw [hso1]
      dsimp only
      rw [trim_append_space e.«from» hfrom, trim_cons_space e.«to» hto]
      rw [hnolead]
      dsimp only
      simp only [bind, Except.bind, pure, Except.pure]
      rw [internNode_existing st e.«from» hfrom hhasF]
      dsimp only
      rw [if_neg Bool.false_ne_true]
      obtain ⟨m1, hm1⟩ := edge_membership_step st e.«from»
      rw [hm1]
      rw [internNode_existing { st with membership := m1 } e.«to» hto hhasT]
      dsimp only
      rw [if_neg Bool.false_ne_true]
      obtain ⟨m2, hm2⟩ := edge_membership_step
        { st with membership := m1 } e.«to»
      rw [hm2]
      refine ⟨m2, ?_⟩
      rw [show (⟨e.«from», e.«to», none, EdgeKind.Dashed⟩ : Edge) = e from by
        rw [← hl, ← hk]]
  | some lab =>
    have hlabP : plainStr lab := hlabp lab hl
    have hstrip : stripLead ['|'] (('|' :: lab) ++ ('|' :: ' ' :: e.«to»)) =
        some (lab ++ ('|' :: ' ' :: e.«to»)) :=
      stripLead_cons '|' (lab ++ ('|' :: ' ' :: e.«to»))
    have hX : lab ++ ('|' :: ' ' :: e.«to») =
        (lab ++ ['|']) ++ (' ' :: e.«to») := by
      rw [List.append_assoc]
      rfl
    have hsplit2 : splitOnceSub ['|'] (lab ++ ('|' :: ' ' :: e.«to»)) =
        some (lab, ' ' :: e.«to») := by
      rw [hX]
      exact splitOnceSub_first '|' [] lab (' ' :: e.«to»)
        (fun hm => absurd (hlabP.2 '|' hm) (by decide))
    have hBhead : ∀ c, (('|' :: lab) ++ ('|' :: ' ' :: e.«to»)).head? =
        some c → isWs c = false := by
      intro c hc
      have : c = '|' := (Option.some_inj.mp hc).symm
      rw [this]
      decide
    have hBlast : ∀ c, (('|' :: lab) ++ ('|' :: ' ' :: e.«to»)).getLast? =
        some c → isWs c = false := by
      intro c hc
      rw [getLast?_append_right _ _ (List.cons_ne_nil _ _)] at hc
      have h2 : ('|' :: ' ' :: e.«to») = ['|', ' '] ++ e.«to» := rfl
      rw [h2, getLast?_append_right _ _ (by
        intro hnil
        exact hto.1 hnil)] at hc
      exact plainStr_getLast_not_ws e.«to» hto c hc
    have htrimB : trim (('|' :: lab) ++ ('|' :: ' ' :: e.«to»)) =
        ('|' :: lab) ++ ('|' :: ' ' :: e.«to») :=
      trim_eq_self _ hBhead hBlast
    cases hk : e.kind with
    | Solid =>
      have hdot := no_dot_solid e hfrom hto hlabp hk
      have hso1 : splitOnceSub (("-.->").data) (formatEdgeLine e) = none :=
        splitOnceSub_none_of_not_mem _ _ '.' (by decide) hdot
      have hline : formatEdgeLine e =
          ((e.«from» ++ [' ']) ++ ("-->").data) ++
            (('|' :: lab) ++ ('|' :: ' ' :: e.«to»)) := by
        unfold formatEdgeLine
        rw [hl]
        dsimp only
        rw [hk]
        simp [List.append_assoc, EdgeKind.arrowToken]
      have hso2 : splitOnceSub (("-->").data) (formatEdgeLine e) =
          some (e.«from» ++ [' '],
            ('|' :: lab) ++ ('|' :: ' ' :: e.«to»)) := by
        rw [hline]
        exact splitOnceSub_first '-' (['-', '>']) (e.«from» ++ [' '])
          (('|' :: lab) ++ ('|' :: ' ' :: e.«to»)) (no_dash_front e hfrom)
      simp only [parseEdgeLine]
      rw [hso1]
      dsimp only
      rw [hso2]
      dsimp only
      rw [trim_append_space e.«from» hfrom, htrimB]
      rw [hstrip]
      dsimp only
      rw [hsplit2]
      dsimp only
      simp only [bind, Except.bind, pure, Except.pure]
      rw [trim_plain lab hlabP, trim_cons_space e.«to» hto]
      rw [internNode_existing st e.«from» hfrom hhasF]
      dsimp only
      rw [if_neg Bool.false_ne_true]
      obtain ⟨m1, hm1⟩ := edge_membership_step st e.«from»
      rw [hm1]
      rw [internNode_existing { st with membership := m1 } e.«to» hto hhasT]
      dsimp only
      rw [if_neg Bool.false_ne_true]
      obtain ⟨m2, hm2⟩ := edge_membership_step
        { st with membership := m1 } e.«to»
      rw [hm2]
      refine ⟨m2, ?_⟩
      rw [show (⟨e.«from», e.«to», some lab, EdgeKind.Solid⟩ : Edge) = e
        from by rw [← hl, ← hk]]
    | Dashed =>
      have hline : formatEdgeLine e =
          ((e.«from» ++ [' ']) ++ ("-.->").data) ++
            (('|' :: lab) ++ ('|' :: ' ' :: e.«to»)) := by
        unfold formatEdgeLine
        rw [hl]
        dsimp only
        rw [hk]
        simp [List.append_assoc, EdgeKind.arrowToken]
      have hso1 : splitOnceSub (("-.->").data) (formatEdgeLine e) =
          some (e.«from» ++ [' '],
            ('|' :: lab) ++ ('|' :: ' ' :: e.«to»)) := by
        rw [hline]
        exact splitOnceSub_first '-' (['.', '-', '>']) (e.«from» ++ [' '])
          (('|' :: lab) ++ ('|' :: ' ' :: e.«to»)) (no_dash_front e hfrom)
      simp only [parseEdgeLine]
      rw [hso1]
      dsimp only
      rw [trim_append_space e.«from» hfrom, htrimB]
      rw [hstrip]
      dsimp only
      rw [hsplit2]
      dsimp only
      simp only [bind, Except.bind, pure, Except.pure]
      rw [trim_plain lab hlabP, trim_cons_space e.«to» hto]
      rw [internNode_existing st e.«from» hfrom hhasF]
      dsimp only
      rw [if_neg Bool.false_ne_true]
      obtain ⟨m1, hm1⟩ := edge_membership_step st e.«from»
      rw [hm1]
      rw [internNode_existing { st with membership := m1 } e.«to» hto hhasT]
      dsimp only
      rw [if_neg Bool.false_ne_true]
      obtain ⟨m2, hm2⟩ := edge_membership_step
        { st with membership := m1 } e.«to»
      rw [hm2]
      refine ⟨m2, ?_⟩
      rw [show (⟨e.«from», e.«to», some lab, EdgeKind.Dashed⟩ : Edge) = e
        from by rw [← hl, ← hk]]

theorem formatEdgeLine_decomp (e : Edge) :
    ∃ rs, formatEdgeLine e = e.«from» ++ (' ' :: rs) := by
  unfold formatEdgeLine
  cases e.label with
  | none =>
    refine ⟨e.kind.arrowToken ++ (' ' :: e.«to»), ?_⟩
    dsimp only
    simp [List.append_assoc]
  | some lab =>
    refine ⟨e.kind.arrowToken ++ ('|' :: lab) ++ ('|' :: ' ' :: e.«to»), ?_⟩
    dsimp only
    simp [List.append_assoc]

theorem parseLineStep_edge (st : PSt) (e : Edge) (hstack : st.stack = [])
    (hfromOK : idOK e.«from») (htoOK : idOK e.«to»)
    (hlabp : ∀ lab, e.label = some lab → plainStr lab)
    (hhasF : alHas st.nodes e.«from» = true)
    (hhasT : alHas st.nodes e.«to» = true) :
    ∃ m2, parseLineStep st (formatEdgeLine e) =
      .ok { st with edges := st.edges ++ [e], membership := m2 } := by
  obtain ⟨rs, hRe⟩ := formatEdgeLine_decomp e
  have hsub : hasLead (("subgraph").data) (formatEdgeLine e) = false := by
    rw [hRe]
    refine hasLead_subgraph_false e.«from» (' ' :: rs) hfromOK.2.2 ?_
    intro c rs' hcr
    rw [((List.cons.injEq _ _ _ _).mp hcr).1.symm]
    decide
  have hendline : eqIgnoreCase (formatEdgeLine e) (("end").data) = false := by
    refine eqIgnoreCase_false_of_mem _ _ ' ' ?_ (by decide)
    rw [hRe]
    exact List.mem_append_right _ (List.mem_cons_self _ _)
  obtain ⟨m2, hedge⟩ := parseEdgeLine_format st e hfromOK.1 htoOK.1 hlabp
    hhasF hhasT
  refine ⟨m2, ?_⟩
  simp only [parseLineStep]
  rw [stripLead_none _ _ hsub]
  dsimp only
  rw [if_neg (by rw [hendline]; exact Bool.false_ne_true)]
  simp only [bind, Except.bind]
  rw [hedge]
  rfl

/-- Processing the formatted edge lines appends exactly the edge list. -/
theorem parse_edge_lines (edges : List Edge) :
    ∀ st : PSt, st.stack = [] →
    (∀ e ∈ edges, idOK e.«from» ∧ idOK e.«to» ∧
      ∀ lab, e.label = some lab → plainStr lab) →
    (∀ e ∈ edges, alHas st.nodes e.«from» = true ∧
      alHas st.nodes e.«to» = true) →
    ∃ mem', (edges.map formatEdgeLine).foldlM parseLineStep st =
      .ok ⟨st.nodes, st.order, st.edges ++ edges, mem', [], st.tops,
        st.seen, st.counter⟩ := by
  induction edges with
  | nil =>
    intro st hstack hok hhas
    obtain ⟨n, o, ed, m, sk, t, se, cnt⟩ := st
    have hsk : sk = [] := hstack
    subst hsk
    refine ⟨m, ?_⟩
    simp only [List.map_nil, List.foldlM_nil, List.append_nil]
    rfl
  | cons e rest ih =>
    intro st hstack hok hhas
    have hme : e ∈ e :: rest := List.mem_cons_self _ _
    rw [List.map_cons, List.foldlM_cons]
    obtain ⟨m2, hstep⟩ := parseLineStep_edge st e hstack (hok e hme).1
      (hok e hme).2.1 (hok e hme).2.2 (hhas e hme).1 (hhas e hme).2
    rw [hstep]
    simp only [bind, Except.bind]
    obtain ⟨mem', hrest⟩ := ih
      { st with edges := st.edges ++ [e], membership := m2 }
      hstack
      (fun e' he' => hok e' (List.mem_cons_of_mem _ he'))
      (fun e' he' => hhas e' (List.mem_cons_of_mem _ he'))
    rw [hrest]
    refine ⟨mem', ?_⟩
    show Except.ok _ = _
    rw [List.append_assoc st.edges [e] rest]
    rfl

theorem formatEdgeLine_ne_nil (e : Edge) : formatEdgeLine e ≠ [] := by
  obtain ⟨rs, hRe⟩ := formatEdgeLine_decomp e
  rw [hRe]
  intro h
  exact List.noConfusion (List.append_eq_nil.mp h).2

theorem formatNodeLine_ne_nil (id : Str) (node : Node) (hid : id ≠ []) :
    formatNodeLine id node ≠ [] := by
  obtain ⟨label, shape⟩ := node
  cases shape with
  | Rectangle =>
    by_cases hli : label = id
    · show (if label = id then id else _) ≠ []
      rw [if_pos hli]
      exact hid
    · show (if label = id then id else id ++ '[' :: label ++ ['\x5d']) ≠ []
      rw [if_neg hli]
      intro h
      exact List.noConfusion (List.append_eq_nil.mp h).2
  | Stadium =>
    intro h
    exact List.noConfusion (List.append_eq_nil.mp h).2
  | Circle =>
    intro h
    exact List.noConfusion (List.append_eq_nil.mp h).2
  | Diamond =>
    intro h
    exact List.noConfusion (List.append_eq_nil.mp h).2

theorem isEmpty_false_of_ne {α : Type} (l : List α) (h : l ≠ []) :
    l.isEmpty = false := by
  cases l with
  | nil => exact absurd rfl h
  | cons a as => rfl

/-- Trailing blank lines are dropped; with a nonempty last line this is
the identity. -/
theorem dropTrailing_eq_self (l : List Str) (hne : l ≠ [])
    (hlast : ∀ x, l.getLast? = some x → x ≠ []) :
    (l.reverse.dropWhile List.isEmpty).reverse = l := by
  cases hrev : l.reverse with
  | nil =>
    exfalso
    have h2 := congrArg List.reverse hrev
    rw [List.reverse_reverse] at h2
    exact hne h2
  | cons x xs =>
    have hx : l.getLast? = some x := by
      rw [← List.head?_reverse, hrev]
      rfl
    have hxne : x ≠ [] := hlast x hx
    rw [List.dropWhile_cons, isEmpty_false_of_ne x hxne,
      if_neg Bool.false_ne_true, ← hrev, List.reverse_reverse]

/-- The node-emitting fold of `to_definition` with no subgraphs. -/
theorem emit_nodes_fold (nodes : List (Str × Node)) :
    ∀ (sub : List (Str × Node)) (lines : List Str),
    (∀ id ∈ sub.map Prod.fst, alGet nodes id = alGet sub id) →
    (sub.map Prod.fst).Nodup →
    (sub.map Prod.fst).foldl (fun acc id =>
      if id ∈ ([] : List Str) then acc
      else match alGet nodes id with
        | some node => acc ++ [formatNodeLine id node]
        | none => acc) lines =
    lines ++ sub.map (fun kv => formatNodeLine kv.1 kv.2) := by
  intro sub
  induction sub with
  | nil =>
    intro lines hagree hnodup
    simp
  | cons kv rest ih =>
    obtain ⟨k, v⟩ := kv
    intro lines hagree hnodup
    rw [List.map_cons, List.foldl_cons]
    have hk : alGet nodes k = some v := by
      have h := hagree k (by
        rw [List.map_cons]
        exact List.mem_cons_self _ _)
      rw [h]
      simp [alGet]
    rw [if_neg (List.not_mem_nil k), hk]
    have hknotin : k ∉ rest.map Prod.fst := by
      have h := hnodup
      rw [List.map_cons] at h
      exact (List.nodup_cons.mp h).1
    have hagree2 : ∀ id ∈ rest.map Prod.fst,
        alGet nodes id = alGet rest id := by
      intro id hidm
      have h := hagree id (by
        rw [List.map_cons]
        exact List.mem_cons_of_mem _ hidm)
      rw [h]
      show alGet ((k, v) :: rest) id = alGet rest id
      have hkid : k ≠ id := fun he => hknotin (he ▸ hidm)
      simp only [alGet, if_neg hkid]
    have hnodup2 : (rest.map Prod.fst).Nodup := by
      have h := hnodup
      rw [List.map_cons] at h
      exact (List.nodup_cons.mp h).2
    rw [ih (lines ++ [formatNodeLine k v]) hagree2 hnodup2]
    rw [List.map_cons, List.append_assoc]
    rfl

/-- `to_definition` of a subgraph-free diagram: header, node lines, then
(blank-separated) edge lines. -/
theorem toDefLines_flat (d : Diagram) (hsub : d.subgraphs = [])
    (hnodesne : d.nodes ≠ [])
    (hord : d.order = d.nodes.map Prod.fst)
    (hnodup : (d.nodes.map Prod.fst).Nodup)
    (hids : ∀ kv ∈ d.nodes, kv.1 ≠ []) :
    d.toDefinitionLines =
      (("graph ").data ++ d.direction.asToken) ::
        (d.nodes.map (fun kv => formatNodeLine kv.1 kv.2)) ++
        (if d.edges.isEmpty then []
         else [] :: d.edges.map formatEdgeLine) := by
  have hmapne : d.nodes.map (fun kv => formatNodeLine kv.1 kv.2) ≠ [] := by
    intro h
    exact hnodesne (List.map_eq_nil.mp h)
  have hmaplast : ∀ x, (d.nodes.map
      (fun kv => formatNodeLine kv.1 kv.2)).getLast? = some x → x ≠ [] := by
    intro x hx
    have hne := hmapne
    rw [List.getLast?_eq_getLast _ hne] at hx
    have hmem : x ∈ d.nodes.map (fun kv => formatNodeLine kv.1 kv.2) :=
      (Option.some_inj.mp hx) ▸ List.getLast_mem hne
    obtain ⟨⟨kid, knode⟩, hkv, hfmt⟩ := List.mem_map.mp hmem
    have h2 : formatNodeLine kid knode = x := hfmt
    rw [← h2]
    exact formatNodeLine_ne_nil kid knode (hids (kid, knode) hkv)
  have hemaplast : d.edges ≠ [] → ∀ x,
      (d.edges.map formatEdgeLine).getLast? = some x → x ≠ [] := by
    intro hEne x hx
    have hne2 : d.edges.map formatEdgeLine ≠ [] := by
      intro h
      exact hEne (List.map_eq_nil.mp h)
    rw [List.getLast?_eq_getLast _ hne2] at hx
    have hmem : x ∈ d.edges.map formatEdgeLine :=
      (Option.some_inj.mp hx) ▸ List.getLast_mem hne2
    obtain ⟨e1, _, hfmt⟩ := List.mem_map.mp hmem
    rw [← hfmt]
    exact formatEdgeLine_ne_nil e1
  unfold Diagram.toDefinitionLines
  rw [hsub]
  simp only [emitTopSubgraphs]
  dsimp only
  rw [hord, emit_nodes_fold d.nodes d.nodes _ (fun id _ => rfl) hnodup]
  split_ifs with h1 h2 h3 h4 h5 h6 h7
  · exact absurd rfl h1.1
  · exact absurd rfl h1.1
  · exact absurd rfl h1.1
  · exact absurd rfl h1.1
  · exact absurd h6 h5.1
  · have hEne : d.edges ≠ [] := by
      intro h
      exact h5.1 (by rw [h]; rfl)
    have hmapEne : d.edges.map formatEdgeLine ≠ [] := by
      intro h
      exact hEne (List.map_eq_nil.mp h)
    rw [dropTrailing_eq_self _ (by simp) (by
      intro x hx
      rw [getLast?_append_right _ _ hmapEne] at hx
      exact hemaplast hEne x hx)]
    simp [List.append_assoc]
  · have hEe : d.edges = [] := List.isEmpty_iff.mp h7
    rw [hEe, List.map_nil, List.append_nil]
    rw [dropTrailing_eq_self _ (by simp) (by
      intro x hx
      rw [getLast?_append_right _ _ hmapne] at hx
      exact hmaplast x hx)]
    simp
  · exact absurd ⟨h7, by
      intro hc
      rw [List.isEmpty_iff] at hc
      exact List.noConfusion (List.append_eq_nil.mp hc).1⟩ h5

/-- An element given by `head?` is a member. -/
theorem mem_of_headq {α : Type} (l : List α) (c : α)
    (h : l.head? = some c) : c ∈ l := by
  cases l with
  | nil => cases h
  | cons x xs =>
    rw [Option.some_inj.mp h] at *
    exact List.mem_cons_self _ _

/-- An element given by `getLast?` is a member. -/
theorem mem_of_getLastq {α : Type} (l : List α) (c : α)
    (h : l.getLast? = some c) : c ∈ l := by
  have hne : l ≠ [] := by
    intro h0
    rw [h0] at h
    cases h
  rw [List.getLast?_eq_getLast l hne] at h
  exact (Option.some_inj.mp h) ▸ List.getLast_mem hne

/-- A string with no whitespace anywhere is its own trim. -/
theorem trim_eq_self_of_all (l : Str) (h : ∀ c ∈ l, isWs c = false) :
    trim l = l :=
  trim_eq_self l (fun c hc => h c (mem_of_headq l c hc))
    (fun c hc => h c (mem_of_getLastq l c hc))

/-- A string not containing `x` does not end in `x`. -/
theorem hasTail_false_of_not_mem (x : Char) (l : Str) (h : x ∉ l) :
    hasTail [x] l = false := by
  cases hr : l.reverse with
  | nil =>
    unfold hasTail
    rw [hr]
    rfl
  | cons c cs =>
    unfold hasTail
    rw [hr]
    have hcmem : c ∈ l := by
      rw [← List.mem_reverse, hr]
      exact List.mem_cons_self _ _
    have hxc : (x == c) = false :=
      beq_eq_false_iff_ne.mpr (fun he => h (he ▸ hcmem))
    show (x == c && hasLead [] cs) = false
    rw [hxc]
    rfl

/-- A string not containing `x` does not start with `[x, x]`. -/
theorem hasLead_two_false_of_not_mem (x : Char) (l : Str) (h : x ∉ l) :
    hasLead [x, x] l = false := by
  cases l with
  | nil => rfl
  | cons c cs =>
    have hxc : (x == c) = false :=
      beq_eq_false_iff_ne.mpr (fun he => h (he ▸ List.mem_cons_self c cs))
    show (x == c && hasLead [x] cs) = false
    rw [hxc]
    rfl

/-- Arrow tokens only use dash, dot and greater-than. -/
theorem arrowToken_chars (k : EdgeKind) (c : Char)
    (h : c ∈ k.arrowToken) : c ∈ (['-', '.', '>'] : Str) := by
  cases k with
  | Solid =>
    have h2 : c ∈ (['-', '-', '>'] : Str) := h
    simp only [List.mem_cons, List.not_mem_nil, or_false] at h2
    rcases h2 with rfl | rfl | rfl <;> simp
  | Dashed =>
    have h2 : c ∈ (['-', '.', '-', '>'] : Str) := h
    simp only [List.mem_cons, List.not_mem_nil, or_false] at h2
    rcases h2 with rfl | rfl | rfl | rfl <;> simp

/-- A non-alphanumeric, non-bracket character does not occur in a
formatted node line over plain id and label. -/
theorem formatNodeLine_not_mem (id : Str) (node : Node)
    (hid : plainStr id) (hlab : plainStr node.label) (c : Char)
    (hna : isAlnum c = false)
    (hnb : c ∉ (['[', '\x5d', '(', ')', '\x7b', '\x7d'] : Str)) :
    c ∉ formatNodeLine id node := by
  intro hc
  rcases formatNodeLine_chars id node c hc with h | h | h
  · rw [hid.2 c h] at hna
    exact Bool.noConfusion hna
  · rw [hlab.2 c h] at hna
    exact Bool.noConfusion hna
  · exact hnb h

/-- Every character of a formatted node line is non-whitespace. -/
theorem formatNodeLine_not_ws (id : Str) (node : Node)
    (hid : plainStr id) (hlab : plainStr node.label) :
    ∀ c ∈ formatNodeLine id node, isWs c = false := by
  intro c hc
  rcases formatNodeLine_chars id node c hc with h | h | h
  · exact isAlnum_not_ws c (hid.2 c h)
  · exact isAlnum_not_ws c (hlab.2 c h)
  · simp only [List.mem_cons, List.not_mem_nil, or_false] at h
    rcases h with rfl | rfl | rfl | rfl | rfl | rfl <;> decide

/-- A character that is not alphanumeric and not edge punctuation does
not occur in a formatted edge line over plain endpoints and label. -/
theorem formatEdgeLine_not_mem (e : Edge)
    (hf : plainStr e.«from») (ht : plainStr e.«to»)
    (hl : ∀ lab, e.label = some lab → plainStr lab) (c : Char)
    (hna : isAlnum c = false)
    (hns : c ∉ (['-', '.', '>', ' ', '|'] : Str)) :
    c ∉ formatEdgeLine e := by
  intro hc
  rcases formatEdgeLine_chars e c hc with h | h | ⟨lab, hlab2, h⟩ | h | h
  · rw [hf.2 c h] at hna
    exact Bool.noConfusion hna
  · rw [ht.2 c h] at hna
    exact Bool.noConfusion hna
  · rw [((hl lab hlab2).2 c h)] at hna
    exact Bool.noConfusion hna
  · have h2 := arrowToken_chars e.kind c h
    apply hns
    simp only [List.mem_cons, List.not_mem_nil, or_false] at h2 ⊢
    tauto
  · apply hns
    simp only [List.mem_cons, List.not_mem_nil, or_false] at h ⊢
    tauto

/-- The first character of a formatted edge line is the first character
of the source id. -/
theorem formatEdgeLine_head (e : Edge) (hf : e.«from» ≠ []) :
    (formatEdgeLine e).head? = e.«from».head? := by
  obtain ⟨rs, hre⟩ := formatEdgeLine_decomp e
  rw [hre]
  exact head?_append_left _ _ hf

/-- The last character of a formatted edge line is the last character of
the target id. -/
theorem formatEdgeLine_getLast (e : Edge) (hto : e.«to» ≠ []) :
    (formatEdgeLine e).getLast? = e.«to».getLast? := by
  unfold formatEdgeLine
  cases e.label with
  | none =>
    dsimp only
    rw [getLast?_append_right _ _ (List.cons_ne_nil ' ' e.«to»)]
    show ((([' '] : Str) ++ e.«to»)).getLast? = _
    rw [getLast?_append_right _ _ hto]
  | some lab =>
    dsimp only
    rw [getLast?_append_right _ _ (List.cons_ne_nil '|' _)]
    show (((['|', ' '] : Str) ++ e.«to»)).getLast? = _
    rw [getLast?_append_right _ _ hto]

/-- A formatted edge line is its own trim: it starts and ends in
alphanumeric id characters. -/
theorem trim_formatEdgeLine (e : Edge) (hf : plainStr e.«from»)
    (ht : plainStr e.«to») :
    trim (formatEdgeLine e) = formatEdgeLine e :=
  trim_eq_self _
    (fun c hc => by
      rw [formatEdgeLine_head e hf.1] at hc
      exact isAlnum_not_ws c (plainStr_head_alnum _ hf c hc))
    (fun c hc => by
      rw [formatEdgeLine_getLast e ht.1] at hc
      exact isAlnum_not_ws c (plainStr_getLast_alnum _ ht c hc))

/-- The invariants that make a line survive `significant_lines`
unchanged: no inner newline, no carriage-return tail, self-trimmed,
non-blank, and not a `%%` comment. -/
def sigLineOK (l : Str) : Prop :=
  '\n' ∉ l ∧ hasTail ['\x0d'] l = false ∧ trim l = l ∧ l ≠ [] ∧
    hasLead ['%', '%'] l = false

instance (s : Str) : Decidable (plainStr s) := by
  unfold plainStr
  infer_instance

instance (id : Str) : Decidable (idOK id) := by
  unfold idOK
  infer_instance

instance (l : Str) : Decidable (sigLineOK l) := by
  unfold sigLineOK
  infer_instance

/-- `sigOfParts` is the identity on lines satisfying `sigLineOK`. -/
theorem sigOfParts_self (parts : List Str)
    (h : ∀ l ∈ parts, sigLineOK l) : sigOfParts parts = parts := by
  induction parts with
  | nil => rfl
  | cons l rest ih =>
    obtain ⟨hnl, hcr, htr, hne, hpc⟩ := h l (List.mem_cons_self _ _)
    have hrest := ih (fun x hx => h x (List.mem_cons_of_mem _ hx))
    unfold sigOfParts at hrest ⊢
    rw [List.map_cons, List.map_cons, List.filter_cons]
    have hcs : crStrip l = l := by
      unfold crStrip
      rw [hcr]
      rfl
    rw [hcs, htr]
    have hcond : (decide (¬ l.isEmpty = true ∧
        ¬ hasLead (['%', '%'] : Str) l = true)) = true :=
      decide_eq_true ⟨not_isEmpty_of_ne l hne,
        by rw [hpc]; exact Bool.false_ne_true⟩
    rw [if_pos hcond, hrest]

/-- Splitting the newline-join of newline-free lines (with the final
newline of `to_definition`) recovers the lines plus one empty piece. -/
theorem joinLines_split (L : List Str) :
    L ≠ [] → (∀ l ∈ L, '\n' ∉ l) →
    splitCh '\n' (joinLines L ++ ['\n']) = L ++ [[]] := by
  induction L with
  | nil =>
    intro h _
    exact absurd rfl h
  | cons l rest ih =>
    intro _ hnl
    cases rest with
    | nil =>
      show splitCh '\n' (l ++ '\n' :: []) = [l] ++ [[]]
      rw [splitCh_append_cons]
      rw [splitCh_of_not_mem '\n' l (hnl l (List.mem_cons_self _ _))]
      rfl
    | cons l2 ls =>
      have hj : joinLines (l :: l2 :: ls)
          = l ++ '\n' :: joinLines (l2 :: ls) := rfl
      rw [hj, List.append_assoc]
      show splitCh '\n' (l ++ '\n' :: (joinLines (l2 :: ls) ++ ['\n'])) = _
      rw [splitCh_append_cons]
      rw [splitCh_of_not_mem '\n' l (hnl l (List.mem_cons_self _ _))]
      rw [ih (List.cons_ne_nil _ _)
        (fun x hx => hnl x (List.mem_cons_of_mem _ hx))]
      rfl

/-- The emitted header line survives `significant_lines` unchanged. -/
theorem sigLineOK_header (dir : Direction) :
    sigLineOK (("graph ").data ++ dir.asToken) := by
  cases dir <;>
    exact ⟨by decide, by decide, by decide, by decide, by decide⟩

/-- A formatted node line survives `significant_lines` unchanged. -/
theorem sigLineOK_node (id : Str) (node : Node)
    (hid : plainStr id) (hlab : plainStr node.label) :
    sigLineOK (formatNodeLine id node) := by
  refine ⟨?_, ?_, ?_, formatNodeLine_ne_nil id node hid.1, ?_⟩
  · exact formatNodeLine_not_mem id node hid hlab '\n' (by decide)
      (by decide)
  · exact hasTail_false_of_not_mem '\x0d' _
      (formatNodeLine_not_mem id node hid hlab '\x0d' (by decide)
        (by decide))
  · exact trim_eq_self_of_all _ (formatNodeLine_not_ws id node hid hlab)
  · exact hasLead_two_false_of_not_mem '%' _
      (formatNodeLine_not_mem id node hid hlab '%' (by decide) (by decide))

/-- A formatted edge line survives `significant_lines` unchanged. -/
theorem sigLineOK_edge (e : Edge) (hf : plainStr e.«from»)
    (ht : plainStr e.«to»)
    (hl : ∀ lab, e.label = some lab → plainStr lab) :
    sigLineOK (formatEdgeLine e) := by
  refine ⟨?_, ?_, ?_, formatEdgeLine_ne_nil e, ?_⟩
  · exact formatEdgeLine_not_mem e hf ht hl '\n' (by decide) (by decide)
  · exact hasTail_false_of_not_mem '\x0d' _
      (formatEdgeLine_not_mem e hf ht hl '\x0d' (by decide) (by decide))
  · exact trim_formatEdgeLine e hf ht
  · exact hasLead_two_false_of_not_mem '%' _
      (formatEdgeLine_not_mem e hf ht hl '%' (by decide) (by decide))

/-- The significant lines of a subgraph-free diagram's serialized
definition are exactly the header, the node lines and the edge lines. -/
theorem significantLines_toDef (d : Diagram) (hsub : d.subgraphs = [])
    (hnodesne : d.nodes ≠ [])
    (hord : d.order = d.nodes.map Prod.fst)
    (hnodup : (d.nodes.map Prod.fst).Nodup)
    (hplain : ∀ kv ∈ d.nodes, plainStr kv.1 ∧ plainStr kv.2.label)
    (heplain : ∀ e ∈ d.edges, plainStr e.«from» ∧ plainStr e.«to» ∧
      ∀ lab, e.label = some lab → plainStr lab) :
    significantLines d.toDefinition
      = (("graph ").data ++ d.direction.asToken) ::
        ((d.nodes.map (fun kv => formatNodeLine kv.1 kv.2)) ++
          (d.edges.map formatEdgeLine)) := by
  have hids : ∀ kv ∈ d.nodes, kv.1 ≠ [] :=
    fun kv hkv => (hplain kv hkv).1.1
  have hflat := toDefLines_flat d hsub hnodesne hord hnodup hids
  have hnodeOK : ∀ l ∈ d.nodes.map (fun kv => formatNodeLine kv.1 kv.2),
      sigLineOK l := by
    intro l hlmem
    obtain ⟨⟨id, node⟩, hkv, hfmt⟩ := List.mem_map.mp hlmem
    rw [← hfmt]
    exact sigLineOK_node id node (hplain _ hkv).1 (hplain _ hkv).2
  have hedgeOK : ∀ l ∈ d.edges.map formatEdgeLine, sigLineOK l := by
    intro l hlmem
    obtain ⟨e, he, hfmt⟩ := List.mem_map.mp hlmem
    rw [← hfmt]
    exact sigLineOK_edge e (heplain e he).1 (heplain e he).2.1
      (heplain e he).2.2
  unfold Diagram.toDefinition
  rw [significantLines_eq_sigOfParts, hflat]
  by_cases hE : d.edges.isEmpty = true
  · have hEe : d.edges = [] := List.isEmpty_iff.mp hE
    rw [hEe]
    rw [if_pos (show ([] : List Edge).isEmpty = true from rfl),
      List.map_nil]
    simp only [List.append_nil]
    have hOK1 : ∀ l ∈ (("graph ").data ++ d.direction.asToken) ::
        (d.nodes.map (fun kv => formatNodeLine kv.1 kv.2)),
        sigLineOK l := by
      intro l hlmem
      rcases List.mem_cons.mp hlmem with rfl | hm
      · exact sigLineOK_header d.direction
      · exact hnodeOK l hm
    rw [joinLines_split _ (List.cons_ne_nil _ _)
      (fun l hl => (hOK1 l hl).1)]
    rw [sigOfParts_append, sigOfParts_self _ hOK1]
    rw [show sigOfParts [[]] = ([] : List Str) from rfl, List.append_nil]
  · rw [if_neg hE]
    have hOK1 : ∀ l ∈ (("graph ").data ++ d.direction.asToken) ::
        (d.nodes.map (fun kv => formatNodeLine kv.1 kv.2)),
        sigLineOK l := by
      intro l hlmem
      rcases List.mem_cons.mp hlmem with rfl | hm
      · exact sigLineOK_header d.direction
      · exact hnodeOK l hm
    have hnl2 : ∀ l ∈ (("graph ").data ++ d.direction.asToken) ::
        (d.nodes.map (fun kv => formatNodeLine kv.1 kv.2)) ++
        ([] :: d.edges.map formatEdgeLine), ('\n' : Char) ∉ l := by
      intro l hlmem
      rcases List.mem_append.mp hlmem with hm | hm
      · exact (hOK1 l hm).1
      · rcases List.mem_cons.mp hm with rfl | hm2
        · exact List.not_mem_nil _
        · exact (hedgeOK l hm2).1
    rw [joinLines_split ((("graph ").data ++ d.direction.asToken) ::
        (d.nodes.map fun kv => formatNodeLine kv.1 kv.2) ++
        ([] :: d.edges.map formatEdgeLine)) (by simp) hnl2]
    rw [sigOfParts_append, sigOfParts_append]
    rw [show ([] :: d.edges.map formatEdgeLine : List Str)
        = [[]] ++ d.edges.map formatEdgeLine from rfl]
    rw [sigOfParts_append]
    rw [sigOfParts_self _ hOK1, sigOfParts_self _ hedgeOK]
    rw [show sigOfParts [[]] = ([] : List Str) from rfl]
    simp

/-- Generic association-list lookup success yields membership. -/
theorem alGet_mem {κ α : Type} [DecidableEq κ] (k : κ) (v : α) :
    ∀ m : List (κ × α), alGet m k = some v → (k, v) ∈ m := by
  intro m
  induction m with
  | nil =>
    intro h
    exact absurd h (by simp [alGet])
  | cons kv rest ih =>
    obtain ⟨k2, w⟩ := kv
    intro h
    by_cases hk : k2 = k
    · subst hk
      have h2 : w = v := by simpa [alGet] using h
      subst h2
      exact List.mem_cons_self _ _
    · have h2 : alGet rest k = some v := by
        simpa [alGet, hk] using h
      exact List.mem_cons_of_mem _ (ih h2)

/-- C2 (amended, **round-trip**): for a subgraph-free diagram whose
node ids satisfy the grammar restrictions (nonempty alphanumeric, not
`end` up to case, not starting with `subgraph`), whose labels and edge
labels are nonempty alphanumeric, whose declaration order matches its
node list, and whose edge endpoints are declared nodes — all invariants
of a successfully parsed subgraph-free diagram over such names —
re-parsing `to_definition` succeeds and reproduces the direction, the
node list (ids with label and shape, in order), the order, and the edge
list exactly.  Without these restrictions the round-trip fails: see the
counterexample, where a node id containing an arrow token is re-parsed
as an edge line. -/
theorem claim_C2_roundtrip (d : Diagram) (hsub : d.subgraphs = [])
    (hnodesne : d.nodes ≠ [])
    (hord : d.order = d.nodes.map Prod.fst)
    (hnodup : (d.nodes.map Prod.fst).Nodup)
    (hok : ∀ kv ∈ d.nodes, idOK kv.1 ∧ plainStr kv.2.label)
    (heok : ∀ e ∈ d.edges, alHas d.nodes e.«from» = true ∧
      alHas d.nodes e.«to» = true ∧
      ∀ lab, e.label = some lab → plainStr lab) :
    ∃ mem', Diagram.parse d.toDefinition
      = .ok ⟨d.direction, d.nodes, d.order, d.edges, [], mem'⟩ := by
  have hplain : ∀ kv ∈ d.nodes, plainStr kv.1 ∧ plainStr kv.2.label :=
    fun kv hkv => ⟨(hok kv hkv).1.1, (hok kv hkv).2⟩
  have hidOf : ∀ x : Str, alHas d.nodes x = true → idOK x := by
    intro x hx
    unfold alHas at hx
    cases hg : alGet d.nodes x with
    | none =>
      rw [hg] at hx
      exact absurd hx (by simp)
    | some v =>
      exact (hok (x, v) (alGet_mem x v d.nodes hg)).1
  have heplain : ∀ e ∈ d.edges, plainStr e.«from» ∧ plainStr e.«to» ∧
      ∀ lab, e.label = some lab → plainStr lab :=
    fun e he => ⟨(hidOf _ (heok e he).1).1, (hidOf _ (heok e he).2.1).1,
      (heok e he).2.2⟩
  have hsig := significantLines_toDef d hsub hnodesne hord hnodup hplain
    heplain
  have hhdr : parseGraphHeader (("graph ").data ++ d.direction.asToken)
      = .ok d.direction := by
    cases d.direction <;> rfl
  obtain ⟨m1, hN⟩ := parse_node_lines d.nodes PSt.init rfl hok
    (fun kv _ => rfl) hnodup
  simp only [PSt.init, List.nil_append] at hN
  obtain ⟨m2, hE2⟩ := parse_edge_lines d.edges
    ⟨d.nodes, d.nodes.map Prod.fst, [], m1, [], [], [], 0⟩ rfl
    (fun e he => ⟨hidOf _ (heok e he).1, hidOf _ (heok e he).2.1,
      (heok e he).2.2⟩)
    (fun e he => ⟨(heok e he).1, (heok e he).2.1⟩)
  simp only [List.nil_append] at hE2
  refine ⟨m2, ?_⟩
  simp only [Diagram.parse]
  rw [hsig]
  dsimp only
  rw [hhdr]
  simp only [bind, Except.bind]
  rw [List.foldlM_append]
  simp only [PSt.init]
  rw [hN]
  simp only [bind, Except.bind]
  rw [hE2]
  dsimp only
  rw [if_neg (fun hc => hc rfl)]
  rw [if_neg (not_isEmpty_of_ne d.nodes hnodesne)]
  rw [hord]
  rfl

/-- A concrete two-node diagram with a labeled edge for the round-trip
witness. -/
def c2diag : Diagram :=
  ⟨Direction.TopDown,
   [(("A").data, ⟨("A").data, NodeShape.Rectangle⟩),
    (("B").data, ⟨("Bee").data, NodeShape.Stadium⟩)],
   [("A").data, ("B").data],
   [⟨("A").data, ("B").data, some (("go").data), EdgeKind.Solid⟩],
   [], []⟩

theorem claim_C2_roundtrip_witness :
    ∃ mem', Diagram.parse c2diag.toDefinition
      = .ok ⟨c2diag.direction, c2diag.nodes, c2diag.order, c2diag.edges,
        [], mem'⟩ :=
  claim_C2_roundtrip c2diag rfl (by decide) rfl (by decide) (by decide)
    (by decide)

end Oxdraw
